import Mathlib

/-!
# Verification development for `pkg/compiler/compiler.go`

Shallow embedding of the whole-program back end: the archive data model, the
dependency resolver `ImportDependencies`, the dead-code elimination that
opens `WriteProgramCode`, the writer `SourceMapFilter` and the assembler
(`WritePkgCode` and the rest of `WriteProgramCode`).

Modelling conventions.

* Go `*Decl` values are pointers: the selection map of `WriteProgramCode` is
  keyed by pointer identity.  A pointer is a `DeclPtr` (an address) and the
  records they point to live in a store `heap : DeclPtr → Decl`.  Pointers in
  an archive are taken to be non-nil.
* Go `*dceInfo` values are pointers too, and one record is shared by the two
  index entries of a declaration that has both filters.  The records live in
  the list `DceState.infos`; a `*dceInfo` is an index into that list.
* `map[string][]*dceInfo` is an association list with the lookup, delete and
  assign operations of a Go map.
* `map[*Decl]struct{}` is a list used as a set.
* The `for len(pendingDecls) != 0` loop is run with a step budget; the
  budget that `dceSelection` hands it is proved to be enough.
* The loader `importPkg` is a function of the path, returning an archive or
  an error.  The recursion of `collectDependencies` is bounded by a depth
  budget, and `none` stands for a call that does not return within it.
* Byte slices are lists of `UInt8`; Go strings are turned into bytes by their
  UTF-8 encoding.  A slice expression `p[a:b]` is checked against the capacity
  of `p` and `p[a:]` against its length, so `Write` is given, next to the
  bytes of the slice, the bytes `spare` that lie behind its end within its
  capacity.
* The sink under a `SourceMapFilter` is an `io.Writer` from outside: it is a
  function from the slices it has received and the slice it is given to the
  pair it returns.  What the filter does to the outside is recorded in the
  filter: the slices handed to the sink, the invocations of the callback, and
  the arguments of `Write`.
* A call on the filter ends in an `Outcome`: it returns, or it panics (a slice
  or index expression out of range, the lookup of a position in a nil position
  table, a position table that cannot be read).  The loops of `Write` run on a
  budget derived from the length of the slice, which is proved to be enough.
* `removeWhitespace`, `prelude.Prelude`, the reader of the package `token` and
  the capacity of the slices the assembler builds are not part of this file:
  they are the fields of `Env`.  The lookup `(*token.FileSet).Position` is not
  computed: an invocation of the callback is recorded with the table and the
  position handed to the lookup, and on the nil table the lookup panics.
-/

namespace Compiler

/-! ## Data model -/

/-- Address of a `Decl` record (`*Decl` in the source). -/
abbrev DeclPtr := Nat

/-- The record `Decl` of the source. -/
structure Decl where
  FullName : String := ""
  Vars : List String := []
  DeclCode : List UInt8 := []
  MethodListCode : List UInt8 := []
  TypeInitCode : List UInt8 := []
  InitCode : List UInt8 := []
  DceObjectFilter : String := ""
  DceMethodFilter : String := ""
  DceDeps : List String := []
  Blocking : Bool := false
deriving DecidableEq, Repr

/-- The record `Archive` of the source.  `FileSet` is a slice that the code
tests against nil, hence the `Option`.  The four type-checker pointers
(`TypesInfo`, `Config`, `Pkg`, `Check`) are kept as optional handles. -/
structure Archive where
  ImportPath : String := ""
  Name : String := ""
  Imports : List String := []
  ExportData : List UInt8 := []
  Declarations : List DeclPtr := []
  IncJSCode : List UInt8 := []
  FileSet : Option (List UInt8) := none
  Minified : Bool := false
  NewCodeText : List (List UInt8) := []
  TypesInfo : Option Nat := none
  Config : Option Nat := none
  Pkg : Option Nat := none
  Check : Option Nat := none
  FuncSrcCache : List (String × String) := []
deriving DecidableEq, Repr

/-- The record `dceInfo` of the source. -/
structure dceInfo where
  decl : DeclPtr
  objectFilter : String := ""
  methodFilter : String := ""
deriving DecidableEq, Repr

/-! ## The filter index `byFilter` -/

/-- The Go map `map[string][]*dceInfo`. -/
abbrev FilterMap := List (String × List Nat)

/-- Map read `m[k]` with the presence flag. -/
def FilterMap.get (m : FilterMap) (k : String) : Option (List Nat) :=
  match m with
  | [] => none
  | (k', v) :: rest => if k' = k then some v else FilterMap.get rest k

/-- Map removal `delete(m, k)`. -/
def FilterMap.delete (m : FilterMap) (k : String) : FilterMap :=
  match m with
  | [] => []
  | (k', v) :: rest =>
    if k' = k then FilterMap.delete rest k else (k', v) :: FilterMap.delete rest k

/-- The statement `m[k] = append(m[k], i)`. -/
def FilterMap.push (m : FilterMap) (k : String) (i : Nat) : FilterMap :=
  (k, (m.get k).getD [] ++ [i]) :: m.delete k

/-- Total number of index entries. -/
def FilterMap.size (m : FilterMap) : Nat := (m.map (fun e => e.2.length)).sum

/-! ## Dead-code elimination (the first half of `WriteProgramCode`) -/

/-- The mutable locals of the elimination: the store of `dceInfo` records,
`byFilter`, `pendingDecls` (a stack, top at the end) and `dceSelection`. -/
structure DceState where
  infos : List dceInfo := []
  byFilter : FilterMap := []
  pendingDecls : List DeclPtr := []
  dceSelection : List DeclPtr := []
deriving DecidableEq, Repr

/-- Body of the inner setup loop (lines 139-153) for one declaration `d` of a
package with import path `importPath`. -/
def indexDecl (heap : DeclPtr → Decl) (importPath : String) (s : DceState)
    (d : DeclPtr) : DceState :=
  if (heap d).DceObjectFilter = "" ∧ (heap d).DceMethodFilter = "" then
    { s with pendingDecls := s.pendingDecls ++ [d] }
  else
    let i := s.infos.length
    let info0 : dceInfo := { decl := d }
    let info1 : dceInfo :=
      if (heap d).DceObjectFilter ≠ "" then
        { info0 with objectFilter := importPath ++ "." ++ (heap d).DceObjectFilter }
      else info0
    let bf1 : FilterMap :=
      if (heap d).DceObjectFilter ≠ "" then s.byFilter.push info1.objectFilter i
      else s.byFilter
    let info2 : dceInfo :=
      if (heap d).DceMethodFilter ≠ "" then
        { info1 with methodFilter := importPath ++ "." ++ (heap d).DceMethodFilter }
      else info1
    let bf2 : FilterMap :=
      if (heap d).DceMethodFilter ≠ "" then bf1.push info2.methodFilter i
      else bf1
    { s with infos := s.infos ++ [info2], byFilter := bf2 }

/-- The setup loops (lines 136-154): every declaration of every package, in
order. -/
def dceSetup (heap : DeclPtr → Decl) (pkgs : List Archive) : DceState :=
  pkgs.foldl (fun s pkg => pkg.Declarations.foldl (indexDecl heap pkg.ImportPath) s) {}

/-- Body of `for _, info := range infos` (lines 167-175) for the record at
index `i`. -/
def clearInfo (dep : String) (s : DceState) (i : Nat) : DceState :=
  match s.infos[i]? with
  | none => s
  | some info =>
    let info1 : dceInfo :=
      if info.objectFilter = dep then { info with objectFilter := "" } else info
    let info2 : dceInfo :=
      if info1.methodFilter = dep then { info1 with methodFilter := "" } else info1
    let s1 : DceState := { s with infos := s.infos.set i info2 }
    if info2.objectFilter = "" ∧ info2.methodFilter = "" then
      { s1 with pendingDecls := s1.pendingDecls ++ [info2.decl] }
    else s1

/-- Body of `for _, dep := range d.DceDeps` (lines 164-177). -/
def processDep (s : DceState) (dep : String) : DceState :=
  match s.byFilter.get dep with
  | none => s
  | some infos => infos.foldl (clearInfo dep) { s with byFilter := s.byFilter.delete dep }

/-- What one iteration of the worklist loop does with the popped declaration
`d` (lines 161-178); `s` is the state after `d` was taken off the worklist. -/
def processDecl (heap : DeclPtr → Decl) (s : DceState) (d : DeclPtr) : DceState :=
  (heap d).DceDeps.foldl processDep { s with dceSelection := s.dceSelection.insert d }

/-- The worklist loop (lines 157-179): pop the last element, process it.
`none` when the step budget runs out. -/
def dceLoop (heap : DeclPtr → Decl) : Nat → DceState → Option DceState
  | fuel, s =>
    match s.pendingDecls.getLast? with
    | none => some s
    | some d =>
      match fuel with
      | 0 => none
      | fuel + 1 =>
        dceLoop heap fuel (processDecl heap { s with pendingDecls := s.pendingDecls.dropLast } d)

/-- Number of worklist entries plus number of index entries: an upper bound
on the iterations left. -/
def dceMeasure (s : DceState) : Nat :=
  s.pendingDecls.length + s.byFilter.size

/-- The set `dceSelection` that `WriteProgramCode` computes for `pkgs`
(lines 136-179). -/
def dceSelection (heap : DeclPtr → Decl) (pkgs : List Archive) : Option (List DeclPtr) :=
  (dceLoop heap (dceMeasure (dceSetup heap pkgs)) (dceSetup heap pkgs)).map
    (fun s => s.dceSelection)

/-- One iteration of the worklist loop under an arbitrary pop discipline: any
element of the worklist may be taken. -/
inductive PopStep (heap : DeclPtr → Decl) : DceState → DceState → Prop
  | pop (s : DceState) (l1 l2 : List DeclPtr) (d : DeclPtr)
      (h : s.pendingDecls = l1 ++ d :: l2) :
      PopStep heap s (processDecl heap { s with pendingDecls := l1 ++ l2 } d)

/-- A run of the worklist loop under an arbitrary pop discipline. -/
inductive PopRun (heap : DeclPtr → Decl) : DceState → DceState → Prop
  | done (s : DceState) : PopRun heap s s
  | next (s t u : DceState) : PopStep heap s t → PopRun heap t u → PopRun heap s u

/-- The closure conditions of the selection: (i) roots, (ii) declarations all
of whose filter keys are listed by a member. -/
def DceClosed (heap : DeclPtr → Decl) (pkgs : List Archive) (S : DeclPtr → Prop) : Prop :=
  (∀ pkg ∈ pkgs, ∀ d ∈ pkg.Declarations,
      (heap d).DceObjectFilter = "" → (heap d).DceMethodFilter = "" → S d) ∧
  (∀ pkg ∈ pkgs, ∀ d ∈ pkg.Declarations,
      ¬ ((heap d).DceObjectFilter = "" ∧ (heap d).DceMethodFilter = "") →
      ((heap d).DceObjectFilter ≠ "" →
        ∃ e, S e ∧ (pkg.ImportPath ++ "." ++ (heap d).DceObjectFilter) ∈ (heap e).DceDeps) →
      ((heap d).DceMethodFilter ≠ "" →
        ∃ e, S e ∧ (pkg.ImportPath ++ "." ++ (heap d).DceMethodFilter) ∈ (heap e).DceDeps) →
      S d)

/-! ## Test scenario of the specification -/

/-- Store for the scenario: `D1` at 1, `D2` at 2, `D3` at 3, `D4` at 4. -/
def scenarioHeap : DeclPtr → Decl
  | 1 => { FullName := "D1", DceObjectFilter := "T" }
  | 2 => { FullName := "D2", DceMethodFilter := "M", DceDeps := ["p.T"] }
  | 3 => { FullName := "D3", DceDeps := ["p.T"] }
  | 4 => { FullName := "D4", DceObjectFilter := "Unused" }
  | _ => {}

/-- Package `p` of the scenario with `D1`, `D2`, `D3`. -/
def scenarioPkg : Archive := { ImportPath := "p", Name := "p", Declarations := [1, 2, 3] }

/-- Package `p` of the scenario with the unused declaration `D4` added. -/
def scenarioPkg4 : Archive :=
  { ImportPath := "p", Name := "p", Declarations := [1, 2, 3, 4] }

/-- The archives with every declaration outside `sel` removed: import paths
and relative order are kept. -/
def restrictArchives (sel : List DeclPtr) (pkgs : List Archive) : List Archive :=
  pkgs.map (fun pkg =>
    { pkg with Declarations := pkg.Declarations.filter (fun d => decide (d ∈ sel)) })

/-! ## Invariants of the worklist loop -/

/-- A declaration pointer is on the worklist or already selected. -/
def DceState.seen (s : DceState) (x : DeclPtr) : Prop :=
  x ∈ s.pendingDecls ∨ x ∈ s.dceSelection

/-- The part of the loop invariant that does not mention `byFilter`.  `I0` is
the store of `dceInfo` records right after setup and `T` any set the selection
is to be compared with. -/
structure DceBase (heap : DeclPtr → Decl) (T : DeclPtr → Prop) (I0 : List dceInfo)
    (s : DceState) : Prop where
  len : s.infos.length = I0.length
  shape : ∀ (i : Nat) (a b : dceInfo), I0[i]? = some a → s.infos[i]? = some b →
    b.decl = a.decl ∧ (b.objectFilter = a.objectFilter ∨ b.objectFilter = "") ∧
      (b.methodFilter = a.methodFilter ∨ b.methodFilter = "")
  ready : ∀ (j : Nat) (b : dceInfo), s.infos[j]? = some b → b.objectFilter = "" → b.methodFilter = "" →
    s.seen b.decl
  inT : ∀ x : DeclPtr, s.seen x → T x
  cleared : ∀ (i : Nat) (a b : dceInfo), I0[i]? = some a → s.infos[i]? = some b →
    (a.objectFilter ≠ "" → b.objectFilter = "" →
      ∃ e, T e ∧ a.objectFilter ∈ (heap e).DceDeps) ∧
    (a.methodFilter ≠ "" → b.methodFilter = "" →
      ∃ e, T e ∧ a.methodFilter ∈ (heap e).DceDeps)

/-- Every record still waiting on a key is listed under that key in
`byFilter`. -/
def DceCons (s : DceState) : Prop :=
  ∀ (j : Nat) (b : dceInfo) (K : String), s.infos[j]? = some b → K ≠ "" → (b.objectFilter = K ∨ b.methodFilter = K) →
    ∃ l, s.byFilter.get K = some l ∧ j ∈ l

/-- The form of `DceCons` inside `for _, info := range infos`: `dep` was
deleted from the index and `rem` are the records not yet visited. -/
def DceConsMid (dep : String) (rem : List Nat) (s : DceState) : Prop :=
  ∀ (j : Nat) (b : dceInfo) (K : String), s.infos[j]? = some b → K ≠ "" → (b.objectFilter = K ∨ b.methodFilter = K) →
    (K = dep ∧ j ∈ rem) ∨ (K ≠ dep ∧ ∃ l, s.byFilter.get K = some l ∧ j ∈ l)

/-- Every key that a selected declaration lists has left the index. -/
def DceDone (heap : DeclPtr → Decl) (s : DceState) : Prop :=
  ∀ x ∈ s.dceSelection, ∀ K ∈ (heap x).DceDeps, s.byFilter.get K = none

/-- The closure property that links `T` to the records of the store: a record
all of whose keys are listed by members of `T` has its declaration in `T`. -/
def DceRule (heap : DeclPtr → Decl) (T : DeclPtr → Prop) (I0 : List dceInfo) : Prop :=
  ∀ (i : Nat) (a : dceInfo), I0[i]? = some a →
    (a.objectFilter ≠ "" → ∃ e, T e ∧ a.objectFilter ∈ (heap e).DceDeps) →
    (a.methodFilter ≠ "" → ∃ e, T e ∧ a.methodFilter ∈ (heap e).DceDeps) →
    T a.decl

/-- The declarations of the program with the import path of their package,
in the order the setup loops visit them. -/
def dceOccs (pkgs : List Archive) : List (String × DeclPtr) :=
  match pkgs with
  | [] => []
  | pkg :: rest => pkg.Declarations.map (fun d => (pkg.ImportPath, d)) ++ dceOccs rest

/-- The `dceInfo` record the setup loop builds for a declaration `d` with a
filter in a package with import path `p`. -/
def setupInfo (heap : DeclPtr → Decl) (p : String) (d : DeclPtr) : dceInfo :=
  { decl := d,
    objectFilter :=
      if (heap d).DceObjectFilter = "" then "" else p ++ "." ++ (heap d).DceObjectFilter,
    methodFilter :=
      if (heap d).DceMethodFilter = "" then "" else p ++ "." ++ (heap d).DceMethodFilter }

/-- What holds of the setup state once the occurrences `O` have been
visited. -/
structure SetupInv (heap : DeclPtr → Decl) (O : List (String × DeclPtr)) (s : DceState) :
    Prop where
  roots : ∀ (p : String) (d : DeclPtr), (p, d) ∈ O →
    (heap d).DceObjectFilter = "" → (heap d).DceMethodFilter = "" → d ∈ s.pendingDecls
  idx : ∀ (p : String) (d : DeclPtr), (p, d) ∈ O →
    ¬ ((heap d).DceObjectFilter = "" ∧ (heap d).DceMethodFilter = "") →
    ∃ i : Nat, s.infos[i]? = some (setupInfo heap p d)
  pend : ∀ d : DeclPtr, d ∈ s.pendingDecls →
    ∃ p : String, (p, d) ∈ O ∧ (heap d).DceObjectFilter = "" ∧ (heap d).DceMethodFilter = ""
  inf : ∀ (i : Nat) (a : dceInfo), s.infos[i]? = some a →
    ∃ (p : String) (d : DeclPtr), (p, d) ∈ O ∧
      ¬ ((heap d).DceObjectFilter = "" ∧ (heap d).DceMethodFilter = "") ∧
      a = setupInfo heap p d
  cons : DceCons s
  sel : s.dceSelection = []

/-! ## The dependency resolver `ImportDependencies` -/

/-- A Go `error` value: its message. -/
abbrev GoError := String

/-- The two variables the closure `collectDependencies` captures: the slice
`deps` and the set `paths` (the keys of `map[string]bool` that hold `true`). -/
structure DepState where
  deps : List Archive := []
  paths : List String := []
deriving DecidableEq, Repr

/-- The loop `for _, imp := range imports { if err := f(imp); err != nil
{ return err } }` (lines 103-107 and 116-120).  `none`: the call does not
return within the recursion budget. -/
def forImports (f : String → DepState → Option (Except GoError DepState)) :
    List String → DepState → Option (Except GoError DepState)
  | [], st => some (.ok st)
  | imp :: rest, st =>
    match f imp st with
    | none => none
    | some (.error e) => some (.error e)
    | some (.ok st1) => forImports f rest st1

/-- The closure `collectDependencies` (lines 95-111).  The loader `importPkg`
is a function of the path.  The first argument bounds the recursion depth;
`none` when it is exceeded. -/
def collectDependencies (importPkg : String → Except GoError Archive) :
    Nat → String → DepState → Option (Except GoError DepState)
  | 0, _, _ => none
  | fuel + 1, path, st =>
    if path ∈ st.paths then some (.ok st)
    else
      match importPkg path with
      | .error e => some (.error e)
      | .ok dep =>
        match forImports (collectDependencies importPkg fuel) dep.Imports st with
        | none => none
        | some (.error e) => some (.error e)
        | some (.ok st1) =>
          some (.ok { deps := st1.deps ++ [dep], paths := dep.ImportPath :: st1.paths })

/-- The function `ImportDependencies` (lines 91-124).  The result is the Go
pair: the slice (`nil` is the empty list) and the error (`none` is `nil`). -/
def ImportDependencies (importPkg : String → Except GoError Archive) (fuel : Nat)
    (archive : Archive) : Option (List Archive × Option GoError) :=
  match collectDependencies importPkg fuel "runtime" {} with
  | none => none
  | some (.error e) => some ([], some e)
  | some (.ok st) =>
    match forImports (collectDependencies importPkg fuel) archive.Imports st with
    | none => none
    | some (.error e) => some ([], some e)
    | some (.ok st1) => some (st1.deps ++ [archive], none)

/-- The paths reachable from `"runtime"` or from one of the entry's imports
by following `Imports` of loaded archives zero or more times. -/
inductive Reachable (importPkg : String → Except GoError Archive) (archive : Archive) :
    String → Prop
  | runtime : Reachable importPkg archive "runtime"
  | entry (p : String) : p ∈ archive.Imports → Reachable importPkg archive p
  | step (p q : String) (a : Archive) : Reachable importPkg archive p →
      importPkg p = .ok a → q ∈ a.Imports → Reachable importPkg archive q

/-- The reachable import graph is acyclic: `rank` falls along every import
edge that leaves a reachable path. -/
def ImportAcyclic (importPkg : String → Except GoError Archive) (archive : Archive)
    (rank : String → Nat) : Prop :=
  ∀ (p q : String) (a : Archive), Reachable importPkg archive p → importPkg p = .ok a →
    q ∈ a.Imports → rank q < rank p

/-- The loader returns, for each path, an archive whose `ImportPath` is that
path. -/
def LoaderConsistent (importPkg : String → Except GoError Archive) : Prop :=
  ∀ (p : String) (a : Archive), importPkg p = .ok a → a.ImportPath = p

/-- Invariant of the resolver state. -/
structure DepInv (importPkg : String → Except GoError Archive) (archive : Archive)
    (st : DepState) : Prop where
  pathsIff : ∀ p : String, p ∈ st.paths ↔ ∃ a ∈ st.deps, a.ImportPath = p
  loaded : ∀ a ∈ st.deps, importPkg a.ImportPath = .ok a
  reach : ∀ a ∈ st.deps, Reachable importPkg archive a.ImportPath
  topo : ∀ (i : Nat) (a : Archive), st.deps[i]? = some a → ∀ q ∈ a.Imports,
    ∃ (j : Nat) (b : Archive), j < i ∧ st.deps[j]? = some b ∧ b.ImportPath = q
  nodup : (st.deps.map (fun a => a.ImportPath)).Nodup

/-- What a successful call of `collectDependencies` (or of a loop of such
calls), bounded by rank `r`, establishes: from state `st` to state `st1`. -/
structure DepPost (importPkg : String → Except GoError Archive) (archive : Archive)
    (rank : String → Nat) (r : Nat) (st st1 : DepState) : Prop where
  inv : DepInv importPkg archive st1
  ext : ∃ more : List Archive, st1.deps = st.deps ++ more
  bound : ∀ p ∈ st1.paths, p ∈ st.paths ∨ rank p ≤ r

/-- First failing path of a list of subtrees visited in order, with the
loader's error. -/
def firstFailureIn (f : String → Option (Option (String × GoError))) :
    List String → Option (Option (String × GoError))
  | [] => some none
  | p :: rest =>
    match f p with
    | none => none
    | some (some pe) => some (some pe)
    | some none => firstFailureIn f rest

/-- First path, in depth-first order below `path` (a path before its imports,
imports in order), on which the loader fails, with the loader's error;
`some none` when the loader fails nowhere below `path`. -/
def firstFailure (importPkg : String → Except GoError Archive) :
    Nat → String → Option (Option (String × GoError))
  | 0, _ => none
  | fuel + 1, path =>
    match importPkg path with
    | .error e => some (some (path, e))
    | .ok dep => firstFailureIn (firstFailure importPkg fuel) dep.Imports

/-- First failing path of the whole traversal: `"runtime"` first, then the
entry's imports in order. -/
def firstFailureFrom (importPkg : String → Except GoError Archive) (fuel : Nat)
    (archive : Archive) : Option (Option (String × GoError)) :=
  firstFailureIn (firstFailure importPkg fuel) ("runtime" :: archive.Imports)

/-! ## Loaders for the resolver examples -/

/-- Archive of the baseline package, importing `sys`. -/
def runtimeArchive : Archive := { ImportPath := "runtime", Name := "runtime", Imports := ["sys"] }

/-- Archive of a leaf package. -/
def sysArchive : Archive := { ImportPath := "sys", Name := "sys" }

/-- Archive of a package that imports both. -/
def fmtArchive : Archive := { ImportPath := "fmt", Name := "fmt", Imports := ["runtime", "sys"] }

/-- A loader that knows `runtime`, `sys` and `fmt`. -/
def sampleLoader : String → Except GoError Archive := fun p =>
  if p = "runtime" then .ok runtimeArchive
  else if p = "sys" then .ok sysArchive
  else if p = "fmt" then .ok fmtArchive
  else .error ("not found: " ++ p)

/-- Rank for `sampleLoader`. -/
def sampleRank : String → Nat := fun p =>
  if p = "fmt" then 2 else if p = "runtime" then 1 else 0

/-- An entry package importing `fmt` and `sys`. -/
def mainArchive : Archive := { ImportPath := "main", Name := "main", Imports := ["fmt", "sys"] }

/-- An entry package that imports a package the loader does not know. -/
def brokenArchive : Archive := { ImportPath := "main", Name := "main", Imports := ["fmt", "os", "net"] }

/-- An archive that the loader hands out for `"runtime"` although its own
`ImportPath` is `x`. -/
def aliasArchive : Archive := { ImportPath := "x", Name := "x" }

/-- A loader that is not consistent with `ImportPath`: it knows only
`"runtime"` and answers with `aliasArchive`. -/
def aliasLoader : String → Except GoError Archive := fun p =>
  if p = "runtime" then .ok aliasArchive else .error ("not found: " ++ p)

/-- An entry package importing `x`. -/
def aliasEntry : Archive := { ImportPath := "main", Name := "main", Imports := ["x"] }

/-! ## The source-map filter writer `SourceMapFilter` -/

/-- The conversion `[]byte(s)` of a Go string. -/
def goBytes (s : String) : List UInt8 := s.data.flatMap String.utf8EncodeChar

/-- One invocation of `MappingCallback`: the generated line and column, and
the two arguments of the lookup `f.fileSet.Position(token.Pos(pos))`, which is
code of the package `token`. -/
structure MappingCall where
  generatedLine : Nat
  generatedColumn : Nat
  fileSet : Option (List UInt8)
  pos : Nat
deriving DecidableEq, Repr

/-- The record `SourceMapFilter`.

* `Writer` is the underlying sink: what its `Write` returns for a slice, given
  the slices it received before.
* `MappingCallback` tells whether a callback is registered (`!= nil`).
* `fileSet` is the position table in use, named by the serialized table it
  was read from; `none` is the nil pointer.
* `sunk`, `calls` and `trace` record the effects: the slices handed to
  `Writer.Write`, the invocations of the callback, and the arguments of
  `Write`, each in order.
* `line` and `column` are natural numbers: they start at 0 and are only added
  to or reset to 0. -/
structure SourceMapFilter where
  Writer : List (List UInt8) → List UInt8 → Nat × Option GoError
  MappingCallback : Bool := false
  line : Nat := 0
  column : Nat := 0
  fileSet : Option (List UInt8) := none
  sunk : List (List UInt8) := []
  calls : List MappingCall := []
  trace : List (List UInt8) := []

/-- Why a call panics: a slice or index expression out of range; the lookup
`f.fileSet.Position` on the nil position table (line 315); the `panic(err)`
of `WritePkgCode` on a position table that cannot be read (line 209). -/
inductive Panic where
  | outOfRange
  | nilFileSet
  | readFileSet
deriving DecidableEq, Repr

/-- How a call on a `SourceMapFilter` ends: it returns a value, it panics, or
it is cut off by the iteration budget of the model.  Each carries the state
of the filter at that point. -/
inductive Outcome (α : Type) where
  | returned (f : SourceMapFilter) (val : α)
  | panicked (f : SourceMapFilter) (why : Panic)
  | unfinished (f : SourceMapFilter)

/-- The state of the filter at the end of a call. -/
def Outcome.state {α : Type} : Outcome α → SourceMapFilter
  | .returned f _ => f
  | .panicked f _ => f
  | .unfinished f => f

/-- The panic a call ended in, if it did. -/
def Outcome.failure {α : Type} : Outcome α → Option Panic
  | .panicked _ why => some why
  | _ => none

/-- The function `bytes.IndexByte`; `none` stands for -1. -/
def IndexByte (p : List UInt8) (c : UInt8) : Option Nat :=
  match p with
  | [] => none
  | b :: rest => if b = c then some 0 else (IndexByte rest c).map (fun i => i + 1)

/-- The function `binary.BigEndian.Uint32` on a slice of four bytes. -/
def BigEndianUint32 (b : List UInt8) : Nat :=
  match b with
  | [b0, b1, b2, b3] => b0.toNat * 2 ^ 24 + b1.toNat * 2 ^ 16 + b2.toNat * 2 ^ 8 + b3.toNat
  | _ => 0

/-- The inner loop of `Write` (lines 300-309): count the lines and the column
of the slice `w` just handed to the sink.  `none` when the iteration budget
runs out. -/
def trackLines : Nat → SourceMapFilter → List UInt8 → Option SourceMapFilter
  | 0, _, _ => none
  | fuel + 1, f, w =>
    match IndexByte w 10 with
    | none => some { f with column := f.column + w.length }
    | some i => trackLines fuel { f with line := f.line + 1, column := 0 } (w.drop (i + 1))

/-- The outer loop of `Write` (lines 291-319); `n` is the running count and
`spare` are the bytes behind the end of `p` within its capacity.

After a write that the sink accepted, with the sentinel at index `i`:
* with a callback registered, line 315 first evaluates `p[i+1:i+5]`, which
  panics unless `i + 5 ≤ cap(p)`, then `f.fileSet.Position`, which panics on
  the nil table, and only then invokes the callback;
* line 317, `p = p[i+5:]`, panics unless `i + 5 ≤ len(p)`. -/
def writeLoop : Nat → SourceMapFilter → List UInt8 → List UInt8 → Nat →
    Outcome (Nat × Option GoError)
  | 0, f, _, _, _ => .unfinished f
  | fuel + 1, f, p, spare, n =>
    let w : List UInt8 :=
      match IndexByte p 8 with
      | some i => p.take i
      | none => p
    let r := f.Writer f.sunk w
    match trackLines (w.length + 1) { f with sunk := f.sunk ++ [w] } w with
    | none => .unfinished { f with sunk := f.sunk ++ [w] }
    | some f2 =>
      match IndexByte p 8 with
      | none => .returned f2 (n + r.1, r.2)
      | some i =>
        if r.2 ≠ none then .returned f2 (n + r.1, r.2)
        else if f2.MappingCallback then
          if i + 5 ≤ p.length + spare.length then
            if f2.fileSet = none then .panicked f2 .nilFileSet
            else if i + 5 ≤ p.length then
              writeLoop fuel
                { f2 with calls := f2.calls ++
                    [{ generatedLine := f2.line + 1, generatedColumn := f2.column,
                       fileSet := f2.fileSet,
                       pos := BigEndianUint32 (((p ++ spare).drop (i + 1)).take 4) }] }
                (p.drop (i + 5)) spare (n + r.1 + 5)
            else
              .panicked
                { f2 with calls := f2.calls ++
                    [{ generatedLine := f2.line + 1, generatedColumn := f2.column,
                       fileSet := f2.fileSet,
                       pos := BigEndianUint32 (((p ++ spare).drop (i + 1)).take 4) }] }
                .outOfRange
          else .panicked f2 .outOfRange
        else if i + 5 ≤ p.length then writeLoop fuel f2 (p.drop (i + 5)) spare (n + r.1 + 5)
        else .panicked f2 .outOfRange

/-- The method `SourceMapFilter.Write` (lines 289-320) on the slice `p` whose
backing array holds the bytes `spare` behind the end of `p`. -/
def Write (f : SourceMapFilter) (p spare : List UInt8) : Outcome (Nat × Option GoError) :=
  writeLoop (p.length + 1) { f with trace := f.trace ++ [p] } p spare 0

/-- A sink that accepts every write: it takes all the bytes and returns no
error. -/
def Accepts (sink : List (List UInt8) → List UInt8 → Nat × Option GoError) : Prop :=
  ∀ (hist : List (List UInt8)) (w : List UInt8), sink hist w = (w.length, none)

/-- The sink that accepts every write. -/
def acceptAll : List (List UInt8) → List UInt8 → Nat × Option GoError :=
  fun _ w => (w.length, none)

/-- Every sentinel byte 0x08 that starts a marker is followed by at least
four payload bytes; the first argument is the number of payload bytes still
to be skipped. -/
def markersComplete : Nat → List UInt8 → Bool
  | k, [] => k == 0
  | 0, b :: rest => if b = 8 then markersComplete 4 rest else markersComplete 0 rest
  | k + 1, _ :: rest => markersComplete k rest

/-- The bytes of a slice with every 5-byte marker (sentinel and four payload
bytes) removed; the first argument is the number of payload bytes still to be
skipped. -/
def stripMarkers : Nat → List UInt8 → List UInt8
  | _, [] => []
  | 0, b :: rest => if b = 8 then stripMarkers 4 rest else b :: stripMarkers 0 rest
  | k + 1, _ :: rest => stripMarkers k rest

/-- Number of newline bytes in the forwarded bytes. -/
def newlineCount (fwd : List UInt8) : Nat := fwd.count 10

/-- Number of bytes forwarded since the last forwarded newline (or since the
start). -/
def columnOf (fwd : List UInt8) : Nat := (fwd.reverse.takeWhile (fun b => b != 10)).length

/-- The callback invocations the specification asks for: one per marker, in
stream order, with line `1 +` the newlines forwarded so far, column the bytes
forwarded since the last newline, and the payload read big-endian.  `fwd` are
the bytes forwarded so far, the first argument the payload bytes still to be
skipped. -/
def expectedCalls (fs : Option (List UInt8)) : Nat → List UInt8 → List UInt8 → List MappingCall
  | _, _, [] => []
  | 0, fwd, b :: rest =>
    if b = 8 then
      { generatedLine := 1 + newlineCount fwd, generatedColumn := columnOf fwd, fileSet := fs,
        pos := BigEndianUint32 (rest.take 4) } :: expectedCalls fs 4 fwd rest
    else expectedCalls fs 0 (fwd ++ [b]) rest
  | k + 1, fwd, _ :: rest => expectedCalls fs k fwd rest

/-- The counters after one more forwarded byte. -/
def posStep (pc : Nat × Nat) (b : UInt8) : Nat × Nat :=
  if b = 10 then (pc.1 + 1, 0) else (pc.1, pc.2 + 1)

/-- The counters after forwarding the bytes `w`, byte by byte. -/
def posAfter (pc : Nat × Nat) (w : List UInt8) : Nat × Nat := w.foldl posStep pc

/-- The callback invocations of a slice in terms of the counters `pc` at its
start. -/
def callsFrom (fs : Option (List UInt8)) : Nat → Nat × Nat → List UInt8 → List MappingCall
  | _, _, [] => []
  | 0, pc, b :: rest =>
    if b = 8 then
      { generatedLine := pc.1 + 1, generatedColumn := pc.2, fileSet := fs,
        pos := BigEndianUint32 (rest.take 4) } :: callsFrom fs 4 pc rest
    else callsFrom fs 0 (posStep pc b) rest
  | k + 1, pc, _ :: rest => callsFrom fs k pc rest

/-- The counters agree with the bytes handed to the sink so far. -/
def Tracked (f : SourceMapFilter) : Prop :=
  f.line = newlineCount f.sunk.flatten ∧ f.column = columnOf f.sunk.flatten

/-- Lexicographic order on the generated position `(line, column)`. -/
def PosLe (f g : SourceMapFilter) : Prop :=
  f.line < g.line ∨ (f.line = g.line ∧ f.column ≤ g.column)

/-- The filter `g` is the filter `f` after the slice `w` went to the sink and
was counted (one pass through lines 298-309). -/
def Forwarded (f g : SourceMapFilter) (w : List UInt8) : Prop :=
  g.Writer = f.Writer ∧ g.MappingCallback = f.MappingCallback ∧ g.fileSet = f.fileSet ∧
    g.trace = f.trace ∧ g.sunk = f.sunk ++ [w] ∧
    g.line = (posAfter (f.line, f.column) w).1 ∧
    g.column = (posAfter (f.line, f.column) w).2

/-- The filter after the slice `w` went to the sink and was counted. -/
def passed (f : SourceMapFilter) (w : List UInt8) : SourceMapFilter :=
  { f with sunk := f.sunk ++ [w],
           line := (posAfter (f.line, f.column) w).1,
           column := (posAfter (f.line, f.column) w).2 }

/-- The filter after one more invocation of the callback, for the position
handle `pos`. -/
def called (f : SourceMapFilter) (pos : Nat) : SourceMapFilter :=
  { f with calls := f.calls ++
      [{ generatedLine := f.line + 1, generatedColumn := f.column, fileSet := f.fileSet,
         pos := pos }] }

/-- A position table is attached to the filter whenever a callback is
registered, so that the lookup of line 315 has a table to look in. -/
def TableAttached (f : SourceMapFilter) : Prop :=
  f.MappingCallback = true → f.fileSet ≠ none

/-- The filter `f` gets through the slice `b`: every marker of `b` is
complete, and `b` holds no marker at all when a callback is registered while
no position table is attached. -/
def MarkerSafe (f : SourceMapFilter) (b : List UInt8) : Prop :=
  markersComplete 0 b = true ∧
    (f.MappingCallback = true → f.fileSet = none → (8 : UInt8) ∉ b)

/-- A fresh filter over the accepting sink, with a callback registered. -/
def freshFilter : SourceMapFilter := { Writer := acceptAll, MappingCallback := true }

/-- A filter over the accepting sink with a callback registered and a position
table attached, as `WritePkgCode` leaves it for an archive that has one. -/
def tableFilter : SourceMapFilter :=
  { Writer := acceptAll, MappingCallback := true, fileSet := some [1] }

/-- A fresh filter over the accepting sink, without callback. -/
def plainFilter : SourceMapFilter := { Writer := acceptAll }

/-- The bytes `ab\ncd`, a marker with payload 7, then `ef`. -/
def markedSlice : List UInt8 := [97, 98, 10, 99, 100, 8, 0, 0, 0, 7, 101, 102]

/-- A slice whose marker payload holds the sentinel byte and a newline. -/
def trickySlice : List UInt8 := [97, 8, 8, 10, 8, 10, 98]

/-! ## The program assembler: `WritePkgCode` and `WriteProgramCode` -/

/-- What the assembler uses without defining it in this file: the function
`removeWhitespace`, the constant `prelude.Prelude`, whether
`token.FileSet.Read` succeeds on a serialized table, and the bytes `spare b`
that lie behind the end of a slice `b` handed to the writer, within its
capacity. -/
structure Env where
  removeWhitespace : List UInt8 → Bool → List UInt8
  Prelude : String
  readFileSet : List UInt8 → Bool
  spare : List UInt8 → List UInt8

/-- The statement `if _, err := w.Write(b); err != nil { return err }`
followed by the rest `k` of the function. -/
def writeThen (env : Env) (w : SourceMapFilter) (b : List UInt8)
    (k : SourceMapFilter → Outcome (Option GoError)) : Outcome (Option GoError) :=
  match Write w b (env.spare b) with
  | .returned w1 (_, some e) => .returned w1 (some e)
  | .returned w1 (_, none) => k w1
  | .panicked w1 why => .panicked w1 why
  | .unfinished w1 => .unfinished w1

/-- A loop `for _, d := range filteredDecls` that writes one fragment per
declaration, followed by the rest `k` of the function. -/
def writeEach (env : Env) (w : SourceMapFilter) (frags : List (List UInt8))
    (k : SourceMapFilter → Outcome (Option GoError)) : Outcome (Option GoError) :=
  match frags with
  | [] => k w
  | b :: rest => writeThen env w b (fun w1 => writeEach env w1 rest k)

/-- The loop of lines 218-225: `vars` and `filteredDecls`. -/
def selectDecls (heap : DeclPtr → Decl) (pkg : Archive) (dceSelection : List DeclPtr) :
    List String × List DeclPtr :=
  pkg.Declarations.foldl
    (fun acc d => if d ∈ dceSelection then (acc.1 ++ (heap d).Vars, acc.2 ++ [d]) else acc)
    (["$pkg = \x7b\x7d", "$init"], [])

/-- The header text of line 215, with the import path in the place of the
format verb. -/
def pkgOpening (importPath : String) : String :=
  "$packages[\"" ++ importPath ++ "\"] = (function() \x7b\n"

/-- The variable statement of line 226: the names joined by a comma and a
blank. -/
def varStatement (vars : List String) : String :=
  "\tvar " ++ ", ".intercalate vars ++ ";\n"

/-- The string literal of line 245: the opening of the init function. -/
def initOpening : String :=
  "\t$init = function() \x7b\n\t\t$pkg.$init = function() \x7b\x7d;\n\t\t/*jea compiler.go:230*/ var $f, $c = false, $s = 0, $r; if (this !== undefined && this.$blk !== undefined) \x7b $f = this; $c = true; $s = $f.$s; $r = $f.$r; \x7d s: while (true) \x7b switch ($s) \x7b case 0:\n"

/-- The string literal of line 253: the closing of the init function and of
the module. -/
def initClosing : String :=
  "\t\t/*jea compiler.go:238 */ \x7d return; \x7d if ($f === undefined) \x7b $f = \x7b $blk: $init \x7d; \x7d $f.$s = $s; $f.$r = $r; return $f;\n\t\x7d;\n\t$pkg.$init = $init;\n\treturn $pkg;\n\x7d)();"

/-- The string literal of line 181. -/
def programOpening : String := "\"use strict\";\n(function() \x7b\n\n"

/-- The text of line 198: the epilogue, which looks the entry package up by
its import path. -/
def programEpilogue (importPath : String) : String :=
  "$synthesizeMethods();\nvar $mainPkg = $packages[\"" ++ importPath ++
    "\"];\n$packages[\"runtime\"].$init();\n$go($mainPkg.$init, []);\n$flushConsole();\n\n\x7d).call(this);\n"

/-- The function `WritePkgCode` (lines 205-260). -/
def WritePkgCode (env : Env) (heap : DeclPtr → Decl) (pkg : Archive)
    (dceSelection : List DeclPtr) (minify : Bool) (w : SourceMapFilter) :
    Outcome (Option GoError) :=
  let w0 : SourceMapFilter :=
    if w.MappingCallback = true ∧ pkg.FileSet ≠ none then { w with fileSet := pkg.FileSet }
    else w
  if w.MappingCallback = true ∧ pkg.FileSet ≠ none ∧
      env.readFileSet (pkg.FileSet.getD []) = false then .panicked w0 .readFileSet
  else
    writeThen env w0 pkg.IncJSCode fun w1 =>
    writeThen env w1
      (env.removeWhitespace (goBytes (pkgOpening pkg.ImportPath)) minify) fun w2 =>
    writeThen env w2
      (env.removeWhitespace
        (goBytes (varStatement (selectDecls heap pkg dceSelection).1))
        minify) fun w3 =>
    writeEach env w3 ((selectDecls heap pkg dceSelection).2.map (fun d => (heap d).DeclCode))
      fun w4 =>
    writeEach env w4
      ((selectDecls heap pkg dceSelection).2.map (fun d => (heap d).MethodListCode))
      fun w5 =>
    writeEach env w5 ((selectDecls heap pkg dceSelection).2.map (fun d => (heap d).TypeInitCode))
      fun w6 =>
    writeThen env w6 (env.removeWhitespace (goBytes initOpening) minify) fun w7 =>
    writeEach env w7 ((selectDecls heap pkg dceSelection).2.map (fun d => (heap d).InitCode))
      fun w8 =>
    writeThen env w8 (env.removeWhitespace (goBytes initClosing) minify) fun w9 =>
    writeThen env w9 (goBytes "\n") fun w10 =>
    .returned w10 none

/-- The writer after lines 206-207 of `WritePkgCode`: the position table of
the archive is attached when a callback is registered and the archive has
one. -/
def attachTable (w : SourceMapFilter) (pkg : Archive) : SourceMapFilter :=
  if w.MappingCallback = true ∧ pkg.FileSet ≠ none then { w with fileSet := pkg.FileSet }
  else w

/-- The statement `if err := g(...); err != nil { return err }` followed by
the rest `k` of the function, `o` being the outcome of the call of `g`. -/
def Outcome.andThen (o : Outcome (Option GoError))
    (k : SourceMapFilter → Outcome (Option GoError)) : Outcome (Option GoError) :=
  match o with
  | .returned w1 none => k w1
  | .returned w1 (some e) => .returned w1 (some e)
  | .panicked w1 why => .panicked w1 why
  | .unfinished w1 => .unfinished w1

/-- The loop `for _, pkg := range pkgs` of `WriteProgramCode` (lines 192-196),
followed by the rest `k` of the function. -/
def writePkgs (env : Env) (heap : DeclPtr → Decl) (dceSelection : List DeclPtr)
    (minify : Bool) (pkgs : List Archive) (w : SourceMapFilter)
    (k : SourceMapFilter → Outcome (Option GoError)) : Outcome (Option GoError) :=
  match pkgs with
  | [] => k w
  | pkg :: rest =>
    (WritePkgCode env heap pkg dceSelection minify w).andThen
      (fun w1 => writePkgs env heap dceSelection minify rest w1 k)

/-- The function `WriteProgramCode` (lines 132-203).  Indexing an empty
`pkgs` panics. -/
def WriteProgramCode (env : Env) (heap : DeclPtr → Decl) (pkgs : List Archive)
    (w : SourceMapFilter) : Outcome (Option GoError) :=
  match pkgs.getLast? with
  | none => .panicked w .outOfRange
  | some mainPkg =>
    match dceSelection heap pkgs with
    | none => .unfinished w
    | some sel =>
      writeThen env w (goBytes programOpening) fun w1 =>
      writeThen env w1 (env.removeWhitespace (goBytes env.Prelude) mainPkg.Minified) fun w2 =>
      writeThen env w2 (goBytes "\n") fun w3 =>
      writePkgs env heap sel mainPkg.Minified pkgs w3 fun w4 =>
      writeThen env w4 (goBytes (programEpilogue mainPkg.ImportPath)) fun w5 =>
      .returned w5 none

/-- The byte slices the specification lists for one package, in order: the
verbatim include, the header, the variable statement, then the four passes of
fragments over the selected declarations in original order, with the fixed
fragments of the init function between them, and the final newline. -/
def pkgSlices (env : Env) (heap : DeclPtr → Decl) (pkg : Archive) (sel : List DeclPtr)
    (minify : Bool) : List (List UInt8) :=
  pkg.IncJSCode ::
  env.removeWhitespace (goBytes (pkgOpening pkg.ImportPath)) minify ::
  env.removeWhitespace
    (goBytes (varStatement
      (["$pkg = \x7b\x7d", "$init"] ++
        (pkg.Declarations.filter (fun d => decide (d ∈ sel))).flatMap
          (fun d => (heap d).Vars)))) minify ::
  ((pkg.Declarations.filter (fun d => decide (d ∈ sel))).map (fun d => (heap d).DeclCode) ++
  ((pkg.Declarations.filter (fun d => decide (d ∈ sel))).map
      (fun d => (heap d).MethodListCode) ++
  ((pkg.Declarations.filter (fun d => decide (d ∈ sel))).map (fun d => (heap d).TypeInitCode) ++
  (env.removeWhitespace (goBytes initOpening) minify ::
  ((pkg.Declarations.filter (fun d => decide (d ∈ sel))).map (fun d => (heap d).InitCode) ++
  [env.removeWhitespace (goBytes initClosing) minify, goBytes "\n"])))))

/-- The byte slices the specification lists for the whole program: opening,
prelude, newline, one module block per archive in list order, epilogue; the
minify flag is that of the last archive. -/
def programSlices (env : Env) (heap : DeclPtr → Decl) (pkgs : List Archive)
    (sel : List DeclPtr) (mainPkg : Archive) : List (List UInt8) :=
  goBytes programOpening ::
  env.removeWhitespace (goBytes env.Prelude) mainPkg.Minified ::
  goBytes "\n" ::
  ((pkgs.flatMap (fun pkg => pkgSlices env heap pkg sel mainPkg.Minified)) ++
  [goBytes (programEpilogue mainPkg.ImportPath)])

/-- What a call that writes the slices `L` through the filter `w`, in order,
leaves behind in every outcome `o`: the slices passed to `Write` are an
initial part of `L`, all of `L` when the call returned nil; the counters did
not go back; a position table that was attached still is; and the call
neither hangs nor, over an accepting sink, returns an error. -/
structure Wrote (w : SourceMapFilter) (L : List (List UInt8)) (o : Outcome (Option GoError)) :
    Prop where
  part : ∃ k : Nat, o.state.trace = w.trace ++ L.take k
  full : ∀ g : SourceMapFilter, o = .returned g none → g.trace = w.trace ++ L
  line : w.line ≤ o.state.line
  pos : PosLe w o.state
  tracked : Tracked w → Tracked o.state
  writer : o.state.Writer = w.Writer
  callback : o.state.MappingCallback = w.MappingCallback
  attached : TableAttached w → TableAttached o.state
  finished : ∀ g : SourceMapFilter, o ≠ .unfinished g
  noError : Accepts w.Writer → ∀ (g : SourceMapFilter) (e : GoError), o ≠ .returned g (some e)

/-- A call on the writer: `Write`, on a slice and the bytes behind its end,
or `WritePkgCode`. -/
inductive FilterOp where
  | write (p spare : List UInt8)
  | pkgCode (pkg : Archive) (dceSelection : List DeclPtr) (minify : Bool)

/-- The state of the writer after a sequence of calls; a panic ends the
sequence. -/
def runOps (env : Env) (heap : DeclPtr → Decl) : SourceMapFilter → List FilterOp →
    SourceMapFilter
  | f, [] => f
  | f, .write p spare :: rest =>
    match Write f p spare with
    | .returned g _ => runOps env heap g rest
    | .panicked g _ => g
    | .unfinished g => g
  | f, .pkgCode pkg sel minify :: rest =>
    match WritePkgCode env heap pkg sel minify f with
    | .returned g _ => runOps env heap g rest
    | .panicked g _ => g
    | .unfinished g => g

/-- Bootstrap archive of the assembly example: one root declaration. -/
def asmRuntime : Archive := { ImportPath := "runtime", Name := "runtime", Declarations := [10] }

/-- Entry archive of the assembly example: one root declaration. -/
def asmMain : Archive :=
  { ImportPath := "main", Name := "main", Imports := ["runtime"], Declarations := [11] }

/-- Store of the assembly example. -/
def asmHeap : DeclPtr → Decl
  | 10 => { FullName := "runtime.init", Vars := ["a"], DeclCode := [97], InitCode := [98] }
  | 11 => { FullName := "main.init", Vars := ["b"], DeclCode := [99], InitCode := [100] }
  | _ => {}

/-- Environment of the assembly example: nothing is minified, the prelude
is short, every position table can be read, no slice has spare capacity. -/
def asmEnv : Env :=
  { removeWhitespace := fun b _ => b, Prelude := "var $packages;", readFileSet := fun _ => true,
    spare := fun _ => [] }

/-- A call that writes the slices `L` through the filter `w` returns nil when
the sink accepts every write and the filter gets through every slice. -/
def Completes (w : SourceMapFilter) (L : List (List UInt8)) (o : Outcome (Option GoError)) :
    Prop :=
  Accepts w.Writer → (∀ b ∈ L, MarkerSafe w b) → ∃ g, o = .returned g none

/-- Every position table among the archives can be read. -/
def FileSetsOk (env : Env) (pkgs : List Archive) : Prop :=
  ∀ pkg ∈ pkgs, ∀ t : List UInt8, pkg.FileSet = some t → env.readFileSet t = true

/-- The store of the scenario with the fragments of the declarations `D2`
and `D4` replaced. -/
def scenarioHeapAlt : DeclPtr → Decl
  | 2 => { FullName := "D2", Vars := ["x"], DeclCode := [1, 2], MethodListCode := [3],
           TypeInitCode := [4], InitCode := [5], DceMethodFilter := "M", DceDeps := ["p.T"] }
  | 4 => { FullName := "D4", Vars := ["y"], DeclCode := [6], DceObjectFilter := "Unused" }
  | d => scenarioHeap d

/-- The first part of a marker split across two calls of `Write`: the
sentinel is followed by two bytes only. -/
def splitFirst : List UInt8 := [97, 98, 8, 0, 0]

/-- The second part of the split marker, with the rest of its payload. -/
def splitSecond : List UInt8 := [0, 7, 101, 102]

/-- A complete marker followed by a truncated one. -/
def twoMarkers : List UInt8 := [8, 0, 0, 0, 7, 8, 0]

/-- An archive with one root declaration whose code fragment ends inside a
marker. -/
def cutPkg : Archive := { ImportPath := "cut", Name := "cut", Declarations := [20] }

/-- The store of the assembly example with the declaration of `cutPkg`. -/
def cutHeap : DeclPtr → Decl
  | 20 => { FullName := "cut.init", DeclCode := [99, 8, 0, 0] }
  | d => asmHeap d

/-- The store of the assembly example in which the code fragment of the
declaration of `cutPkg` holds a complete marker. -/
def bareHeap : DeclPtr → Decl
  | 20 => { FullName := "cut.init", DeclCode := [99, 8, 0, 0, 0, 7] }
  | d => asmHeap d

/-- An archive with a position table and one root declaration. -/
def mapPkg : Archive :=
  { ImportPath := "main", Name := "main", Declarations := [21], FileSet := some [1] }

/-- The store of `mapPkg`: the code fragment of its declaration holds a
complete marker. -/
def mapHeap : DeclPtr → Decl
  | 21 => { FullName := "main.init", DeclCode := [99, 8, 0, 0, 0, 7] }
  | _ => {}

/-- The environment of the assembly example with a reader that fails on every
position table. -/
def strictEnv : Env := { asmEnv with readFileSet := fun _ => false }

/-! # Properties -/

/-! ## The filter index: map laws -/

theorem FilterMap.get_delete (m : FilterMap) (k k' : String) :
    (m.delete k).get k' = if k' = k then none else m.get k' := by
  induction m with
  | nil => simp [FilterMap.delete, FilterMap.get]
  | cons e rest ih =>
    obtain ⟨a, v⟩ := e
    by_cases h : a = k
    · subst h
      simp only [FilterMap.delete, if_true, ih, FilterMap.get]
      by_cases h2 : k' = a
      · simp [h2]
      · have h3 : ¬ a = k' := fun h => h2 h.symm
        simp [h2, h3]
    · simp only [FilterMap.delete, h, if_false, FilterMap.get, ih]
      by_cases h2 : a = k'
      · subst h2
        simp [h]
      · simp [h2]

theorem FilterMap.get_delete_self (m : FilterMap) (k : String) :
    (m.delete k).get k = none := by
  simp [FilterMap.get_delete]

theorem FilterMap.get_delete_of_ne (m : FilterMap) (k k' : String) (h : k' ≠ k) :
    (m.delete k).get k' = m.get k' := by
  simp [FilterMap.get_delete, h]

theorem FilterMap.get_delete_none (m : FilterMap) (k k' : String) (h : m.get k' = none) :
    (m.delete k).get k' = none := by
  rw [FilterMap.get_delete]
  split <;> simp [h]

theorem FilterMap.get_push (m : FilterMap) (k k' : String) (i : Nat) :
    (m.push k i).get k' =
      if k = k' then some ((m.get k).getD [] ++ [i]) else m.get k' := by
  unfold FilterMap.push
  by_cases h : k = k'
  · simp [FilterMap.get, h]
  · have h2 : ¬ k' = k := fun e => h e.symm
    simp [FilterMap.get, h, FilterMap.get_delete, h2]

theorem FilterMap.size_delete_le (m : FilterMap) (k : String) :
    (m.delete k).size ≤ m.size := by
  induction m with
  | nil => simp [FilterMap.delete]
  | cons e rest ih =>
    obtain ⟨a, v⟩ := e
    unfold FilterMap.size at ih ⊢
    by_cases h : a = k
    · simp only [FilterMap.delete, h, if_true, List.map_cons, List.sum_cons]
      omega
    · simp only [FilterMap.delete, h, if_false, List.map_cons, List.sum_cons]
      omega

theorem FilterMap.size_delete_get (m : FilterMap) (k : String) (l : List Nat)
    (h : m.get k = some l) : (m.delete k).size + l.length ≤ m.size := by
  induction m with
  | nil => simp [FilterMap.get] at h
  | cons e rest ih =>
    obtain ⟨a, v⟩ := e
    by_cases hk : a = k
    · simp only [FilterMap.get, hk, if_true, Option.some.injEq] at h
      subst h
      have := FilterMap.size_delete_le rest k
      unfold FilterMap.size at this ⊢
      simp only [FilterMap.delete, hk, if_true, List.map_cons, List.sum_cons]
      omega
    · simp only [FilterMap.get, hk, if_false] at h
      have := ih h
      unfold FilterMap.size at this ⊢
      simp only [FilterMap.delete, hk, if_false, List.map_cons, List.sum_cons]
      omega

/-! ## The record loop `clearInfo` -/

theorem getElem?_set_cases {α : Type} (l : List α) (i j : Nat) (a b : α)
    (h : (l.set i a)[j]? = some b) : (j = i ∧ b = a) ∨ (j ≠ i ∧ l[j]? = some b) := by
  rw [List.getElem?_set] at h
  by_cases hij : i = j
  · subst hij
    simp only [if_true] at h
    split at h
    · left
      exact ⟨rfl, by simpa using h.symm⟩
    · exact absurd h (by simp)
  · simp only [hij, if_false] at h
    right
    exact ⟨fun e => hij e.symm, h⟩

theorem clearInfo_none (dep : String) (s : DceState) (i : Nat) (h : s.infos[i]? = none) :
    clearInfo dep s i = s := by
  unfold clearInfo
  rw [h]

theorem clearInfo_some (dep : String) (s : DceState) (i : Nat) (info : dceInfo)
    (h : s.infos[i]? = some info) :
    clearInfo dep s i =
      { infos := s.infos.set i
          ⟨info.decl, if info.objectFilter = dep then "" else info.objectFilter,
            if info.methodFilter = dep then "" else info.methodFilter⟩,
        byFilter := s.byFilter,
        pendingDecls :=
          if (if info.objectFilter = dep then "" else info.objectFilter) = "" ∧
              (if info.methodFilter = dep then "" else info.methodFilter) = "" then
            s.pendingDecls ++ [info.decl]
          else s.pendingDecls,
        dceSelection := s.dceSelection } := by
  unfold clearInfo
  rw [h]
  by_cases h1 : info.objectFilter = dep <;> by_cases h2 : info.methodFilter = dep <;>
    simp only [h1, h2, if_true, if_false] <;> split <;> rfl

theorem clearInfo_byFilter (dep : String) (s : DceState) (i : Nat) :
    (clearInfo dep s i).byFilter = s.byFilter := by
  cases h : s.infos[i]? with
  | none => rw [clearInfo_none dep s i h]
  | some info => rw [clearInfo_some dep s i info h]

theorem clearInfo_dceSelection (dep : String) (s : DceState) (i : Nat) :
    (clearInfo dep s i).dceSelection = s.dceSelection := by
  cases h : s.infos[i]? with
  | none => rw [clearInfo_none dep s i h]
  | some info => rw [clearInfo_some dep s i info h]

theorem clearInfo_pending (dep : String) (s : DceState) (i : Nat) (x : DeclPtr)
    (hx : x ∈ s.pendingDecls) : x ∈ (clearInfo dep s i).pendingDecls := by
  cases h : s.infos[i]? with
  | none => rw [clearInfo_none dep s i h]; exact hx
  | some info =>
    rw [clearInfo_some dep s i info h]
    dsimp only
    by_cases hboth : ((if info.objectFilter = dep then "" else info.objectFilter) = "" ∧
        (if info.methodFilter = dep then "" else info.methodFilter) = "")
    · rw [if_pos hboth]
      exact List.mem_append_left _ hx
    · rw [if_neg hboth]
      exact hx

theorem clearInfo_seen (dep : String) (s : DceState) (i : Nat) (x : DeclPtr)
    (hx : s.seen x) : (clearInfo dep s i).seen x := by
  rcases hx with hx | hx
  · exact Or.inl (clearInfo_pending dep s i x hx)
  · right
    rw [clearInfo_dceSelection]
    exact hx

theorem clearInfo_pending_length (dep : String) (s : DceState) (i : Nat) :
    (clearInfo dep s i).pendingDecls.length ≤ s.pendingDecls.length + 1 := by
  cases h : s.infos[i]? with
  | none => rw [clearInfo_none dep s i h]; omega
  | some info =>
    rw [clearInfo_some dep s i info h]
    dsimp only
    by_cases hboth : ((if info.objectFilter = dep then "" else info.objectFilter) = "" ∧
        (if info.methodFilter = dep then "" else info.methodFilter) = "")
    · rw [if_pos hboth]
      simp
    · rw [if_neg hboth]
      omega

theorem clearInfo_base (heap : DeclPtr → Decl) (T : DeclPtr → Prop) (I0 : List dceInfo)
    (dep : String) (s : DceState) (i : Nat) (hb : DceBase heap T I0 s)
    (hr : DceRule heap T I0) (hw : ∃ e, T e ∧ dep ∈ (heap e).DceDeps) :
    DceBase heap T I0 (clearInfo dep s i) := by
  cases h : s.infos[i]? with
  | none => rw [clearInfo_none dep s i h]; exact hb
  | some info =>
    have hi : i < I0.length := by
      rw [← hb.len]
      exact (List.getElem?_eq_some.mp h).1
    obtain ⟨a0, ha0⟩ : ∃ a0, I0[i]? = some a0 := ⟨I0[i], by simp [hi]⟩
    have hsh := hb.shape i a0 info ha0 h
    have hcl := hb.cleared i a0 info ha0 h
    -- the cleared keys of the rewritten record are listed by members of `T`
    have hobj : a0.objectFilter ≠ "" →
        (if info.objectFilter = dep then "" else info.objectFilter) = "" →
        ∃ e, T e ∧ a0.objectFilter ∈ (heap e).DceDeps := by
      intro hne hem
      by_cases hd : info.objectFilter = dep
      · rcases hsh.2.1 with h1 | h1
        · rw [← h1, hd]; exact hw
        · exact hcl.1 hne h1
      · simp only [hd, if_false] at hem
        exact hcl.1 hne hem
    have hmeth : a0.methodFilter ≠ "" →
        (if info.methodFilter = dep then "" else info.methodFilter) = "" →
        ∃ e, T e ∧ a0.methodFilter ∈ (heap e).DceDeps := by
      intro hne hem
      by_cases hd : info.methodFilter = dep
      · rcases hsh.2.2 with h1 | h1
        · rw [← h1, hd]; exact hw
        · exact hcl.2 hne h1
      · simp only [hd, if_false] at hem
        exact hcl.2 hne hem
    have hseen : ∀ x, s.seen x → (clearInfo dep s i).seen x :=
      fun x hx => clearInfo_seen dep s i x hx
    rw [clearInfo_some dep s i info h] at hseen ⊢
    refine ⟨?_, ?_, ?_, ?_, ?_⟩
    · simp [hb.len]
    · intro j a b hja hjb
      rcases getElem?_set_cases _ _ _ _ _ hjb with ⟨hj, hbb⟩ | ⟨_, hold⟩
      · subst hj
        rw [ha0] at hja
        cases hja
        subst hbb
        refine ⟨hsh.1, ?_, ?_⟩
        · dsimp only
          split
          · right; rfl
          · exact hsh.2.1
        · dsimp only
          split
          · right; rfl
          · exact hsh.2.2
      · exact hb.shape j a b hja hold
    · intro j b hjb ho hm
      rcases getElem?_set_cases _ _ _ _ _ hjb with ⟨hj, hbb⟩ | ⟨_, hold⟩
      · subst hbb
        dsimp only at ho hm
        left
        simp [ho, hm]
      · exact hseen _ (hb.ready j b hold ho hm)
    · intro x hx
      rcases hx with hx | hx
      · dsimp only at hx
        by_cases hboth : ((if info.objectFilter = dep then "" else info.objectFilter) = "" ∧
        (if info.methodFilter = dep then "" else info.methodFilter) = "")
        · rw [if_pos hboth] at hx
          rcases List.mem_append.mp hx with hx | hx
          · exact hb.inT x (Or.inl hx)
          · simp only [List.mem_singleton] at hx
            subst hx
            rw [hsh.1]
            exact hr i a0 ha0 (fun hne => hobj hne hboth.1) (fun hne => hmeth hne hboth.2)
        · rw [if_neg hboth] at hx
          exact hb.inT x (Or.inl hx)
      · exact hb.inT x (Or.inr hx)
    · intro j a b hja hjb
      rcases getElem?_set_cases _ _ _ _ _ hjb with ⟨hj, hbb⟩ | ⟨_, hold⟩
      · subst hj
        rw [ha0] at hja
        cases hja
        subst hbb
        exact ⟨hobj, hmeth⟩
      · exact hb.cleared j a b hja hold

theorem clearInfo_consMid (dep : String) (rem : List Nat) (s : DceState) (i : Nat)
    (hc : DceConsMid dep (i :: rem) s) : DceConsMid dep rem (clearInfo dep s i) := by
  cases h : s.infos[i]? with
  | none =>
    rw [clearInfo_none dep s i h]
    intro j b K hjb hK hf
    rcases hc j b K hjb hK hf with ⟨h1, h2⟩ | h2
    · left
      refine ⟨h1, ?_⟩
      rcases List.mem_cons.mp h2 with h3 | h3
      · subst h3
        rw [h] at hjb
        exact absurd hjb (by simp)
      · exact h3
    · exact Or.inr h2
  | some info =>
    rw [clearInfo_some dep s i info h]
    intro j b K hjb hK hf
    rcases getElem?_set_cases _ _ _ _ _ hjb with ⟨hj, hbb⟩ | ⟨hne, hold⟩
    · subst hj
      subst hbb
      dsimp only at hf ⊢
      have hKd : K ≠ dep ∧ (info.objectFilter = K ∨ info.methodFilter = K) := by
        rcases hf with hf | hf
        · by_cases hd : info.objectFilter = dep
          · simp only [hd, if_true] at hf
            exact absurd hf.symm hK
          · simp only [hd, if_false] at hf
            exact ⟨fun e => hd (hf.trans e), Or.inl hf⟩
        · by_cases hd : info.methodFilter = dep
          · simp only [hd, if_true] at hf
            exact absurd hf.symm hK
          · simp only [hd, if_false] at hf
            exact ⟨fun e => hd (hf.trans e), Or.inr hf⟩
      rcases hc j info K h hK hKd.2 with ⟨h1, _⟩ | h2
      · exact absurd h1 hKd.1
      · exact Or.inr h2
    · rcases hc j b K hold hK hf with ⟨h1, h2⟩ | h2
      · left
        refine ⟨h1, ?_⟩
        rcases List.mem_cons.mp h2 with h3 | h3
        · exact absurd h3 hne
        · exact h3
      · exact Or.inr h2

/-! ## The dependency loop `processDep` -/

theorem foldClear_byFilter (dep : String) (l : List Nat) (s : DceState) :
    (l.foldl (clearInfo dep) s).byFilter = s.byFilter := by
  induction l generalizing s with
  | nil => rfl
  | cons i l ih => rw [List.foldl_cons, ih, clearInfo_byFilter]

theorem foldClear_dceSelection (dep : String) (l : List Nat) (s : DceState) :
    (l.foldl (clearInfo dep) s).dceSelection = s.dceSelection := by
  induction l generalizing s with
  | nil => rfl
  | cons i l ih => rw [List.foldl_cons, ih, clearInfo_dceSelection]

theorem foldClear_seen (dep : String) (l : List Nat) (s : DceState) (x : DeclPtr)
    (hx : s.seen x) : (l.foldl (clearInfo dep) s).seen x := by
  induction l generalizing s with
  | nil => exact hx
  | cons i l ih =>
    rw [List.foldl_cons]
    exact ih _ (clearInfo_seen dep s i x hx)

theorem foldClear_pending_length (dep : String) (l : List Nat) (s : DceState) :
    (l.foldl (clearInfo dep) s).pendingDecls.length ≤ s.pendingDecls.length + l.length := by
  induction l generalizing s with
  | nil => simp
  | cons i l ih =>
    rw [List.foldl_cons]
    have h1 := ih (clearInfo dep s i)
    have h2 := clearInfo_pending_length dep s i
    simp only [List.length_cons]
    omega

theorem foldClear_base (heap : DeclPtr → Decl) (T : DeclPtr → Prop) (I0 : List dceInfo)
    (dep : String) (l : List Nat) (s : DceState) (hb : DceBase heap T I0 s)
    (hr : DceRule heap T I0) (hw : ∃ e, T e ∧ dep ∈ (heap e).DceDeps) :
    DceBase heap T I0 (l.foldl (clearInfo dep) s) := by
  induction l generalizing s with
  | nil => exact hb
  | cons i l ih =>
    rw [List.foldl_cons]
    exact ih _ (clearInfo_base heap T I0 dep s i hb hr hw)

theorem foldClear_consMid (dep : String) (l : List Nat) (s : DceState)
    (hc : DceConsMid dep l s) : DceConsMid dep [] (l.foldl (clearInfo dep) s) := by
  induction l generalizing s with
  | nil => exact hc
  | cons i l ih =>
    rw [List.foldl_cons]
    exact ih _ (clearInfo_consMid dep l s i hc)

theorem processDep_dceSelection (s : DceState) (dep : String) :
    (processDep s dep).dceSelection = s.dceSelection := by
  unfold processDep
  split
  · rfl
  · rw [foldClear_dceSelection]

theorem processDep_seen (s : DceState) (dep : String) (x : DeclPtr) (hx : s.seen x) :
    (processDep s dep).seen x := by
  unfold processDep
  split
  · exact hx
  · exact foldClear_seen dep _ _ x hx

theorem processDep_get_none (s : DceState) (dep K : String) (h : s.byFilter.get K = none) :
    (processDep s dep).byFilter.get K = none := by
  unfold processDep
  split
  · exact h
  · rw [foldClear_byFilter]
    exact FilterMap.get_delete_none _ _ _ h

theorem processDep_get_self (s : DceState) (dep : String) :
    (processDep s dep).byFilter.get dep = none := by
  unfold processDep
  split
  · assumption
  · rw [foldClear_byFilter]
    exact FilterMap.get_delete_self _ _

theorem processDep_measure (s : DceState) (dep : String) :
    dceMeasure (processDep s dep) ≤ dceMeasure s := by
  unfold processDep
  split
  · exact le_refl _
  · rename_i l hl
    unfold dceMeasure
    rw [foldClear_byFilter]
    have h1 := foldClear_pending_length dep l { s with byFilter := s.byFilter.delete dep }
    have h2 := FilterMap.size_delete_get s.byFilter dep l hl
    dsimp only at h1 ⊢
    omega

theorem processDep_base (heap : DeclPtr → Decl) (T : DeclPtr → Prop) (I0 : List dceInfo)
    (dep : String) (s : DceState) (hb : DceBase heap T I0 s)
    (hr : DceRule heap T I0) (hw : ∃ e, T e ∧ dep ∈ (heap e).DceDeps) :
    DceBase heap T I0 (processDep s dep) := by
  unfold processDep
  split
  · exact hb
  · exact foldClear_base heap T I0 dep _ _ ⟨hb.len, hb.shape, hb.ready, hb.inT, hb.cleared⟩ hr hw

theorem processDep_cons (dep : String) (s : DceState) (hc : DceCons s) :
    DceCons (processDep s dep) := by
  unfold processDep
  split
  · exact hc
  · rename_i l hl
    have hmid : DceConsMid dep l { s with byFilter := s.byFilter.delete dep } := by
      intro j b K hjb hK hf
      obtain ⟨l2, hl2, hj⟩ := hc j b K hjb hK hf
      by_cases hKd : K = dep
      · left
        subst hKd
        rw [hl] at hl2
        cases hl2
        exact ⟨rfl, hj⟩
      · right
        refine ⟨hKd, l2, ?_, hj⟩
        dsimp only
        rw [FilterMap.get_delete_of_ne _ _ _ hKd]
        exact hl2
    have hfin := foldClear_consMid dep l _ hmid
    intro j b K hjb hK hf
    rcases hfin j b K hjb hK hf with ⟨_, h2⟩ | ⟨_, h2⟩
    · exact absurd h2 (by simp)
    · exact h2

/-! ## One iteration: `processDecl` -/

theorem foldDep_dceSelection (deps : List String) (s : DceState) :
    (deps.foldl processDep s).dceSelection = s.dceSelection := by
  induction deps generalizing s with
  | nil => rfl
  | cons k deps ih => rw [List.foldl_cons, ih, processDep_dceSelection]

theorem foldDep_seen (deps : List String) (s : DceState) (x : DeclPtr) (hx : s.seen x) :
    (deps.foldl processDep s).seen x := by
  induction deps generalizing s with
  | nil => exact hx
  | cons k deps ih =>
    rw [List.foldl_cons]
    exact ih _ (processDep_seen s k x hx)

theorem foldDep_get_none (deps : List String) (s : DceState) (K : String)
    (h : s.byFilter.get K = none) : (deps.foldl processDep s).byFilter.get K = none := by
  induction deps generalizing s with
  | nil => exact h
  | cons k deps ih =>
    rw [List.foldl_cons]
    exact ih _ (processDep_get_none s k K h)

theorem foldDep_get_mem (deps : List String) (s : DceState) (K : String) (hK : K ∈ deps) :
    (deps.foldl processDep s).byFilter.get K = none := by
  induction deps generalizing s with
  | nil => simp at hK
  | cons k deps ih =>
    rw [List.foldl_cons]
    rcases List.mem_cons.mp hK with h | h
    · subst h
      exact foldDep_get_none deps _ K (processDep_get_self s K)
    · exact ih _ h

theorem foldDep_measure (deps : List String) (s : DceState) :
    dceMeasure (deps.foldl processDep s) ≤ dceMeasure s := by
  induction deps generalizing s with
  | nil => exact le_refl _
  | cons k deps ih =>
    rw [List.foldl_cons]
    exact le_trans (ih _) (processDep_measure s k)

theorem foldDep_base (heap : DeclPtr → Decl) (T : DeclPtr → Prop) (I0 : List dceInfo)
    (deps : List String) (s : DceState) (hb : DceBase heap T I0 s)
    (hr : DceRule heap T I0) (hw : ∀ dep ∈ deps, ∃ e, T e ∧ dep ∈ (heap e).DceDeps) :
    DceBase heap T I0 (deps.foldl processDep s) := by
  induction deps generalizing s with
  | nil => exact hb
  | cons k deps ih =>
    rw [List.foldl_cons]
    exact ih _ (processDep_base heap T I0 k s hb hr (hw k (List.mem_cons_self _ _)))
      (fun dep hd => hw dep (List.mem_cons_of_mem _ hd))

theorem foldDep_cons (deps : List String) (s : DceState) (hc : DceCons s) :
    DceCons (deps.foldl processDep s) := by
  induction deps generalizing s with
  | nil => exact hc
  | cons k deps ih =>
    rw [List.foldl_cons]
    exact ih _ (processDep_cons k s hc)

/-- The loop invariant: the three parts together. -/
theorem popStep_inv (heap : DeclPtr → Decl) (T : DeclPtr → Prop) (I0 : List dceInfo)
    (s t : DceState) (hr : DceRule heap T I0) (hst : PopStep heap s t)
    (hb : DceBase heap T I0 s) (hc : DceCons s) (hd : DceDone heap s) :
    DceBase heap T I0 t ∧ DceCons t ∧ DceDone heap t := by
  cases hst with
  | pop l1 l2 d hp =>
    have hTd : T d := hb.inT d (Or.inl (by rw [hp]; simp))
    have hseen : ∀ x, s.seen x →
        DceState.seen { s with pendingDecls := l1 ++ l2,
                               dceSelection := s.dceSelection.insert d } x := by
      intro x hx
      rcases hx with hx | hx
      · rw [hp] at hx
        rcases List.mem_append.mp hx with h | h
        · exact Or.inl (List.mem_append_left _ h)
        · rcases List.mem_cons.mp h with h | h
          · right
            subst h
            exact List.mem_insert_self _ _
          · exact Or.inl (List.mem_append_right _ h)
      · right
        exact List.mem_insert_of_mem hx
    have hb1 : DceBase heap T I0 { s with pendingDecls := l1 ++ l2,
                                          dceSelection := s.dceSelection.insert d } := by
      refine ⟨hb.len, hb.shape, ?_, ?_, hb.cleared⟩
      · intro j b hjb ho hm
        exact hseen _ (hb.ready j b hjb ho hm)
      · intro x hx
        rcases hx with hx | hx
        · apply hb.inT x
          left
          rw [hp]
          rcases List.mem_append.mp hx with h | h
          · exact List.mem_append_left _ h
          · exact List.mem_append_right _ (List.mem_cons_of_mem _ h)
        · rcases List.mem_insert_iff.mp hx with h | h
          · rw [h]; exact hTd
          · exact hb.inT x (Or.inr h)
    refine ⟨?_, ?_, ?_⟩
    · exact foldDep_base heap T I0 _ _ hb1 hr (fun dep hdep => ⟨d, hTd, hdep⟩)
    · exact foldDep_cons _ _ hc
    · intro x hx K hK
      unfold processDecl at hx ⊢
      rw [foldDep_dceSelection] at hx
      rcases List.mem_insert_iff.mp hx with h | h
      · subst h
        exact foldDep_get_mem _ _ K hK
      · exact foldDep_get_none _ _ K (hd x h K hK)

theorem popStep_seen (heap : DeclPtr → Decl) (s t : DceState) (hst : PopStep heap s t)
    (x : DeclPtr) (hx : s.seen x) : t.seen x := by
  cases hst with
  | pop l1 l2 d hp =>
    apply foldDep_seen
    rcases hx with hx | hx
    · rw [hp] at hx
      rcases List.mem_append.mp hx with h | h
      · exact Or.inl (List.mem_append_left _ h)
      · rcases List.mem_cons.mp h with h | h
        · right
          subst h
          exact List.mem_insert_self _ _
        · exact Or.inl (List.mem_append_right _ h)
    · right
      exact List.mem_insert_of_mem hx

theorem popStep_measure (heap : DeclPtr → Decl) (s t : DceState) (hst : PopStep heap s t) :
    dceMeasure t + 1 ≤ dceMeasure s := by
  cases hst with
  | pop l1 l2 d hp =>
    have h := foldDep_measure (heap d).DceDeps
      { s with pendingDecls := l1 ++ l2, dceSelection := s.dceSelection.insert d }
    unfold processDecl
    unfold dceMeasure at h ⊢
    rw [hp]
    simp only [List.length_append, List.length_cons] at h ⊢
    omega

theorem popRun_inv (heap : DeclPtr → Decl) (T : DeclPtr → Prop) (I0 : List dceInfo)
    (s t : DceState) (hr : DceRule heap T I0) (hst : PopRun heap s t)
    (hb : DceBase heap T I0 s) (hc : DceCons s) (hd : DceDone heap s) :
    DceBase heap T I0 t ∧ DceCons t ∧ DceDone heap t := by
  induction hst with
  | done _ => exact ⟨hb, hc, hd⟩
  | next a b c hab _ ih =>
    obtain ⟨h1, h2, h3⟩ := popStep_inv heap T I0 a b hr hab hb hc hd
    exact ih h1 h2 h3

theorem popRun_seen (heap : DeclPtr → Decl) (s t : DceState) (hst : PopRun heap s t)
    (x : DeclPtr) (hx : s.seen x) : t.seen x := by
  induction hst with
  | done _ => exact hx
  | next a b c hab _ ih => exact ih (popStep_seen heap a b hab x hx)

/-! ## The LIFO loop is a run, and it ends -/

theorem dceLoop_run (heap : DeclPtr → Decl) (fuel : Nat) (s t : DceState)
    (h : dceLoop heap fuel s = some t) : PopRun heap s t ∧ t.pendingDecls = [] := by
  induction fuel generalizing s with
  | zero =>
    unfold dceLoop at h
    cases hl : s.pendingDecls.getLast? with
    | none =>
      rw [hl] at h
      simp only [Option.some.injEq] at h
      subst h
      exact ⟨PopRun.done _, List.getLast?_eq_none_iff.mp hl⟩
    | some d =>
      rw [hl] at h
      simp at h
  | succ fuel ih =>
    unfold dceLoop at h
    cases hl : s.pendingDecls.getLast? with
    | none =>
      rw [hl] at h
      simp only [Option.some.injEq] at h
      subst h
      exact ⟨PopRun.done _, List.getLast?_eq_none_iff.mp hl⟩
    | some d =>
      rw [hl] at h
      simp only at h
      obtain ⟨hrun, hemp⟩ := ih _ h
      refine ⟨PopRun.next _ _ _ ?_ hrun, hemp⟩
      have hp : s.pendingDecls = s.pendingDecls.dropLast ++ d :: [] :=
        (List.dropLast_append_getLast? d (by simp [hl])).symm
      have := @PopStep.pop heap s s.pendingDecls.dropLast [] d hp
      simpa using this

theorem dceLoop_lifo_step (heap : DeclPtr → Decl) (s : DceState) (d : DeclPtr)
    (hl : s.pendingDecls.getLast? = some d) :
    PopStep heap s (processDecl heap { s with pendingDecls := s.pendingDecls.dropLast } d) := by
  have hp : s.pendingDecls = s.pendingDecls.dropLast ++ d :: [] :=
    (List.dropLast_append_getLast? d (by simp [hl])).symm
  have := @PopStep.pop heap s s.pendingDecls.dropLast [] d hp
  simpa using this

theorem dceLoop_total (heap : DeclPtr → Decl) (fuel : Nat) (s : DceState)
    (h : dceMeasure s ≤ fuel) : ∃ t, dceLoop heap fuel s = some t := by
  induction fuel generalizing s with
  | zero =>
    unfold dceLoop
    cases hl : s.pendingDecls.getLast? with
    | none => exact ⟨s, rfl⟩
    | some d =>
      exfalso
      obtain ⟨ys, hys⟩ := List.getLast?_eq_some_iff.mp hl
      unfold dceMeasure at h
      rw [hys] at h
      simp at h
  | succ fuel ih =>
    unfold dceLoop
    cases hl : s.pendingDecls.getLast? with
    | none => exact ⟨s, rfl⟩
    | some d =>
      simp only
      apply ih
      have := popStep_measure heap s _ (dceLoop_lifo_step heap s d hl)
      omega

/-! ## The setup loops -/

theorem filterKey_ne_empty (p f : String) : p ++ "." ++ f ≠ "" := by
  intro h
  have h2 := congrArg String.length h
  simp only [String.length_append] at h2
  have h3 : ".".length = 1 := rfl
  have h4 : "".length = 0 := rfl
  omega

theorem FilterMap.get_push_mem (m : FilterMap) (k K : String) (i j : Nat) (l : List Nat)
    (h : m.get K = some l) (hj : j ∈ l) :
    ∃ l2, (m.push k i).get K = some l2 ∧ j ∈ l2 := by
  rw [FilterMap.get_push]
  by_cases hk : k = K
  · subst hk
    rw [if_pos rfl, h]
    exact ⟨_, rfl, by simp [hj]⟩
  · rw [if_neg hk]
    exact ⟨l, h, hj⟩

theorem FilterMap.get_push_self (m : FilterMap) (k : String) (i : Nat) :
    ∃ l2, (m.push k i).get k = some l2 ∧ i ∈ l2 := by
  rw [FilterMap.get_push, if_pos rfl]
  exact ⟨_, rfl, by simp⟩

theorem indexDecl_root (heap : DeclPtr → Decl) (p : String) (s : DceState) (d : DeclPtr)
    (h : (heap d).DceObjectFilter = "" ∧ (heap d).DceMethodFilter = "") :
    indexDecl heap p s d = { s with pendingDecls := s.pendingDecls ++ [d] } := by
  unfold indexDecl
  rw [if_pos h]

theorem indexDecl_filter (heap : DeclPtr → Decl) (p : String) (s : DceState) (d : DeclPtr)
    (h : ¬ ((heap d).DceObjectFilter = "" ∧ (heap d).DceMethodFilter = "")) :
    ∃ bf : FilterMap,
      indexDecl heap p s d = { s with infos := s.infos ++ [setupInfo heap p d], byFilter := bf } ∧
      (∀ (K : String) (j : Nat) (l : List Nat), s.byFilter.get K = some l → j ∈ l →
        ∃ l2, bf.get K = some l2 ∧ j ∈ l2) ∧
      (∀ K : String, K ≠ "" →
        ((setupInfo heap p d).objectFilter = K ∨ (setupInfo heap p d).methodFilter = K) →
        ∃ l2, bf.get K = some l2 ∧ s.infos.length ∈ l2) := by
  unfold indexDecl
  rw [if_neg h]
  by_cases ho : (heap d).DceObjectFilter = "" <;> by_cases hm : (heap d).DceMethodFilter = ""
  · exact absurd ⟨ho, hm⟩ h
  · refine ⟨s.byFilter.push (p ++ "." ++ (heap d).DceMethodFilter) s.infos.length, ?_, ?_, ?_⟩
    · simp only [ho, hm, setupInfo, ne_eq, not_true_eq_false, not_false_eq_true, if_true,
        if_false]
    · intro K j l hl hj
      exact FilterMap.get_push_mem _ _ _ _ _ _ hl hj
    · intro K hK hf
      simp only [ho, hm, setupInfo, ne_eq, not_true_eq_false, not_false_eq_true, if_true,
        if_false] at hf ⊢
      rcases hf with hf | hf
      · exact absurd hf.symm hK
      · rw [← hf]
        exact FilterMap.get_push_self _ _ _
  · refine ⟨s.byFilter.push (p ++ "." ++ (heap d).DceObjectFilter) s.infos.length, ?_, ?_, ?_⟩
    · simp only [ho, hm, setupInfo, ne_eq, not_true_eq_false, not_false_eq_true, if_true,
        if_false]
    · intro K j l hl hj
      exact FilterMap.get_push_mem _ _ _ _ _ _ hl hj
    · intro K hK hf
      simp only [ho, hm, setupInfo, ne_eq, not_true_eq_false, not_false_eq_true, if_true,
        if_false] at hf ⊢
      rcases hf with hf | hf
      · rw [← hf]
        exact FilterMap.get_push_self _ _ _
      · exact absurd hf.symm hK
  · refine ⟨(s.byFilter.push (p ++ "." ++ (heap d).DceObjectFilter) s.infos.length).push
      (p ++ "." ++ (heap d).DceMethodFilter) s.infos.length, ?_, ?_, ?_⟩
    · simp only [ho, hm, setupInfo, ne_eq, not_true_eq_false, not_false_eq_true, if_true,
        if_false]
    · intro K j l hl hj
      obtain ⟨l2, hl2, hj2⟩ := FilterMap.get_push_mem s.byFilter
        (p ++ "." ++ (heap d).DceObjectFilter) K s.infos.length j l hl hj
      exact FilterMap.get_push_mem _ _ _ _ _ _ hl2 hj2
    · intro K hK hf
      simp only [ho, hm, setupInfo, ne_eq, not_true_eq_false, not_false_eq_true, if_true,
        if_false] at hf ⊢
      rcases hf with hf | hf
      · rw [← hf]
        obtain ⟨l2, hl2, hj2⟩ := FilterMap.get_push_self s.byFilter
          (p ++ "." ++ (heap d).DceObjectFilter) s.infos.length
        exact FilterMap.get_push_mem _ _ _ _ _ _ hl2 hj2
      · rw [← hf]
        exact FilterMap.get_push_self _ _ _

theorem indexDecl_inv (heap : DeclPtr → Decl) (O : List (String × DeclPtr)) (p : String)
    (s : DceState) (d : DeclPtr) (hs : SetupInv heap O s) :
    SetupInv heap (O ++ [(p, d)]) (indexDecl heap p s d) := by
  by_cases h : (heap d).DceObjectFilter = "" ∧ (heap d).DceMethodFilter = ""
  · rw [indexDecl_root heap p s d h]
    refine ⟨?_, ?_, ?_, ?_, hs.cons, hs.sel⟩
    · intro q e hqe ho hm
      rcases List.mem_append.mp hqe with h1 | h1
      · exact List.mem_append_left _ (hs.roots q e h1 ho hm)
      · simp only [List.mem_singleton, Prod.mk.injEq] at h1
        rw [h1.2]
        simp
    · intro q e hqe hne
      rcases List.mem_append.mp hqe with h1 | h1
      · exact hs.idx q e h1 hne
      · simp only [List.mem_singleton, Prod.mk.injEq] at h1
        rw [h1.2] at hne
        exact absurd h hne
    · intro e he
      rcases List.mem_append.mp he with h1 | h1
      · obtain ⟨q, hq, hr⟩ := hs.pend e h1
        exact ⟨q, List.mem_append_left _ hq, hr⟩
      · simp only [List.mem_singleton] at h1
        subst h1
        exact ⟨p, by simp, h⟩
    · intro i a hia
      obtain ⟨q, e, hq, hr⟩ := hs.inf i a hia
      exact ⟨q, e, List.mem_append_left _ hq, hr⟩
  · obtain ⟨bf, heq, hmono, hnew⟩ := indexDecl_filter heap p s d h
    rw [heq]
    refine ⟨?_, ?_, ?_, ?_, ?_, hs.sel⟩
    · intro q e hqe ho hm
      rcases List.mem_append.mp hqe with h1 | h1
      · exact hs.roots q e h1 ho hm
      · simp only [List.mem_singleton, Prod.mk.injEq] at h1
        rw [h1.2] at ho hm
        exact absurd ⟨ho, hm⟩ h
    · intro q e hqe hne
      rcases List.mem_append.mp hqe with h1 | h1
      · obtain ⟨i, hi⟩ := hs.idx q e h1 hne
        refine ⟨i, ?_⟩
        have hlt : i < s.infos.length := (List.getElem?_eq_some.mp hi).1
        simp only [List.getElem?_append, hlt, if_true]
        exact hi
      · simp only [List.mem_singleton, Prod.mk.injEq] at h1
        rw [h1.1, h1.2]
        exact ⟨s.infos.length, by simp⟩
    · intro e he
      obtain ⟨q, hq, hr⟩ := hs.pend e he
      exact ⟨q, List.mem_append_left _ hq, hr⟩
    · intro i a hia
      by_cases hlt : i < s.infos.length
      · simp only [List.getElem?_append, hlt, if_true] at hia
        obtain ⟨q, e, hq, hr⟩ := hs.inf i a hia
        exact ⟨q, e, List.mem_append_left _ hq, hr⟩
      · simp only [List.getElem?_append, hlt, if_false] at hia
        have h0 : i - s.infos.length = 0 := by
          by_contra hne
          have h2 : 1 ≤ i - s.infos.length := by omega
          have h3 : [setupInfo heap p d][i - s.infos.length]? = none :=
            List.getElem?_eq_none (by simpa using h2)
          rw [h3] at hia
          exact absurd hia (by simp)
        rw [h0] at hia
        simp only [List.getElem?_cons_zero, Option.some.injEq] at hia
        exact ⟨p, d, by simp, h, hia.symm⟩
    · intro j b K hjb hK hf
      by_cases hlt : j < s.infos.length
      · simp only [List.getElem?_append, hlt, if_true] at hjb
        obtain ⟨l, hl, hj⟩ := hs.cons j b K hjb hK hf
        exact hmono K j l hl hj
      · simp only [List.getElem?_append, hlt, if_false] at hjb
        have h0 : j - s.infos.length = 0 := by
          by_contra hne
          have h2 : 1 ≤ j - s.infos.length := by omega
          have h3 : [setupInfo heap p d][j - s.infos.length]? = none :=
            List.getElem?_eq_none (by simpa using h2)
          rw [h3] at hjb
          exact absurd hjb (by simp)
        rw [h0] at hjb
        simp only [List.getElem?_cons_zero, Option.some.injEq] at hjb
        have hj : j = s.infos.length := by omega
        rw [hj]
        rw [← hjb] at hf
        exact hnew K hK hf

theorem foldIndex_inv (heap : DeclPtr → Decl) (L O : List (String × DeclPtr)) (s : DceState)
    (hs : SetupInv heap O s) :
    SetupInv heap (O ++ L) (L.foldl (fun s o => indexDecl heap o.1 s o.2) s) := by
  induction L generalizing O s with
  | nil => simpa using hs
  | cons o L ih =>
    rw [List.foldl_cons]
    have := ih (O ++ [o]) _ (indexDecl_inv heap O o.1 s o.2 hs)
    simpa using this

theorem dceSetup_fold (heap : DeclPtr → Decl) (pkgs : List Archive) (s : DceState) :
    pkgs.foldl (fun s pkg => pkg.Declarations.foldl (indexDecl heap pkg.ImportPath) s) s =
      (dceOccs pkgs).foldl (fun s o => indexDecl heap o.1 s o.2) s := by
  induction pkgs generalizing s with
  | nil => rfl
  | cons pkg rest ih =>
    rw [List.foldl_cons, ih]
    simp only [dceOccs, List.foldl_append, List.foldl_map]

theorem mem_dceOccs (pkgs : List Archive) (p : String) (d : DeclPtr) :
    (p, d) ∈ dceOccs pkgs ↔ ∃ pkg ∈ pkgs, pkg.ImportPath = p ∧ d ∈ pkg.Declarations := by
  induction pkgs with
  | nil => simp [dceOccs]
  | cons pkg rest ih =>
    simp only [dceOccs, List.mem_append, List.mem_map, Prod.mk.injEq, ih, List.mem_cons,
      exists_eq_or_imp]
    constructor
    · rintro (⟨e, he, h1, h2⟩ | h)
      · left
        subst h2
        exact ⟨h1, he⟩
      · exact Or.inr h
    · rintro (⟨h1, h2⟩ | h)
      · exact Or.inl ⟨d, h2, h1, rfl⟩
      · exact Or.inr h

theorem dceSetup_inv (heap : DeclPtr → Decl) (pkgs : List Archive) :
    SetupInv heap (dceOccs pkgs) (dceSetup heap pkgs) := by
  unfold dceSetup
  rw [dceSetup_fold]
  have h0 : SetupInv heap [] ({} : DceState) := by
    refine ⟨?_, ?_, ?_, ?_, ?_, rfl⟩
    · intro p d h; simp at h
    · intro p d h; simp at h
    · intro d h; simp at h
    · intro i a h; simp at h
    · intro j b K h; simp at h
  simpa using foldIndex_inv heap (dceOccs pkgs) [] {} h0

/-! ## The selection is the least closed set -/

theorem setupInfo_object (heap : DeclPtr → Decl) (p : String) (d : DeclPtr)
    (h : (heap d).DceObjectFilter ≠ "") :
    (setupInfo heap p d).objectFilter = p ++ "." ++ (heap d).DceObjectFilter := by
  simp [setupInfo, h]

theorem setupInfo_method (heap : DeclPtr → Decl) (p : String) (d : DeclPtr)
    (h : (heap d).DceMethodFilter ≠ "") :
    (setupInfo heap p d).methodFilter = p ++ "." ++ (heap d).DceMethodFilter := by
  simp [setupInfo, h]

theorem setupInfo_object_empty (heap : DeclPtr → Decl) (p : String) (d : DeclPtr)
    (h : (setupInfo heap p d).objectFilter = "") : (heap d).DceObjectFilter = "" := by
  by_contra hne
  rw [setupInfo_object heap p d hne] at h
  exact filterKey_ne_empty _ _ h

theorem setupInfo_method_empty (heap : DeclPtr → Decl) (p : String) (d : DeclPtr)
    (h : (setupInfo heap p d).methodFilter = "") : (heap d).DceMethodFilter = "" := by
  by_contra hne
  rw [setupInfo_method heap p d hne] at h
  exact filterKey_ne_empty _ _ h

theorem dceRule_of_closed (heap : DeclPtr → Decl) (pkgs : List Archive) (T : DeclPtr → Prop)
    (hT : DceClosed heap pkgs T) : DceRule heap T (dceSetup heap pkgs).infos := by
  intro i a hia ho hm
  obtain ⟨p, d, hpd, hne, rfl⟩ := (dceSetup_inv heap pkgs).inf i a hia
  obtain ⟨pkg, hpkg, hpath, hd⟩ := (mem_dceOccs pkgs p d).mp hpd
  subst hpath
  refine hT.2 pkg hpkg d hd hne ?_ ?_
  · intro h
    rw [← setupInfo_object heap pkg.ImportPath d h]
    apply ho
    rw [setupInfo_object heap pkg.ImportPath d h]
    exact filterKey_ne_empty _ _
  · intro h
    rw [← setupInfo_method heap pkg.ImportPath d h]
    apply hm
    rw [setupInfo_method heap pkg.ImportPath d h]
    exact filterKey_ne_empty _ _

theorem dceBase_init (heap : DeclPtr → Decl) (pkgs : List Archive) (T : DeclPtr → Prop)
    (hT : DceClosed heap pkgs T) :
    DceBase heap T (dceSetup heap pkgs).infos (dceSetup heap pkgs) := by
  have hs := dceSetup_inv heap pkgs
  refine ⟨rfl, ?_, ?_, ?_, ?_⟩
  · intro i a b ha hb
    rw [ha] at hb
    cases hb
    exact ⟨rfl, Or.inl rfl, Or.inl rfl⟩
  · intro j b hjb ho hm
    obtain ⟨p, d, _, hne, rfl⟩ := hs.inf j b hjb
    exact absurd ⟨setupInfo_object_empty heap p d ho, setupInfo_method_empty heap p d hm⟩ hne
  · intro x hx
    rcases hx with hx | hx
    · obtain ⟨p, hpd, ho, hm⟩ := hs.pend x hx
      obtain ⟨pkg, hpkg, _, hd⟩ := (mem_dceOccs pkgs p x).mp hpd
      exact hT.1 pkg hpkg x hd ho hm
    · rw [hs.sel] at hx
      simp at hx
  · intro i a b ha hb
    rw [ha] at hb
    cases hb
    exact ⟨fun h1 h2 => absurd h2 h1, fun h1 h2 => absurd h2 h1⟩

theorem dceDone_init (heap : DeclPtr → Decl) (pkgs : List Archive) :
    DceDone heap (dceSetup heap pkgs) := by
  intro x hx
  rw [(dceSetup_inv heap pkgs).sel] at hx
  simp at hx

/-- Soundness: whatever the pop discipline, everything selected lies in every
closed set. -/
theorem dce_run_sound (heap : DeclPtr → Decl) (pkgs : List Archive) (t : DceState)
    (hrun : PopRun heap (dceSetup heap pkgs) t) (T : DeclPtr → Prop)
    (hT : DceClosed heap pkgs T) (d : DeclPtr) (hd : d ∈ t.dceSelection) : T d := by
  obtain ⟨hb, _, _⟩ := popRun_inv heap T _ _ t (dceRule_of_closed heap pkgs T hT) hrun
    (dceBase_init heap pkgs T hT) (dceSetup_inv heap pkgs).cons (dceDone_init heap pkgs)
  exact hb.inT d (Or.inr hd)

/-- Completeness: whatever the pop discipline, once the worklist is empty the
selection is closed. -/
theorem dce_run_closed (heap : DeclPtr → Decl) (pkgs : List Archive) (t : DceState)
    (hrun : PopRun heap (dceSetup heap pkgs) t) (hemp : t.pendingDecls = []) :
    DceClosed heap pkgs (fun d => d ∈ t.dceSelection) := by
  have hs := dceSetup_inv heap pkgs
  have htriv : DceClosed heap pkgs (fun _ => True) :=
    ⟨fun _ _ _ _ _ _ => trivial, fun _ _ _ _ _ _ _ => trivial⟩
  obtain ⟨hb, hc, hd⟩ := popRun_inv heap (fun _ => True) _ _ t
    (dceRule_of_closed heap pkgs _ htriv) hrun
    (dceBase_init heap pkgs _ htriv) hs.cons (dceDone_init heap pkgs)
  have hsel : ∀ x, t.seen x → x ∈ t.dceSelection := by
    intro x hx
    rcases hx with hx | hx
    · rw [hemp] at hx
      simp at hx
    · exact hx
  constructor
  · intro pkg hpkg d hdm ho hm
    apply hsel
    apply popRun_seen heap _ t hrun
    left
    exact hs.roots pkg.ImportPath d
      ((mem_dceOccs pkgs _ d).mpr ⟨pkg, hpkg, rfl, hdm⟩) ho hm
  · intro pkg hpkg d hdm hne ho hm
    obtain ⟨i, hi⟩ := hs.idx pkg.ImportPath d
      ((mem_dceOccs pkgs _ d).mpr ⟨pkg, hpkg, rfl, hdm⟩) hne
    have hlt : i < t.infos.length := by
      rw [hb.len]
      exact (List.getElem?_eq_some.mp hi).1
    obtain ⟨b, hb2⟩ : ∃ b, t.infos[i]? = some b := ⟨t.infos[i], by simp [hlt]⟩
    have hsh := hb.shape i _ b hi hb2
    have hobj : b.objectFilter = "" := by
      by_contra hbne
      have h1 : b.objectFilter = (setupInfo heap pkg.ImportPath d).objectFilter := by
        rcases hsh.2.1 with h | h
        · exact h
        · exact absurd h hbne
      have h2 : (heap d).DceObjectFilter ≠ "" := by
        intro h3
        apply hbne
        rw [h1]
        simp [setupInfo, h3]
      obtain ⟨e, he, hk⟩ := ho h2
      obtain ⟨l, hl, _⟩ := hc i b b.objectFilter hb2 hbne (Or.inl rfl)
      rw [h1, setupInfo_object heap _ d h2, hd e he _ hk] at hl
      exact absurd hl (by simp)
    have hmeth : b.methodFilter = "" := by
      by_contra hbne
      have h1 : b.methodFilter = (setupInfo heap pkg.ImportPath d).methodFilter := by
        rcases hsh.2.2 with h | h
        · exact h
        · exact absurd h hbne
      have h2 : (heap d).DceMethodFilter ≠ "" := by
        intro h3
        apply hbne
        rw [h1]
        simp [setupInfo, h3]
      obtain ⟨e, he, hk⟩ := hm h2
      obtain ⟨l, hl, _⟩ := hc i b b.methodFilter hb2 hbne (Or.inr rfl)
      rw [h1, setupInfo_method heap _ d h2, hd e he _ hk] at hl
      exact absurd hl (by simp)
    have := hsel _ (hb.ready i b hb2 hobj hmeth)
    rw [hsh.1] at this
    exact this

/-- The elimination of `WriteProgramCode` returns, and what it returns is the
selection of a completed run. -/
theorem dceSelection_run (heap : DeclPtr → Decl) (pkgs : List Archive) :
    ∃ t, dceSelection heap pkgs = some t.dceSelection ∧
      PopRun heap (dceSetup heap pkgs) t ∧ t.pendingDecls = [] := by
  obtain ⟨t, ht⟩ := dceLoop_total heap (dceMeasure (dceSetup heap pkgs)) (dceSetup heap pkgs)
    (le_refl _)
  obtain ⟨hrun, hemp⟩ := dceLoop_run heap _ _ t ht
  refine ⟨t, ?_, hrun, hemp⟩
  unfold dceSelection
  rw [ht]
  rfl

/-- The selection is closed and contained in every closed set. -/
theorem dceSelection_least (heap : DeclPtr → Decl) (pkgs : List Archive) :
    ∃ sel, dceSelection heap pkgs = some sel ∧
      DceClosed heap pkgs (fun d => d ∈ sel) ∧
      ∀ T : DeclPtr → Prop, DceClosed heap pkgs T → ∀ d ∈ sel, T d := by
  obtain ⟨t, ht, hrun, hemp⟩ := dceSelection_run heap pkgs
  exact ⟨t.dceSelection, ht, dce_run_closed heap pkgs t hrun hemp,
    fun T hT d hd => dce_run_sound heap pkgs t hrun T hT d hd⟩

theorem mem_restrictArchives (sel : List DeclPtr) (pkgs : List Archive) (pkg2 : Archive)
    (h : pkg2 ∈ restrictArchives sel pkgs) :
    ∃ pkg ∈ pkgs, pkg2.ImportPath = pkg.ImportPath ∧
      ∀ d, d ∈ pkg2.Declarations ↔ d ∈ pkg.Declarations ∧ d ∈ sel := by
  unfold restrictArchives at h
  obtain ⟨pkg, hpkg, rfl⟩ := List.mem_map.mp h
  exact ⟨pkg, hpkg, rfl, fun d => by simp [List.mem_filter]⟩

theorem restrictArchives_mem (sel : List DeclPtr) (pkgs : List Archive) (pkg : Archive)
    (h : pkg ∈ pkgs) :
    ∃ pkg2 ∈ restrictArchives sel pkgs, pkg2.ImportPath = pkg.ImportPath ∧
      ∀ d, d ∈ pkg2.Declarations ↔ d ∈ pkg.Declarations ∧ d ∈ sel := by
  refine ⟨{ pkg with Declarations := pkg.Declarations.filter (fun d => decide (d ∈ sel)) },
    ?_, rfl, fun d => by simp [List.mem_filter]⟩
  unfold restrictArchives
  exact List.mem_map.mpr ⟨pkg, h, rfl⟩

/-! ## The claims on dead-code elimination -/

/-- C1: for every list of archives the elimination of `WriteProgramCode`
returns a selection that is the least set closed under (i) every declaration
without filters is a member and (ii) a declaration with a filter is a member
whenever each of its non-empty filter keys is listed in the `DceDeps` of a
member; and a run of the worklist loop that pops in any other order ends with
the same set. -/
theorem dce_selection_least_closed (heap : DeclPtr → Decl) (pkgs : List Archive) :
    ∃ sel, dceSelection heap pkgs = some sel ∧
      DceClosed heap pkgs (fun d => d ∈ sel) ∧
      (∀ T : DeclPtr → Prop, DceClosed heap pkgs T → ∀ d ∈ sel, T d) ∧
      (∀ t, PopRun heap (dceSetup heap pkgs) t → t.pendingDecls = [] →
        ∀ d, d ∈ t.dceSelection ↔ d ∈ sel) := by
  obtain ⟨sel, hsel, hcl, hleast⟩ := dceSelection_least heap pkgs
  refine ⟨sel, hsel, hcl, hleast, ?_⟩
  intro t hrun hemp d
  constructor
  · intro hd
    exact dce_run_sound heap pkgs t hrun _ hcl d hd
  · intro hd
    exact hleast _ (dce_run_closed heap pkgs t hrun hemp) d hd

/-- C2: a declaration of any archive with empty `DceObjectFilter` and empty
`DceMethodFilter` is in the selection, whatever the `DceDeps` are. -/
theorem dce_roots_selected (heap : DeclPtr → Decl) (pkgs : List Archive) (pkg : Archive)
    (d : DeclPtr) (hpkg : pkg ∈ pkgs) (hd : d ∈ pkg.Declarations)
    (ho : (heap d).DceObjectFilter = "") (hm : (heap d).DceMethodFilter = "") :
    ∃ sel, dceSelection heap pkgs = some sel ∧ d ∈ sel := by
  obtain ⟨sel, hsel, hcl, _⟩ := dceSelection_least heap pkgs
  exact ⟨sel, hsel, hcl.1 pkg hpkg d hd ho hm⟩

theorem dce_roots_selected_witness :
    ∃ sel, dceSelection scenarioHeap [scenarioPkg] = some sel ∧ (3 : DeclPtr) ∈ sel :=
  dce_roots_selected scenarioHeap [scenarioPkg] scenarioPkg 3 (by simp)
    (by simp [scenarioPkg]) rfl rfl

/-- C3: a declaration with at least one non-empty filter, one of whose filter
keys (in each package that holds it) is listed in the `DceDeps` of no selected
declaration other than itself, is not in the selection. -/
theorem dce_unreferenced_excluded (heap : DeclPtr → Decl) (pkgs : List Archive)
    (sel : List DeclPtr) (d : DeclPtr) (hsel : dceSelection heap pkgs = some sel)
    (hf : ¬ ((heap d).DceObjectFilter = "" ∧ (heap d).DceMethodFilter = ""))
    (hkey : ∀ pkg ∈ pkgs, d ∈ pkg.Declarations →
      ((heap d).DceObjectFilter ≠ "" ∧ ∀ e ∈ sel, e ≠ d →
        (pkg.ImportPath ++ "." ++ (heap d).DceObjectFilter) ∉ (heap e).DceDeps) ∨
      ((heap d).DceMethodFilter ≠ "" ∧ ∀ e ∈ sel, e ≠ d →
        (pkg.ImportPath ++ "." ++ (heap d).DceMethodFilter) ∉ (heap e).DceDeps)) :
    d ∉ sel := by
  obtain ⟨sel2, hsel2, hcl, hleast⟩ := dceSelection_least heap pkgs
  rw [hsel] at hsel2
  cases hsel2
  intro hd
  have hT : DceClosed heap pkgs (fun x => x ∈ sel ∧ x ≠ d) := by
    constructor
    · intro pkg hpkg x hx ho hm
      refine ⟨hcl.1 pkg hpkg x hx ho hm, ?_⟩
      intro hxd
      subst hxd
      exact hf ⟨ho, hm⟩
    · intro pkg hpkg x hx hne ho hm
      refine ⟨hcl.2 pkg hpkg x hx hne ?_ ?_, ?_⟩
      · intro h
        obtain ⟨e, he, hk⟩ := ho h
        exact ⟨e, he.1, hk⟩
      · intro h
        obtain ⟨e, he, hk⟩ := hm h
        exact ⟨e, he.1, hk⟩
      · intro hxd
        subst hxd
        rcases hkey pkg hpkg hx with ⟨h1, h2⟩ | ⟨h1, h2⟩
        · obtain ⟨e, he, hk⟩ := ho h1
          exact h2 e he.1 he.2 hk
        · obtain ⟨e, he, hk⟩ := hm h1
          exact h2 e he.1 he.2 hk
  exact (hleast _ hT d hd).2 rfl

theorem dce_unreferenced_excluded_witness : (4 : DeclPtr) ∉ ([1, 3] : List DeclPtr) :=
  dce_unreferenced_excluded scenarioHeap [scenarioPkg4] [1, 3] 4 (by decide) (by decide)
    (by
      intro pkg hpkg _
      simp only [List.mem_singleton] at hpkg
      subst hpkg
      left
      refine ⟨by decide, ?_⟩
      decide)

/-- C4: the elimination is idempotent: run again on the archives with every
declaration outside the selection removed, it selects the same set. -/
theorem dce_idempotent (heap : DeclPtr → Decl) (pkgs : List Archive) (sel : List DeclPtr)
    (hsel : dceSelection heap pkgs = some sel) :
    ∃ sel2, dceSelection heap (restrictArchives sel pkgs) = some sel2 ∧
      ∀ d, d ∈ sel2 ↔ d ∈ sel := by
  obtain ⟨sel1, hsel1, hcl, hleast⟩ := dceSelection_least heap pkgs
  rw [hsel] at hsel1
  cases hsel1
  obtain ⟨sel2, hsel2, hcl2, hleast2⟩ := dceSelection_least heap (restrictArchives sel pkgs)
  refine ⟨sel2, hsel2, ?_⟩
  have h21 : ∀ d ∈ sel2, d ∈ sel := by
    apply hleast2
    constructor
    · intro pkg2 hpkg2 d hd _ _
      obtain ⟨pkg, _, _, hmem⟩ := mem_restrictArchives sel pkgs pkg2 hpkg2
      exact ((hmem d).mp hd).2
    · intro pkg2 hpkg2 d hd _ _ _
      obtain ⟨pkg, _, _, hmem⟩ := mem_restrictArchives sel pkgs pkg2 hpkg2
      exact ((hmem d).mp hd).2
  have h12 : ∀ d ∈ sel, d ∈ sel2 := by
    apply hleast
    constructor
    · intro pkg hpkg d hd ho hm
      obtain ⟨pkg2, hpkg2, _, hmem⟩ := restrictArchives_mem sel pkgs pkg hpkg
      exact hcl2.1 pkg2 hpkg2 d ((hmem d).mpr ⟨hd, hcl.1 pkg hpkg d hd ho hm⟩) ho hm
    · intro pkg hpkg d hd hne ho hm
      obtain ⟨pkg2, hpkg2, hpath, hmem⟩ := restrictArchives_mem sel pkgs pkg hpkg
      have hds : d ∈ sel := by
        refine hcl.2 pkg hpkg d hd hne ?_ ?_
        · intro h
          obtain ⟨e, he, hk⟩ := ho h
          exact ⟨e, h21 e he, hk⟩
        · intro h
          obtain ⟨e, he, hk⟩ := hm h
          exact ⟨e, h21 e he, hk⟩
      refine hcl2.2 pkg2 hpkg2 d ((hmem d).mpr ⟨hd, hds⟩) hne ?_ ?_
      · rw [hpath]; exact ho
      · rw [hpath]; exact hm
  exact fun d => ⟨h21 d, h12 d⟩

theorem dce_idempotent_witness :
    ∃ sel2, dceSelection scenarioHeap (restrictArchives [1, 3] [scenarioPkg4]) = some sel2 ∧
      ∀ d, d ∈ sel2 ↔ d ∈ ([1, 3] : List DeclPtr) :=
  dce_idempotent scenarioHeap [scenarioPkg4] [1, 3] (by decide)

/-- C5, as stated, fails: in package `p` with `D1` (object key `p.T`), `D2`
(method filter `M`, depends on `p.T`) and `D3` (root, depends on `p.T`) the
selection is `D1`, `D3`; `D2` is left out. -/
theorem dce_scenario_counterexample :
    dceSelection scenarioHeap [scenarioPkg] = some [1, 3] ∧
      (2 : DeclPtr) ∉ ([1, 3] : List DeclPtr) := by
  decide

/-- C5, amended: in a single package `p` with `D1` (object key `p.T`, no
`DceDeps`), `D2` (only a method filter `m`) and `D3` (a root that lists
`p.T`), the selection holds `D1` and `D3`, and it holds `D2` exactly when
`D3` lists the method key `p.m` of `D2`. -/
theorem dce_scenario_selection (heap : DeclPtr → Decl) (pkg : Archive) (d1 d2 d3 : DeclPtr)
    (m : String) (hpath : pkg.ImportPath = "p") (hdecls : pkg.Declarations = [d1, d2, d3])
    (h1o : (heap d1).DceObjectFilter = "T") (h1m : (heap d1).DceMethodFilter = "")
    (h1d : (heap d1).DceDeps = [])
    (h2o : (heap d2).DceObjectFilter = "") (h2m : (heap d2).DceMethodFilter = m)
    (hm : m ≠ "") (_h2d : "p.T" ∈ (heap d2).DceDeps)
    (h3o : (heap d3).DceObjectFilter = "") (h3m : (heap d3).DceMethodFilter = "")
    (h3d : "p.T" ∈ (heap d3).DceDeps) :
    ∃ sel, dceSelection heap [pkg] = some sel ∧
      ∀ d, d ∈ sel ↔ (d = d1 ∨ d = d3 ∨ (d = d2 ∧ ("p" ++ "." ++ m) ∈ (heap d3).DceDeps)) := by
  obtain ⟨sel, hsel, hcl, hleast⟩ := dceSelection_least heap [pkg]
  refine ⟨sel, hsel, ?_⟩
  have hT : "p" ++ "." ++ "T" = "p.T" := by decide
  have hTne : ("T" : String) ≠ "" := by decide
  have hpk : pkg ∈ [pkg] := by simp
  have hd3 : d3 ∈ sel := hcl.1 pkg hpk d3 (by simp [hdecls]) h3o h3m
  have hd1 : d1 ∈ sel := by
    refine hcl.2 pkg hpk d1 (by simp [hdecls]) ?_ ?_ ?_
    · rw [h1o]
      exact fun h => hTne h.1
    · intro _
      refine ⟨d3, hd3, ?_⟩
      rw [hpath, h1o, hT]
      exact h3d
    · intro h
      exact absurd h1m h
  intro d
  constructor
  · revert d
    apply hleast
    constructor
    · intro pkg2 hpkg2 d hd ho hmf
      simp only [List.mem_singleton] at hpkg2
      subst hpkg2
      rw [hdecls] at hd
      simp only [List.mem_cons, List.mem_singleton, List.not_mem_nil, or_false] at hd
      rcases hd with h | h | h
      · exact Or.inl h
      · subst h
        rw [h2m] at hmf
        exact absurd hmf hm
      · exact Or.inr (Or.inl h)
    · intro pkg2 hpkg2 d hd _ _ hmf
      simp only [List.mem_singleton] at hpkg2
      subst hpkg2
      rw [hdecls] at hd
      simp only [List.mem_cons, List.mem_singleton, List.not_mem_nil, or_false] at hd
      rcases hd with h | h | h
      · exact Or.inl h
      · subst h
        right; right
        refine ⟨rfl, ?_⟩
        obtain ⟨e, he, hk⟩ := hmf (by rw [h2m]; exact hm)
        rw [hpath, h2m] at hk
        rcases he with he | he | he
        · subst he
          rw [h1d] at hk
          simp at hk
        · subst he
          exact hk
        · exact he.2
      · exact Or.inr (Or.inl h)
  · rintro (h | h | ⟨h, hk⟩)
    · rw [h]; exact hd1
    · rw [h]; exact hd3
    · rw [h]
      refine hcl.2 pkg hpk d2 (by simp [hdecls]) ?_ ?_ ?_
      · rw [h2m]
        exact fun h => hm h.2
      · intro h
        exact absurd h2o h
      · intro _
        refine ⟨d3, hd3, ?_⟩
        rw [hpath, h2m]
        exact hk

theorem dce_scenario_selection_witness :
    ∃ sel, dceSelection scenarioHeap [scenarioPkg] = some sel ∧
      ∀ d, d ∈ sel ↔
        (d = 1 ∨ d = 3 ∨ (d = 2 ∧ ("p" ++ "." ++ "M") ∈ (scenarioHeap 3).DceDeps)) :=
  dce_scenario_selection scenarioHeap scenarioPkg 1 2 3 "M" rfl rfl rfl rfl rfl rfl rfl
    (by decide) (by decide) rfl rfl (by decide)

/-! ## The resolver: invariant and postcondition -/

theorem getElem?_concat_cases {α : Type} (l : List α) (x a : α) (i : Nat)
    (h : (l ++ [x])[i]? = some a) :
    (i < l.length ∧ l[i]? = some a) ∨ (i = l.length ∧ a = x) := by
  by_cases hlt : i < l.length
  · left
    rw [List.getElem?_append_left hlt] at h
    exact ⟨hlt, h⟩
  · right
    have hlen : i < (l ++ [x]).length := (List.getElem?_eq_some.mp h).1
    simp only [List.length_append, List.length_singleton] at hlen
    have hi : i = l.length := by omega
    subst hi
    simp only [List.getElem?_append_right (le_refl _), Nat.sub_self, List.getElem?_cons_zero,
      Option.some.injEq] at h
    exact ⟨rfl, h.symm⟩

theorem depInv_empty (importPkg : String → Except GoError Archive) (archive : Archive) :
    DepInv importPkg archive {} := by
  refine ⟨?_, ?_, ?_, ?_, ?_⟩
  · intro p; simp
  · intro a h; simp at h
  · intro a h; simp at h
  · intro i a h; simp at h
  · simp

theorem depPost_refl (importPkg : String → Except GoError Archive) (archive : Archive)
    (rank : String → Nat) (r : Nat) (st : DepState) (h : DepInv importPkg archive st) :
    DepPost importPkg archive rank r st st :=
  ⟨h, ⟨[], by simp⟩, fun _ hp => Or.inl hp⟩

theorem depPost_paths (importPkg : String → Except GoError Archive) (archive : Archive)
    (rank : String → Nat) (r : Nat) (st st1 : DepState) (h : DepInv importPkg archive st)
    (hp : DepPost importPkg archive rank r st st1) (p : String) (hmem : p ∈ st.paths) :
    p ∈ st1.paths := by
  obtain ⟨a, ha, hap⟩ := (h.pathsIff p).mp hmem
  obtain ⟨more, hmore⟩ := hp.ext
  refine (hp.inv.pathsIff p).mpr ⟨a, ?_, hap⟩
  rw [hmore]
  exact List.mem_append_left _ ha

theorem depPost_trans (importPkg : String → Except GoError Archive) (archive : Archive)
    (rank : String → Nat) (r : Nat) (st st1 st2 : DepState)
    (h1 : DepPost importPkg archive rank r st st1)
    (h2 : DepPost importPkg archive rank r st1 st2) :
    DepPost importPkg archive rank r st st2 := by
  refine ⟨h2.inv, ?_, ?_⟩
  · obtain ⟨m1, hm1⟩ := h1.ext
    obtain ⟨m2, hm2⟩ := h2.ext
    exact ⟨m1 ++ m2, by rw [hm2, hm1, List.append_assoc]⟩
  · intro p hp
    rcases h2.bound p hp with h | h
    · exact h1.bound p h
    · exact Or.inr h

theorem depPost_mono (importPkg : String → Except GoError Archive) (archive : Archive)
    (rank : String → Nat) (r r2 : Nat) (st st1 : DepState) (hr : r ≤ r2)
    (h : DepPost importPkg archive rank r st st1) :
    DepPost importPkg archive rank r2 st st1 := by
  refine ⟨h.inv, h.ext, ?_⟩
  intro p hp
  rcases h.bound p hp with h1 | h1
  · exact Or.inl h1
  · exact Or.inr (le_trans h1 hr)

theorem forImports_post (importPkg : String → Except GoError Archive) (archive : Archive)
    (rank : String → Nat) (r : Nat) (f : String → DepState → Option (Except GoError DepState))
    (l : List String)
    (hf : ∀ imp ∈ l, ∀ st st1, DepInv importPkg archive st → f imp st = some (.ok st1) →
      DepPost importPkg archive rank r st st1 ∧ imp ∈ st1.paths)
    (st st1 : DepState) (hinv : DepInv importPkg archive st)
    (h : forImports f l st = some (.ok st1)) :
    DepPost importPkg archive rank r st st1 ∧ ∀ imp ∈ l, imp ∈ st1.paths := by
  induction l generalizing st with
  | nil =>
    simp only [forImports, Option.some.injEq, Except.ok.injEq] at h
    subst h
    exact ⟨depPost_refl importPkg archive rank r st hinv, fun _ hm => by simp at hm⟩
  | cons imp rest ih =>
    unfold forImports at h
    cases hfi : f imp st with
    | none => rw [hfi] at h; simp at h
    | some res =>
      cases res with
      | error e => rw [hfi] at h; simp at h
      | ok s1 =>
        rw [hfi] at h
        simp only at h
        obtain ⟨hp1, himp⟩ := hf imp (List.mem_cons_self _ _) st s1 hinv hfi
        obtain ⟨hp2, hrest⟩ := ih (fun i hi => hf i (List.mem_cons_of_mem _ hi)) s1 hp1.inv h
        refine ⟨depPost_trans importPkg archive rank r st s1 st1 hp1 hp2, ?_⟩
        intro i hi
        rcases List.mem_cons.mp hi with h1 | h1
        · rw [h1]
          exact depPost_paths importPkg archive rank r s1 st1 hp1.inv hp2 imp himp
        · exact hrest i h1

theorem depInv_push (importPkg : String → Except GoError Archive) (archive : Archive)
    (st1 : DepState) (dep : Archive) (hinv : DepInv importPkg archive st1)
    (hload : importPkg dep.ImportPath = .ok dep)
    (hreach : Reachable importPkg archive dep.ImportPath)
    (himps : ∀ q ∈ dep.Imports, q ∈ st1.paths) (hnew : dep.ImportPath ∉ st1.paths) :
    DepInv importPkg archive
      { deps := st1.deps ++ [dep], paths := dep.ImportPath :: st1.paths } := by
  refine ⟨?_, ?_, ?_, ?_, ?_⟩
  · intro p
    dsimp only
    constructor
    · intro h
      rcases List.mem_cons.mp h with h | h
      · exact ⟨dep, List.mem_append_right _ (List.mem_singleton.mpr rfl), h.symm⟩
      · obtain ⟨a, ha, hap⟩ := (hinv.pathsIff p).mp h
        exact ⟨a, List.mem_append_left _ ha, hap⟩
    · rintro ⟨a, ha, hap⟩
      rcases List.mem_append.mp ha with ha | ha
      · exact List.mem_cons_of_mem _ ((hinv.pathsIff p).mpr ⟨a, ha, hap⟩)
      · rw [List.mem_singleton.mp ha] at hap
        rw [← hap]
        exact List.mem_cons_self _ _
  · intro a ha
    rcases List.mem_append.mp ha with h | h
    · exact hinv.loaded a h
    · simp only [List.mem_singleton] at h
      rw [h]
      exact hload
  · intro a ha
    rcases List.mem_append.mp ha with h | h
    · exact hinv.reach a h
    · simp only [List.mem_singleton] at h
      rw [h]
      exact hreach
  · intro i a hia q hq
    rcases getElem?_concat_cases _ _ _ _ hia with ⟨hlt, hold⟩ | ⟨hi, ha⟩
    · obtain ⟨j, b, hj, hb, hbq⟩ := hinv.topo i a hold q hq
      refine ⟨j, b, hj, ?_, hbq⟩
      dsimp only
      rw [List.getElem?_append_left (by omega)]
      exact hb
    · subst ha
      obtain ⟨b, hb, hbq⟩ := (hinv.pathsIff q).mp (himps q hq)
      obtain ⟨j, hj⟩ := List.getElem?_of_mem hb
      have hjl : j < st1.deps.length := (List.getElem?_eq_some.mp hj).1
      refine ⟨j, b, by omega, ?_, hbq⟩
      dsimp only
      rw [List.getElem?_append_left hjl]
      exact hj
  · dsimp only
    rw [List.map_append, List.nodup_append]
    refine ⟨hinv.nodup, by simp, ?_⟩
    intro x hx1 hx2
    simp only [List.map_cons, List.map_nil, List.mem_singleton] at hx2
    subst hx2
    obtain ⟨a, ha, hap⟩ := List.mem_map.mp hx1
    exact hnew ((hinv.pathsIff _).mpr ⟨a, ha, hap⟩)

theorem collectDependencies_post (importPkg : String → Except GoError Archive)
    (archive : Archive) (rank : String → Nat)
    (hac : ImportAcyclic importPkg archive rank) (hcons : LoaderConsistent importPkg)
    (fuel : Nat) (path : String) (st st1 : DepState)
    (hreach : Reachable importPkg archive path) (hinv : DepInv importPkg archive st)
    (h : collectDependencies importPkg fuel path st = some (.ok st1)) :
    DepPost importPkg archive rank (rank path) st st1 ∧ path ∈ st1.paths := by
  induction fuel generalizing path st st1 with
  | zero => simp [collectDependencies] at h
  | succ fuel ih =>
    unfold collectDependencies at h
    by_cases hmem : path ∈ st.paths
    · rw [if_pos hmem] at h
      simp only [Option.some.injEq, Except.ok.injEq] at h
      subst h
      exact ⟨depPost_refl importPkg archive rank _ st hinv, hmem⟩
    · rw [if_neg hmem] at h
      cases hl : importPkg path with
      | error e => rw [hl] at h; simp at h
      | ok dep =>
        rw [hl] at h
        simp only at h
        have hpath : dep.ImportPath = path := hcons path dep hl
        cases hloop : forImports (collectDependencies importPkg fuel) dep.Imports st with
        | none => rw [hloop] at h; simp at h
        | some res =>
          cases res with
          | error e => rw [hloop] at h; simp at h
          | ok s1 =>
            rw [hloop] at h
            simp only [Option.some.injEq, Except.ok.injEq] at h
            have hf : ∀ imp ∈ dep.Imports, ∀ a b, DepInv importPkg archive a →
                collectDependencies importPkg fuel imp a = some (.ok b) →
                DepPost importPkg archive rank (rank path - 1) a b ∧ imp ∈ b.paths := by
              intro imp himp a b ha hab
              have hr : Reachable importPkg archive imp :=
                Reachable.step path imp dep hreach hl himp
              have hlt := hac path imp dep hreach hl himp
              obtain ⟨h1, h2⟩ := ih imp a b hr ha hab
              exact ⟨depPost_mono importPkg archive rank _ _ a b (by omega) h1, h2⟩
            obtain ⟨hp, himps⟩ :=
              forImports_post importPkg archive rank (rank path - 1) _ dep.Imports hf st s1
                hinv hloop
            have hposr : ∀ q ∈ dep.Imports, rank q < rank path :=
              fun q hq => hac path q dep hreach hl hq
            have hnew : dep.ImportPath ∉ s1.paths := by
              rw [hpath]
              intro hin
              rcases hp.bound path hin with h1 | h1
              · exact hmem h1
              · cases hdi : dep.Imports with
                | nil =>
                  rw [hdi] at hloop
                  simp only [forImports, Option.some.injEq, Except.ok.injEq] at hloop
                  rw [← hloop] at hin
                  exact hmem hin
                | cons q rest =>
                  have := hposr q (by rw [hdi]; exact List.mem_cons_self _ _)
                  omega
            have hinv2 := depInv_push importPkg archive s1 dep hp.inv
              (by rw [hpath]; exact hl) (by rw [hpath]; exact hreach) himps hnew
            subst h
            refine ⟨⟨hinv2, ?_, ?_⟩, ?_⟩
            · obtain ⟨more, hmore⟩ := hp.ext
              exact ⟨more ++ [dep], by dsimp only; rw [hmore, List.append_assoc]⟩
            · intro p hpm
              dsimp only at hpm
              rcases List.mem_cons.mp hpm with h1 | h1
              · right
                rw [h1, hpath]
              · rcases hp.bound p h1 with h2 | h2
                · exact Or.inl h2
                · right
                  omega
            · dsimp only
              rw [hpath]
              exact List.mem_cons_self _ _

/-- What a successful `ImportDependencies` leaves behind. -/
theorem importDependencies_post (importPkg : String → Except GoError Archive)
    (archive : Archive) (rank : String → Nat)
    (hac : ImportAcyclic importPkg archive rank) (hcons : LoaderConsistent importPkg)
    (fuel : Nat) (deps : List Archive)
    (h : ImportDependencies importPkg fuel archive = some (deps, none)) :
    ∃ st : DepState, deps = st.deps ++ [archive] ∧ DepInv importPkg archive st ∧
      "runtime" ∈ st.paths ∧ ∀ imp ∈ archive.Imports, imp ∈ st.paths := by
  unfold ImportDependencies at h
  cases h1 : collectDependencies importPkg fuel "runtime" {} with
  | none => rw [h1] at h; simp at h
  | some res =>
    cases res with
    | error e => rw [h1] at h; simp at h
    | ok s0 =>
      rw [h1] at h
      simp only at h
      obtain ⟨hp0, hrt⟩ := collectDependencies_post importPkg archive rank hac hcons fuel
        "runtime" {} s0 Reachable.runtime (depInv_empty importPkg archive) h1
      cases h2 : forImports (collectDependencies importPkg fuel) archive.Imports s0 with
      | none => rw [h2] at h; simp at h
      | some res2 =>
        cases res2 with
        | error e => rw [h2] at h; simp at h
        | ok s1 =>
          rw [h2] at h
          simp only [Option.some.injEq, Prod.mk.injEq, and_true] at h
          have hf : ∀ imp ∈ archive.Imports, ∀ a b, DepInv importPkg archive a →
              collectDependencies importPkg fuel imp a = some (.ok b) →
              DepPost importPkg archive (fun _ => 0) 0 a b ∧ imp ∈ b.paths := by
            intro imp himp a b ha hab
            obtain ⟨h3, h4⟩ := collectDependencies_post importPkg archive rank hac hcons fuel
              imp a b (Reachable.entry imp himp) ha hab
            exact ⟨⟨h3.inv, h3.ext, fun p _ => Or.inr (le_refl _)⟩, h4⟩
          obtain ⟨hp1, himps⟩ := forImports_post importPkg archive (fun _ => 0) 0 _
            archive.Imports hf s0 s1 hp0.inv h2
          exact ⟨s1, h.symm, hp1.inv,
            depPost_paths importPkg archive _ 0 s0 s1 hp0.inv hp1 _ hrt, himps⟩

theorem depInv_reachable_mem (importPkg : String → Except GoError Archive)
    (archive : Archive) (st : DepState) (hinv : DepInv importPkg archive st)
    (hrt : "runtime" ∈ st.paths) (himps : ∀ imp ∈ archive.Imports, imp ∈ st.paths)
    (p : String) (hp : Reachable importPkg archive p) :
    ∃ a ∈ st.deps, a.ImportPath = p := by
  induction hp with
  | runtime => exact (hinv.pathsIff _).mp hrt
  | entry q hq => exact (hinv.pathsIff _).mp (himps q hq)
  | step q r a _ hl hr ih =>
    obtain ⟨b, hb, hbq⟩ := ih
    have hlb := hinv.loaded b hb
    rw [hbq, hl] at hlb
    simp only [Except.ok.injEq] at hlb
    subst hlb
    obtain ⟨i, hi⟩ := List.getElem?_of_mem hb
    obtain ⟨j, c, _, hc, hcq⟩ := hinv.topo i a hi r hr
    exact ⟨c, List.getElem?_mem hc, hcq⟩

theorem sampleLoader_consistent : LoaderConsistent sampleLoader := by
  intro p a h
  unfold sampleLoader at h
  split_ifs at h with h1 h2 h3
  · simp only [Except.ok.injEq] at h
    rw [← h, h1]; rfl
  · simp only [Except.ok.injEq] at h
    rw [← h, h2]; rfl
  · simp only [Except.ok.injEq] at h
    rw [← h, h3]; rfl

theorem sampleLoader_acyclic (archive : Archive) :
    ImportAcyclic sampleLoader archive sampleRank := by
  intro p q a _ h hq
  unfold sampleLoader at h
  split_ifs at h with h1 h2 h3
  · simp only [Except.ok.injEq] at h
    rw [← h] at hq
    simp only [runtimeArchive, List.mem_singleton] at hq
    rw [hq, h1]
    decide
  · simp only [Except.ok.injEq] at h
    rw [← h] at hq
    simp [sysArchive] at hq
  · simp only [Except.ok.injEq] at h
    rw [← h] at hq
    simp only [fmtArchive, List.mem_cons, List.mem_singleton, List.not_mem_nil, or_false] at hq
    rcases hq with hq | hq
    · rw [hq, h3]; decide
    · rw [hq, h3]; decide

/-! ## The claims on the resolver -/

/-- C6: when `ImportDependencies` succeeds on an acyclic import graph with a
loader consistent with `ImportPath`, every archive of the result, the entry
included, is preceded at a strictly smaller index by an archive for each path
of its `Imports`. -/
theorem importDependencies_topological (importPkg : String → Except GoError Archive)
    (archive : Archive) (rank : String → Nat)
    (hac : ImportAcyclic importPkg archive rank) (hcons : LoaderConsistent importPkg)
    (fuel : Nat) (deps : List Archive)
    (h : ImportDependencies importPkg fuel archive = some (deps, none)) :
    ∀ (i : Nat) (P : Archive), deps[i]? = some P → ∀ q ∈ P.Imports,
      ∃ (j : Nat) (b : Archive), j < i ∧ deps[j]? = some b ∧ b.ImportPath = q := by
  obtain ⟨st, hdeps, hinv, _, himps⟩ :=
    importDependencies_post importPkg archive rank hac hcons fuel deps h
  subst hdeps
  intro i P hi q hq
  rcases getElem?_concat_cases _ _ _ _ hi with ⟨hlt, hold⟩ | ⟨hil, hP⟩
  · obtain ⟨j, b, hj, hb, hbq⟩ := hinv.topo i P hold q hq
    exact ⟨j, b, hj, by rw [List.getElem?_append_left (by omega)]; exact hb, hbq⟩
  · subst hP
    obtain ⟨b, hb, hbq⟩ := (hinv.pathsIff q).mp (himps q hq)
    obtain ⟨j, hj⟩ := List.getElem?_of_mem hb
    have hjl : j < st.deps.length := (List.getElem?_eq_some.mp hj).1
    exact ⟨j, b, by omega, by rw [List.getElem?_append_left hjl]; exact hj, hbq⟩

theorem importDependencies_topological_witness :
    ImportDependencies sampleLoader 5 mainArchive =
        some ([sysArchive, runtimeArchive, fmtArchive, mainArchive], none) ∧
      ∃ (j : Nat) (b : Archive), j < 3 ∧
        [sysArchive, runtimeArchive, fmtArchive, mainArchive][j]? = some b ∧
        b.ImportPath = "fmt" :=
  ⟨by decide,
    importDependencies_topological sampleLoader mainArchive sampleRank
      (sampleLoader_acyclic mainArchive) sampleLoader_consistent 5
      [sysArchive, runtimeArchive, fmtArchive, mainArchive] (by decide) 3 mainArchive rfl
      "fmt" (by decide)⟩

/-- C7, as stated, fails: the baseline archive imports `sys`, the graph is
acyclic and the loader consistent, and the result starts with the archive of
`sys`, not with the baseline archive. -/
theorem importDependencies_first_counterexample :
    ImportAcyclic sampleLoader mainArchive sampleRank ∧ LoaderConsistent sampleLoader ∧
      sampleLoader "runtime" = .ok runtimeArchive ∧
      ImportDependencies sampleLoader 5 mainArchive =
        some ([sysArchive, runtimeArchive, fmtArchive, mainArchive], none) ∧
      [sysArchive, runtimeArchive, fmtArchive, mainArchive].head? ≠ some runtimeArchive :=
  ⟨sampleLoader_acyclic mainArchive, sampleLoader_consistent, rfl, by decide, by decide⟩

/-- C7, amended: when `ImportDependencies` succeeds, the baseline archive the
loader returns for `"runtime"` is in the result, and it is the first element
whenever it has no `Imports` of its own. -/
theorem importDependencies_baseline (importPkg : String → Except GoError Archive)
    (archive : Archive) (rank : String → Nat)
    (hac : ImportAcyclic importPkg archive rank) (hcons : LoaderConsistent importPkg)
    (fuel : Nat) (deps : List Archive)
    (h : ImportDependencies importPkg fuel archive = some (deps, none)) :
    ∃ rt, importPkg "runtime" = .ok rt ∧ rt ∈ deps ∧
      (rt.Imports = [] → deps.head? = some rt) := by
  unfold ImportDependencies at h
  cases h1 : collectDependencies importPkg fuel "runtime" {} with
  | none => rw [h1] at h; simp at h
  | some res =>
    cases res with
    | error e => rw [h1] at h; simp at h
    | ok s0 =>
      rw [h1] at h
      simp only at h
      obtain ⟨hp0, _⟩ := collectDependencies_post importPkg archive rank hac hcons fuel
        "runtime" {} s0 Reachable.runtime (depInv_empty importPkg archive) h1
      cases h2 : forImports (collectDependencies importPkg fuel) archive.Imports s0 with
      | none => rw [h2] at h; simp at h
      | some res2 =>
        cases res2 with
        | error e => rw [h2] at h; simp at h
        | ok s1 =>
          rw [h2] at h
          simp only [Option.some.injEq, Prod.mk.injEq, and_true] at h
          have hf : ∀ imp ∈ archive.Imports, ∀ a b, DepInv importPkg archive a →
              collectDependencies importPkg fuel imp a = some (.ok b) →
              DepPost importPkg archive (fun _ => 0) 0 a b ∧ imp ∈ b.paths := by
            intro imp himp a b ha hab
            obtain ⟨h3, h4⟩ := collectDependencies_post importPkg archive rank hac hcons fuel
              imp a b (Reachable.entry imp himp) ha hab
            exact ⟨⟨h3.inv, h3.ext, fun p _ => Or.inr (le_refl _)⟩, h4⟩
          obtain ⟨hp1, _⟩ := forImports_post importPkg archive (fun _ => 0) 0 _
            archive.Imports hf s0 s1 hp0.inv h2
          obtain ⟨more, hmore⟩ := hp1.ext
          -- the first call: what it appended
          cases fuel with
          | zero => simp [collectDependencies] at h1
          | succ fuel =>
            unfold collectDependencies at h1
            rw [if_neg (by simp)] at h1
            cases hl : importPkg "runtime" with
            | error e => rw [hl] at h1; simp at h1
            | ok rt =>
              rw [hl] at h1
              simp only at h1
              cases h3 : forImports (collectDependencies importPkg fuel) rt.Imports {} with
              | none => rw [h3] at h1; simp at h1
              | some res3 =>
                cases res3 with
                | error e => rw [h3] at h1; simp at h1
                | ok s2 =>
                  rw [h3] at h1
                  simp only [Option.some.injEq, Except.ok.injEq] at h1
                  refine ⟨rt, rfl, ?_, ?_⟩
                  · rw [← h, hmore, ← h1]
                    simp
                  · intro hnil
                    rw [hnil] at h3
                    simp only [forImports, Option.some.injEq, Except.ok.injEq] at h3
                    rw [← h, hmore, ← h1, ← h3]
                    rfl

theorem importDependencies_baseline_witness :
    ∃ rt, sampleLoader "runtime" = .ok rt ∧
      rt ∈ [sysArchive, runtimeArchive, fmtArchive, mainArchive] ∧
      (rt.Imports = [] →
        [sysArchive, runtimeArchive, fmtArchive, mainArchive].head? = some rt) :=
  importDependencies_baseline sampleLoader mainArchive sampleRank
    (sampleLoader_acyclic mainArchive) sampleLoader_consistent 5
    [sysArchive, runtimeArchive, fmtArchive, mainArchive] (by decide)

/-- C8, as stated, fails: with the package `sys` as the entry the result is
`sys`, `runtime`, `sys`; two elements share the import path `sys`. -/
theorem importDependencies_nodup_counterexample :
    ImportAcyclic sampleLoader sysArchive sampleRank ∧ LoaderConsistent sampleLoader ∧
      ImportDependencies sampleLoader 5 sysArchive =
        some ([sysArchive, runtimeArchive, sysArchive], none) ∧
      ¬ ([sysArchive, runtimeArchive, sysArchive].map (fun a => a.ImportPath)).Nodup :=
  ⟨sampleLoader_acyclic sysArchive, sampleLoader_consistent, by decide, by decide⟩

/-- C8, amended: when `ImportDependencies` succeeds on an acyclic import graph
with a consistent loader, no two elements before the entry archive have the
same `ImportPath`; the entry archive differs from all of them too provided
its own `ImportPath` is not reachable from `"runtime"` or from its
`Imports`. -/
theorem importDependencies_nodup (importPkg : String → Except GoError Archive)
    (archive : Archive) (rank : String → Nat)
    (hac : ImportAcyclic importPkg archive rank) (hcons : LoaderConsistent importPkg)
    (fuel : Nat) (deps : List Archive)
    (h : ImportDependencies importPkg fuel archive = some (deps, none)) :
    (deps.dropLast.map (fun a => a.ImportPath)).Nodup ∧
      (¬ Reachable importPkg archive archive.ImportPath →
        (deps.map (fun a => a.ImportPath)).Nodup) := by
  obtain ⟨st, hdeps, hinv, _, _⟩ :=
    importDependencies_post importPkg archive rank hac hcons fuel deps h
  subst hdeps
  constructor
  · rw [List.dropLast_concat]
    exact hinv.nodup
  · intro hnr
    rw [List.map_append, List.nodup_append]
    refine ⟨hinv.nodup, by simp, ?_⟩
    intro x hx1 hx2
    simp only [List.map_cons, List.map_nil, List.mem_singleton] at hx2
    subst hx2
    obtain ⟨a, ha, hap⟩ := List.mem_map.mp hx1
    apply hnr
    rw [← hap]
    exact hinv.reach a ha

theorem importDependencies_nodup_witness :
    (([sysArchive, runtimeArchive, fmtArchive, mainArchive].dropLast.map
        (fun a => a.ImportPath)).Nodup) ∧
      (¬ Reachable sampleLoader mainArchive mainArchive.ImportPath →
        ([sysArchive, runtimeArchive, fmtArchive, mainArchive].map
          (fun a => a.ImportPath)).Nodup) :=
  importDependencies_nodup sampleLoader mainArchive sampleRank
    (sampleLoader_acyclic mainArchive) sampleLoader_consistent 5
    [sysArchive, runtimeArchive, fmtArchive, mainArchive] (by decide)

/-- C9: when `ImportDependencies` succeeds on an acyclic import graph with a
consistent loader, the last element of the result is the entry archive, and
the import paths of the elements before it are exactly the paths reachable
from `"runtime"` or from the entry's `Imports`. -/
theorem importDependencies_exact (importPkg : String → Except GoError Archive)
    (archive : Archive) (rank : String → Nat)
    (hac : ImportAcyclic importPkg archive rank) (hcons : LoaderConsistent importPkg)
    (fuel : Nat) (deps : List Archive)
    (h : ImportDependencies importPkg fuel archive = some (deps, none)) :
    deps.getLast? = some archive ∧
      ∀ p : String, (∃ a ∈ deps.dropLast, a.ImportPath = p) ↔
        Reachable importPkg archive p := by
  obtain ⟨st, hdeps, hinv, hrt, himps⟩ :=
    importDependencies_post importPkg archive rank hac hcons fuel deps h
  subst hdeps
  constructor
  · simp
  · intro p
    rw [List.dropLast_concat]
    constructor
    · rintro ⟨a, ha, hap⟩
      rw [← hap]
      exact hinv.reach a ha
    · exact depInv_reachable_mem importPkg archive st hinv hrt himps p

theorem importDependencies_exact_witness :
    [sysArchive, runtimeArchive, fmtArchive, mainArchive].getLast? = some mainArchive ∧
      ∀ p : String,
        (∃ a ∈ [sysArchive, runtimeArchive, fmtArchive, mainArchive].dropLast,
          a.ImportPath = p) ↔ Reachable sampleLoader mainArchive p :=
  importDependencies_exact sampleLoader mainArchive sampleRank
    (sampleLoader_acyclic mainArchive) sampleLoader_consistent 5
    [sysArchive, runtimeArchive, fmtArchive, mainArchive] (by decide)

/-! ## The resolver returns, and its error is the first failure -/

theorem forImports_total (f : String → DepState → Option (Except GoError DepState))
    (l : List String) (hf : ∀ imp ∈ l, ∀ st, ∃ r, f imp st = some r) (st : DepState) :
    ∃ r, forImports f l st = some r := by
  induction l generalizing st with
  | nil => exact ⟨_, rfl⟩
  | cons imp rest ih =>
    unfold forImports
    obtain ⟨r, hr⟩ := hf imp (List.mem_cons_self _ _) st
    rw [hr]
    cases r with
    | error e => exact ⟨_, rfl⟩
    | ok s1 => exact ih (fun i hi => hf i (List.mem_cons_of_mem _ hi)) s1

theorem collectDependencies_total (importPkg : String → Except GoError Archive)
    (archive : Archive) (rank : String → Nat) (hac : ImportAcyclic importPkg archive rank)
    (fuel : Nat) (path : String) (hreach : Reachable importPkg archive path)
    (hfuel : rank path < fuel) (st : DepState) :
    ∃ r, collectDependencies importPkg fuel path st = some r := by
  induction fuel generalizing path st with
  | zero => omega
  | succ fuel ih =>
    unfold collectDependencies
    by_cases hmem : path ∈ st.paths
    · rw [if_pos hmem]
      exact ⟨_, rfl⟩
    · rw [if_neg hmem]
      cases hl : importPkg path with
      | error e => exact ⟨_, rfl⟩
      | ok dep =>
        simp only
        have hf : ∀ imp ∈ dep.Imports, ∀ s,
            ∃ r, collectDependencies importPkg fuel imp s = some r := by
          intro imp himp s
          have hlt := hac path imp dep hreach hl himp
          exact ih imp (Reachable.step path imp dep hreach hl himp) (by omega) s
        obtain ⟨r, hr⟩ := forImports_total _ dep.Imports hf st
        rw [hr]
        cases r with
        | error e => exact ⟨_, rfl⟩
        | ok s1 => exact ⟨_, rfl⟩

theorem importDependencies_total (importPkg : String → Except GoError Archive)
    (archive : Archive) (rank : String → Nat) (hac : ImportAcyclic importPkg archive rank)
    (fuel : Nat) (hrt : rank "runtime" < fuel)
    (himps : ∀ imp ∈ archive.Imports, rank imp < fuel) :
    ∃ r, ImportDependencies importPkg fuel archive = some r := by
  unfold ImportDependencies
  obtain ⟨r, hr⟩ := collectDependencies_total importPkg archive rank hac fuel "runtime"
    Reachable.runtime hrt {}
  rw [hr]
  cases r with
  | error e => exact ⟨_, rfl⟩
  | ok s0 =>
    simp only
    have hf : ∀ imp ∈ archive.Imports, ∀ s,
        ∃ r, collectDependencies importPkg fuel imp s = some r :=
      fun imp himp s => collectDependencies_total importPkg archive rank hac fuel imp
        (Reachable.entry imp himp) (himps imp himp) s
    obtain ⟨r2, hr2⟩ := forImports_total _ archive.Imports hf s0
    rw [hr2]
    cases r2 with
    | error e => exact ⟨_, rfl⟩
    | ok s1 => exact ⟨_, rfl⟩

theorem firstFailureIn_clean (g : String → Option (Option (String × GoError)))
    (l : List String) (h : ∀ q ∈ l, g q = some none) : firstFailureIn g l = some none := by
  induction l with
  | nil => rfl
  | cons q rest ih =>
    unfold firstFailureIn
    rw [h q (List.mem_cons_self _ _)]
    exact ih (fun x hx => h x (List.mem_cons_of_mem _ hx))

theorem firstFailureIn_mem (g : String → Option (Option (String × GoError)))
    (l : List String) (pe : String × GoError) (h : firstFailureIn g l = some (some pe)) :
    ∃ q ∈ l, g q = some (some pe) := by
  induction l with
  | nil => simp [firstFailureIn] at h
  | cons q rest ih =>
    unfold firstFailureIn at h
    cases hq : g q with
    | none => rw [hq] at h; simp at h
    | some r =>
      cases r with
      | some x =>
        rw [hq] at h
        simp only [Option.some.injEq] at h
        subst h
        exact ⟨q, List.mem_cons_self _ _, hq⟩
      | none =>
        rw [hq] at h
        obtain ⟨x, hx, hgx⟩ := ih h
        exact ⟨x, List.mem_cons_of_mem _ hx, hgx⟩

theorem firstFailure_sound (importPkg : String → Except GoError Archive) (archive : Archive)
    (fuel : Nat) (path p : String) (e : GoError)
    (h : firstFailure importPkg fuel path = some (some (p, e))) :
    importPkg p = .error e ∧
      (Reachable importPkg archive path → Reachable importPkg archive p) := by
  induction fuel generalizing path with
  | zero => simp [firstFailure] at h
  | succ fuel ih =>
    unfold firstFailure at h
    cases hl : importPkg path with
    | error e2 =>
      rw [hl] at h
      simp only [Option.some.injEq, Prod.mk.injEq] at h
      rw [← h.1, ← h.2]
      exact ⟨hl, fun hr => hr⟩
    | ok dep =>
      rw [hl] at h
      simp only at h
      obtain ⟨q, hq, hgq⟩ := firstFailureIn_mem _ _ _ h
      obtain ⟨h1, h2⟩ := ih q hgq
      exact ⟨h1, fun hr => h2 (Reachable.step path q dep hr hl hq)⟩

theorem depInv_imports_mem (importPkg : String → Except GoError Archive)
    (archive : Archive) (st : DepState) (hinv : DepInv importPkg archive st)
    (a : Archive) (ha : a ∈ st.deps) (q : String) (hq : q ∈ a.Imports) : q ∈ st.paths := by
  obtain ⟨i, hi⟩ := List.getElem?_of_mem ha
  obtain ⟨j, c, _, hc, hcq⟩ := hinv.topo i a hi q hq
  exact (hinv.pathsIff q).mpr ⟨c, List.getElem?_mem hc, hcq⟩

theorem firstFailure_memo (importPkg : String → Except GoError Archive) (archive : Archive)
    (rank : String → Nat) (hac : ImportAcyclic importPkg archive rank)
    (st : DepState) (hinv : DepInv importPkg archive st) (fuel : Nat) (p : String)
    (hp : p ∈ st.paths) (hfuel : rank p < fuel) :
    firstFailure importPkg fuel p = some none := by
  induction fuel generalizing p with
  | zero => omega
  | succ fuel ih =>
    obtain ⟨a, ha, hap⟩ := (hinv.pathsIff p).mp hp
    have hl := hinv.loaded a ha
    have hr := hinv.reach a ha
    rw [hap] at hl hr
    unfold firstFailure
    rw [hl]
    simp only
    apply firstFailureIn_clean
    intro q hq
    have hlt := hac p q a hr hl hq
    exact ih q (depInv_imports_mem importPkg archive st hinv a ha q hq) (by omega)

theorem forImports_refines (importPkg : String → Except GoError Archive) (archive : Archive)
    (f : String → DepState → Option (Except GoError DepState))
    (g : String → Option (Option (String × GoError))) (l : List String)
    (hf : ∀ imp ∈ l, ∀ st, DepInv importPkg archive st →
      (∀ st1, f imp st = some (.ok st1) → g imp = some none ∧ DepInv importPkg archive st1) ∧
      (∀ e, f imp st = some (.error e) → ∃ p, g imp = some (some (p, e))))
    (st : DepState) (hinv : DepInv importPkg archive st) :
    (∀ st1, forImports f l st = some (.ok st1) → firstFailureIn g l = some none) ∧
      (∀ e, forImports f l st = some (.error e) →
        ∃ p, firstFailureIn g l = some (some (p, e))) := by
  induction l generalizing st with
  | nil =>
    constructor
    · intro _ _; rfl
    · intro e h; simp [forImports] at h
  | cons imp rest ih =>
    obtain ⟨hok, herr⟩ := hf imp (List.mem_cons_self _ _) st hinv
    unfold forImports firstFailureIn
    cases hfi : f imp st with
    | none =>
      constructor
      · intro st1 h; simp at h
      · intro e h; simp at h
    | some res =>
      cases res with
      | error e2 =>
        obtain ⟨p, hp⟩ := herr e2 hfi
        constructor
        · intro st1 h; simp at h
        · intro e h
          simp only [Option.some.injEq, Except.error.injEq] at h
          subst h
          exact ⟨p, by rw [hp]⟩
      | ok s1 =>
        obtain ⟨hg, hinv1⟩ := hok s1 hfi
        rw [hg]
        exact ih (fun i hi => hf i (List.mem_cons_of_mem _ hi)) s1 hinv1

theorem collectDependencies_refines (importPkg : String → Except GoError Archive)
    (archive : Archive) (rank : String → Nat)
    (hac : ImportAcyclic importPkg archive rank) (hcons : LoaderConsistent importPkg)
    (fuel : Nat) (path : String) (st : DepState)
    (hreach : Reachable importPkg archive path) (hfuel : rank path < fuel)
    (hinv : DepInv importPkg archive st) :
    (∀ st1, collectDependencies importPkg fuel path st = some (.ok st1) →
      firstFailure importPkg fuel path = some none ∧ DepInv importPkg archive st1) ∧
    (∀ e, collectDependencies importPkg fuel path st = some (.error e) →
      ∃ p, firstFailure importPkg fuel path = some (some (p, e))) := by
  induction fuel generalizing path st with
  | zero => omega
  | succ fuel ih =>
    constructor
    · intro st1 h
      have hpost := collectDependencies_post importPkg archive rank hac hcons (fuel + 1) path
        st st1 hreach hinv h
      refine ⟨?_, hpost.1.inv⟩
      exact firstFailure_memo importPkg archive rank hac st1 hpost.1.inv (fuel + 1) path
        hpost.2 hfuel
    · intro e h
      unfold collectDependencies at h
      by_cases hmem : path ∈ st.paths
      · rw [if_pos hmem] at h
        simp at h
      · rw [if_neg hmem] at h
        unfold firstFailure
        cases hl : importPkg path with
        | error e2 =>
          rw [hl] at h
          simp only [Option.some.injEq, Except.error.injEq] at h
          subst h
          exact ⟨path, rfl⟩
        | ok dep =>
          rw [hl] at h
          simp only at h ⊢
          have hf : ∀ imp ∈ dep.Imports, ∀ s, DepInv importPkg archive s →
              (∀ s1, collectDependencies importPkg fuel imp s = some (.ok s1) →
                firstFailure importPkg fuel imp = some none ∧ DepInv importPkg archive s1) ∧
              (∀ e, collectDependencies importPkg fuel imp s = some (.error e) →
                ∃ p, firstFailure importPkg fuel imp = some (some (p, e))) := by
            intro imp himp s hs
            have hlt := hac path imp dep hreach hl himp
            exact ih imp s (Reachable.step path imp dep hreach hl himp) (by omega) hs
          obtain ⟨_, herr⟩ := forImports_refines importPkg archive _ _ dep.Imports hf st hinv
          cases hloop : forImports (collectDependencies importPkg fuel) dep.Imports st with
          | none => rw [hloop] at h; simp at h
          | some res =>
            cases res with
            | error e2 =>
              rw [hloop] at h
              simp only [Option.some.injEq, Except.error.injEq] at h
              subst h
              exact herr e2 hloop
            | ok s1 => rw [hloop] at h; simp at h

theorem importDependencies_refines (importPkg : String → Except GoError Archive)
    (archive : Archive) (rank : String → Nat)
    (hac : ImportAcyclic importPkg archive rank) (hcons : LoaderConsistent importPkg)
    (fuel : Nat) (hrt : rank "runtime" < fuel)
    (himps : ∀ imp ∈ archive.Imports, rank imp < fuel) (l : List Archive) (e : GoError)
    (h : ImportDependencies importPkg fuel archive = some (l, some e)) :
    l = [] ∧ ∃ p, firstFailureFrom importPkg fuel archive = some (some (p, e)) := by
  have hf : ∀ imp ∈ "runtime" :: archive.Imports, ∀ s, DepInv importPkg archive s →
      (∀ s1, collectDependencies importPkg fuel imp s = some (.ok s1) →
        firstFailure importPkg fuel imp = some none ∧ DepInv importPkg archive s1) ∧
      (∀ e, collectDependencies importPkg fuel imp s = some (.error e) →
        ∃ p, firstFailure importPkg fuel imp = some (some (p, e))) := by
    intro imp himp s hs
    rcases List.mem_cons.mp himp with h1 | h1
    · subst h1
      exact collectDependencies_refines importPkg archive rank hac hcons fuel _ s
        Reachable.runtime hrt hs
    · exact collectDependencies_refines importPkg archive rank hac hcons fuel imp s
        (Reachable.entry imp h1) (himps imp h1) hs
  obtain ⟨_, herr⟩ := forImports_refines importPkg archive _ _ _ hf {}
    (depInv_empty importPkg archive)
  unfold firstFailureFrom
  unfold ImportDependencies at h
  cases h1 : collectDependencies importPkg fuel "runtime" {} with
  | none => rw [h1] at h; simp at h
  | some res =>
    cases res with
    | error e2 =>
      rw [h1] at h
      simp only [Option.some.injEq, Prod.mk.injEq] at h
      refine ⟨h.1.symm, ?_⟩
      apply herr
      unfold forImports
      rw [h1, ← h.2]
    | ok s0 =>
      rw [h1] at h
      simp only at h
      cases h2 : forImports (collectDependencies importPkg fuel) archive.Imports s0 with
      | none => rw [h2] at h; simp at h
      | some res2 =>
        cases res2 with
        | error e2 =>
          rw [h2] at h
          simp only [Option.some.injEq, Prod.mk.injEq] at h
          refine ⟨h.1.symm, ?_⟩
          apply herr
          unfold forImports
          rw [h1]
          simp only
          rw [h2, ← h.2]
        | ok s1 =>
          rw [h2] at h
          simp at h

/-- C10, as stated, fails: the loader answers `"runtime"` with an archive
whose `ImportPath` is `x`, so `x` is marked as visited and the later import of
`x`, on which the loader fails, is skipped.  The graph is acyclic, the loader
fails on a reachable path, and no error is returned. -/
theorem importDependencies_error_counterexample :
    ImportAcyclic aliasLoader aliasEntry (fun _ => 0) ∧
      Reachable aliasLoader aliasEntry "x" ∧
      aliasLoader "x" = .error "not found: x" ∧
      ImportDependencies aliasLoader 5 aliasEntry = some ([aliasArchive, aliasEntry], none) := by
  refine ⟨?_, Reachable.entry "x" (by decide), rfl, by decide⟩
  intro p q a _ h hq
  unfold aliasLoader at h
  split_ifs at h
  simp only [Except.ok.injEq] at h
  rw [← h] at hq
  simp [aliasArchive] at hq

/-- C10, amended: over an acyclic import graph and with a loader consistent
with `ImportPath`, `ImportDependencies` returns (for every recursion budget
above the ranks of its starting paths), and it returns an error if and only
if the loader fails on some reachable path; the error is then the loader's
error for the first failing path in depth-first order and the list is
nil. -/
theorem importDependencies_error (importPkg : String → Except GoError Archive)
    (archive : Archive) (rank : String → Nat)
    (hac : ImportAcyclic importPkg archive rank) (hcons : LoaderConsistent importPkg)
    (fuel : Nat) (hrt : rank "runtime" < fuel)
    (himps : ∀ imp ∈ archive.Imports, rank imp < fuel) :
    ∃ r, ImportDependencies importPkg fuel archive = some r ∧
      ((∃ e, r.2 = some e) ↔
        ∃ p e, Reachable importPkg archive p ∧ importPkg p = .error e) ∧
      (∀ e, r.2 = some e → r.1 = [] ∧
        ∃ p, firstFailureFrom importPkg fuel archive = some (some (p, e)) ∧
          importPkg p = .error e) := by
  obtain ⟨r, hr⟩ := importDependencies_total importPkg archive rank hac fuel hrt himps
  obtain ⟨l, oe⟩ := r
  have hfail : ∀ e, oe = some e → l = [] ∧
      ∃ p, firstFailureFrom importPkg fuel archive = some (some (p, e)) ∧
        importPkg p = .error e ∧ Reachable importPkg archive p := by
    intro e he
    subst he
    obtain ⟨hl, p, hp⟩ := importDependencies_refines importPkg archive rank hac hcons fuel
      hrt himps l e hr
    refine ⟨hl, p, hp, ?_⟩
    unfold firstFailureFrom at hp
    obtain ⟨q, hq, hgq⟩ := firstFailureIn_mem _ _ _ hp
    obtain ⟨h1, h2⟩ := firstFailure_sound importPkg archive fuel q p e hgq
    refine ⟨h1, h2 ?_⟩
    rcases List.mem_cons.mp hq with h3 | h3
    · rw [h3]; exact Reachable.runtime
    · exact Reachable.entry q h3
  refine ⟨(l, oe), hr, ?_, ?_⟩
  · constructor
    · rintro ⟨e, he⟩
      obtain ⟨_, p, _, h1, h2⟩ := hfail e he
      exact ⟨p, e, h2, h1⟩
    · rintro ⟨p, e, hp, hpe⟩
      cases oe with
      | some e2 => exact ⟨e2, rfl⟩
      | none =>
        exfalso
        obtain ⟨st, _, hinv, hrt2, himps2⟩ :=
          importDependencies_post importPkg archive rank hac hcons fuel l hr
        obtain ⟨a, ha, hap⟩ := depInv_reachable_mem importPkg archive st hinv hrt2 himps2 p hp
        have hl := hinv.loaded a ha
        rw [hap, hpe] at hl
        simp at hl
  · intro e he
    obtain ⟨h1, p, h2, h3, _⟩ := hfail e he
    exact ⟨h1, p, h2, h3⟩

theorem importDependencies_error_witness :
    ∃ r, ImportDependencies sampleLoader 5 brokenArchive = some r ∧
      ((∃ e, r.2 = some e) ↔
        ∃ p e, Reachable sampleLoader brokenArchive p ∧ sampleLoader p = .error e) ∧
      (∀ e, r.2 = some e → r.1 = [] ∧
        ∃ p, firstFailureFrom sampleLoader 5 brokenArchive = some (some (p, e)) ∧
          sampleLoader p = .error e) :=
  importDependencies_error sampleLoader brokenArchive sampleRank
    (sampleLoader_acyclic brokenArchive) sampleLoader_consistent 5 (by decide) (by decide)

/-! ## The writer: bytes, markers and counters -/

theorem indexByte_none (p : List UInt8) (c : UInt8) (h : IndexByte p c = none) : c ∉ p := by
  induction p with
  | nil => simp
  | cons b rest ih =>
    unfold IndexByte at h
    by_cases hb : b = c
    · rw [if_pos hb] at h
      simp at h
    · rw [if_neg hb] at h
      simp only [Option.map_eq_none'] at h
      intro hm
      rcases List.mem_cons.mp hm with h1 | h1
      · exact hb h1.symm
      · exact ih h h1

theorem indexByte_some (p : List UInt8) (c : UInt8) (i : Nat) (h : IndexByte p c = some i) :
    i < p.length ∧ p = p.take i ++ c :: p.drop (i + 1) ∧ c ∉ p.take i := by
  induction p generalizing i with
  | nil => simp [IndexByte] at h
  | cons b rest ih =>
    unfold IndexByte at h
    by_cases hb : b = c
    · rw [if_pos hb] at h
      simp only [Option.some.injEq] at h
      subst h
      subst hb
      simp
    · rw [if_neg hb] at h
      simp only [Option.map_eq_some'] at h
      obtain ⟨j, hj, hji⟩ := h
      subst hji
      obtain ⟨h1, h2, h3⟩ := ih j hj
      refine ⟨by simp only [List.length_cons]; omega, ?_, ?_⟩
      · simp only [List.take_succ_cons, List.drop_succ_cons, List.cons_append, List.cons.injEq,
          true_and]
        exact h2
      · simp only [List.take_succ_cons, List.mem_cons, not_or]
        exact ⟨fun e => hb e.symm, h3⟩

theorem markersComplete_skip (k : Nat) (x : List UInt8) (h : markersComplete k x = true) :
    k ≤ x.length ∧ markersComplete 0 (x.drop k) = true := by
  induction k generalizing x with
  | zero => exact ⟨Nat.zero_le _, by simpa using h⟩
  | succ k ih =>
    cases x with
    | nil => simp [markersComplete] at h
    | cons b rest =>
      simp only [markersComplete] at h
      obtain ⟨h1, h2⟩ := ih rest h
      exact ⟨by simp only [List.length_cons]; omega, by simpa using h2⟩

theorem stripMarkers_skip (k : Nat) (x : List UInt8) :
    stripMarkers k x = stripMarkers 0 (x.drop k) := by
  induction k generalizing x with
  | zero => simp
  | succ k ih =>
    cases x with
    | nil => simp [stripMarkers]
    | cons b rest =>
      simp only [stripMarkers, List.drop_succ_cons]
      exact ih rest

theorem callsFrom_skip (fs : Option (List UInt8)) (k : Nat) (pc : Nat × Nat)
    (x : List UInt8) : callsFrom fs k pc x = callsFrom fs 0 pc (x.drop k) := by
  induction k generalizing x with
  | zero => simp
  | succ k ih =>
    cases x with
    | nil => simp [callsFrom]
    | cons b rest =>
      simp only [callsFrom, List.drop_succ_cons]
      exact ih rest

theorem markersComplete_lead (pre rest : List UInt8) (h : (8 : UInt8) ∉ pre) :
    markersComplete 0 (pre ++ 8 :: rest) = markersComplete 4 rest := by
  induction pre with
  | nil => simp [markersComplete]
  | cons b pre ih =>
    have hb : b ≠ 8 := fun e => h (by simp [e])
    have hp : (8 : UInt8) ∉ pre := fun e => h (List.mem_cons_of_mem _ e)
    simp only [List.cons_append, markersComplete, hb, if_false]
    exact ih hp

theorem stripMarkers_lead (pre rest : List UInt8) (h : (8 : UInt8) ∉ pre) :
    stripMarkers 0 (pre ++ 8 :: rest) = pre ++ stripMarkers 4 rest := by
  induction pre with
  | nil => simp [stripMarkers]
  | cons b pre ih =>
    have hb : b ≠ 8 := fun e => h (by simp [e])
    have hp : (8 : UInt8) ∉ pre := fun e => h (List.mem_cons_of_mem _ e)
    simp only [List.cons_append, stripMarkers, hb, if_false, List.cons.injEq, true_and]
    exact ih hp

theorem callsFrom_lead (fs : Option (List UInt8)) (pc : Nat × Nat) (pre rest : List UInt8)
    (h : (8 : UInt8) ∉ pre) :
    callsFrom fs 0 pc (pre ++ 8 :: rest) =
      { generatedLine := (posAfter pc pre).1 + 1, generatedColumn := (posAfter pc pre).2,
        fileSet := fs, pos := BigEndianUint32 (rest.take 4) } ::
        callsFrom fs 4 (posAfter pc pre) rest := by
  induction pre generalizing pc with
  | nil => simp [callsFrom, posAfter]
  | cons b pre ih =>
    have hb : b ≠ 8 := fun e => h (by simp [e])
    have hp : (8 : UInt8) ∉ pre := fun e => h (List.mem_cons_of_mem _ e)
    have hstep : callsFrom fs 0 pc (b :: (pre ++ 8 :: rest)) =
        callsFrom fs 0 (posStep pc b) (pre ++ 8 :: rest) := by
      simp only [callsFrom, hb, if_false]
    rw [List.cons_append, hstep, ih (posStep pc b) hp]
    simp [posAfter]

theorem markersComplete_plain (p : List UInt8) (h : (8 : UInt8) ∉ p) :
    markersComplete 0 p = true := by
  induction p with
  | nil => rfl
  | cons b p ih =>
    have hb : b ≠ 8 := fun e => h (by simp [e])
    simp only [markersComplete, hb, if_false]
    exact ih (fun e => h (List.mem_cons_of_mem _ e))

theorem stripMarkers_plain (p : List UInt8) (h : (8 : UInt8) ∉ p) : stripMarkers 0 p = p := by
  induction p with
  | nil => rfl
  | cons b p ih =>
    have hb : b ≠ 8 := fun e => h (by simp [e])
    simp only [stripMarkers, hb, if_false, List.cons.injEq, true_and]
    exact ih (fun e => h (List.mem_cons_of_mem _ e))

theorem callsFrom_plain (fs : Option (List UInt8)) (pc : Nat × Nat) (p : List UInt8)
    (h : (8 : UInt8) ∉ p) : callsFrom fs 0 pc p = [] := by
  induction p generalizing pc with
  | nil => rfl
  | cons b p ih =>
    have hb : b ≠ 8 := fun e => h (by simp [e])
    simp only [callsFrom, hb, if_false]
    exact ih _ (fun e => h (List.mem_cons_of_mem _ e))

theorem posAfter_append (pc : Nat × Nat) (x y : List UInt8) :
    posAfter pc (x ++ y) = posAfter (posAfter pc x) y := by
  simp [posAfter, List.foldl_append]

theorem posAfter_plain (pc : Nat × Nat) (w : List UInt8) (h : (10 : UInt8) ∉ w) :
    posAfter pc w = (pc.1, pc.2 + w.length) := by
  induction w generalizing pc with
  | nil => simp [posAfter]
  | cons b w ih =>
    have hb : b ≠ 10 := fun e => h (by simp [e])
    have := ih (posStep pc b) (fun e => h (List.mem_cons_of_mem _ e))
    simp only [posAfter, List.foldl_cons] at this ⊢
    rw [this]
    simp only [posStep, hb, if_false, List.length_cons]
    congr 1
    omega

theorem posAfter_newline (pc : Nat × Nat) (pre rest : List UInt8) (h : (10 : UInt8) ∉ pre) :
    posAfter pc (pre ++ 10 :: rest) = posAfter (pc.1 + 1, 0) rest := by
  rw [posAfter_append, posAfter_plain pc pre h]
  simp [posAfter, posStep]

theorem newlineCount_concat (fwd : List UInt8) (b : UInt8) :
    newlineCount (fwd ++ [b]) = newlineCount fwd + (if b = 10 then 1 else 0) := by
  unfold newlineCount
  rw [List.count_append]
  by_cases hb : b = 10
  · subst hb
    simp
  · have : (b == 10) = false := by simpa using hb
    simp [hb, List.count_cons, this]

theorem columnOf_concat (fwd : List UInt8) (b : UInt8) :
    columnOf (fwd ++ [b]) = if b = 10 then 0 else columnOf fwd + 1 := by
  unfold columnOf
  rw [List.reverse_append]
  by_cases hb : b = 10
  · subst hb
    simp [List.takeWhile]
  · have : (b != 10) = true := by simpa using hb
    simp [List.takeWhile, this, hb]

theorem posAfter_tracked (fwd w : List UInt8) :
    posAfter (newlineCount fwd, columnOf fwd) w =
      (newlineCount (fwd ++ w), columnOf (fwd ++ w)) := by
  induction w generalizing fwd with
  | nil => simp [posAfter]
  | cons b w ih =>
    have h1 : posStep (newlineCount fwd, columnOf fwd) b =
        (newlineCount (fwd ++ [b]), columnOf (fwd ++ [b])) := by
      rw [newlineCount_concat, columnOf_concat]
      unfold posStep
      by_cases hb : b = 10
      · simp [hb]
      · simp [hb]
    have h2 := ih (fwd ++ [b])
    simp only [posAfter, List.foldl_cons] at h2 ⊢
    rw [h1, h2]
    simp

theorem callsFrom_tracked (fs : Option (List UInt8)) (k : Nat) (fwd p : List UInt8) :
    callsFrom fs k (newlineCount fwd, columnOf fwd) p = expectedCalls fs k fwd p := by
  induction p generalizing k fwd with
  | nil => cases k <;> rfl
  | cons b p ih =>
    cases k with
    | zero =>
      simp only [callsFrom, expectedCalls]
      by_cases hb : b = 8
      · simp only [hb, if_true]
        rw [ih 4 fwd, Nat.add_comm]
      · simp only [hb, if_false]
        have h1 : posStep (newlineCount fwd, columnOf fwd) b =
            (newlineCount (fwd ++ [b]), columnOf (fwd ++ [b])) := by
          have := posAfter_tracked fwd [b]
          simpa [posAfter] using this
        rw [h1, ih 0 (fwd ++ [b])]
    | succ k =>
      simp only [callsFrom, expectedCalls]
      exact ih k fwd

theorem trackLines_eq (fuel : Nat) (f : SourceMapFilter) (w : List UInt8)
    (h : w.length < fuel) :
    trackLines fuel f w =
      some { f with line := (posAfter (f.line, f.column) w).1,
                    column := (posAfter (f.line, f.column) w).2 } := by
  induction fuel generalizing f w with
  | zero => omega
  | succ fuel ih =>
    unfold trackLines
    cases hi : IndexByte w 10 with
    | none =>
      have hn := indexByte_none w 10 hi
      rw [posAfter_plain _ w hn]
    | some i =>
      obtain ⟨hlt, hdec, hn⟩ := indexByte_some w 10 i hi
      simp only
      rw [ih _ (w.drop (i + 1)) (by simp only [List.length_drop]; omega)]
      have : posAfter (f.line, f.column) w = posAfter (f.line + 1, 0) (w.drop (i + 1)) := by
        conv_lhs => rw [hdec]
        exact posAfter_newline _ _ _ hn
      rw [this]

/-! ## The loop of `Write`, one iteration at a time -/

theorem writeLoop_none (fuel : Nat) (f : SourceMapFilter) (p spare : List UInt8) (n : Nat)
    (hi : IndexByte p 8 = none) :
    writeLoop (fuel + 1) f p spare n =
      .returned (passed f p) (n + (f.Writer f.sunk p).1, (f.Writer f.sunk p).2) := by
  unfold writeLoop
  simp only [hi]
  rw [trackLines_eq _ _ _ (Nat.lt_succ_self _)]
  rfl

theorem writeLoop_some (fuel : Nat) (f : SourceMapFilter) (p spare : List UInt8) (n i : Nat)
    (hi : IndexByte p 8 = some i) :
    writeLoop (fuel + 1) f p spare n =
      if (f.Writer f.sunk (p.take i)).2 ≠ none then
        .returned (passed f (p.take i))
          (n + (f.Writer f.sunk (p.take i)).1, (f.Writer f.sunk (p.take i)).2)
      else if f.MappingCallback then
        if i + 5 ≤ p.length + spare.length then
          if f.fileSet = none then .panicked (passed f (p.take i)) .nilFileSet
          else if i + 5 ≤ p.length then
            writeLoop fuel
              (called (passed f (p.take i))
                (BigEndianUint32 (((p ++ spare).drop (i + 1)).take 4)))
              (p.drop (i + 5)) spare (n + (f.Writer f.sunk (p.take i)).1 + 5)
          else
            .panicked
              (called (passed f (p.take i))
                (BigEndianUint32 (((p ++ spare).drop (i + 1)).take 4)))
              .outOfRange
        else .panicked (passed f (p.take i)) .outOfRange
      else if i + 5 ≤ p.length then
        writeLoop fuel (passed f (p.take i)) (p.drop (i + 5)) spare
          (n + (f.Writer f.sunk (p.take i)).1 + 5)
      else .panicked (passed f (p.take i)) .outOfRange := by
  conv_lhs => unfold writeLoop
  simp only [hi]
  rw [trackLines_eq _ _ _ (Nat.lt_succ_self _)]
  rfl

theorem posAfter_le (pc : Nat × Nat) (w : List UInt8) :
    pc.1 ≤ (posAfter pc w).1 ∧
      (pc.1 < (posAfter pc w).1 ∨ (pc.1 = (posAfter pc w).1 ∧ pc.2 ≤ (posAfter pc w).2)) := by
  induction w generalizing pc with
  | nil => simp [posAfter]
  | cons b w ih =>
    have h := ih (posStep pc b)
    simp only [posAfter, List.foldl_cons] at h ⊢
    unfold posStep at h ⊢
    by_cases hb : b = 10
    · simp only [hb, if_true] at h ⊢
      omega
    · simp only [hb, if_false] at h ⊢
      omega

theorem posLe_refl (f : SourceMapFilter) : PosLe f f := Or.inr ⟨rfl, le_refl _⟩

theorem posLe_trans (f g h : SourceMapFilter) (h1 : PosLe f g) (h2 : PosLe g h) :
    PosLe f h := by
  unfold PosLe at *
  omega

theorem tracked_push (f : SourceMapFilter) (w : List UInt8) (h : Tracked f) :
    (posAfter (f.line, f.column) w).1 = newlineCount ((f.sunk ++ [w]).flatten) ∧
      (posAfter (f.line, f.column) w).2 = columnOf ((f.sunk ++ [w]).flatten) := by
  obtain ⟨h1, h2⟩ := h
  rw [h1, h2, posAfter_tracked]
  simp

theorem forwarded_passed (f : SourceMapFilter) (w : List UInt8) : Forwarded f (passed f w) w :=
  ⟨rfl, rfl, rfl, rfl, rfl, rfl, rfl⟩

theorem forwarded_called (f : SourceMapFilter) (w : List UInt8) (pos : Nat) :
    Forwarded f (called (passed f w) pos) w :=
  ⟨rfl, rfl, rfl, rfl, rfl, rfl, rfl⟩

theorem tableAttached_forwarded (f g : SourceMapFilter) (w : List UInt8)
    (hfw : Forwarded f g w) (h : TableAttached f) : TableAttached g := by
  unfold TableAttached
  rw [hfw.2.1, hfw.2.2.1]
  exact h

/-- With the whole marker inside the slice, the payload that line 315 reads
does not reach into the spare capacity. -/
theorem payload_inside (p spare : List UInt8) (i : Nat) (h : i + 5 ≤ p.length) :
    ((p ++ spare).drop (i + 1)).take 4 = (p.drop (i + 1)).take 4 := by
  rw [List.drop_append_of_le_length (by omega),
    List.take_append_of_le_length (by simp only [List.length_drop]; omega)]

theorem writeLoop_last (fuel : Nat) (f : SourceMapFilter) (p spare : List UInt8) (n : Nat)
    (hi : IndexByte p 8 = none) :
    ∃ g, writeLoop (fuel + 1) f p spare n =
        .returned g (n + (f.Writer f.sunk p).1, (f.Writer f.sunk p).2) ∧
      Forwarded f g p ∧ g.calls = f.calls := by
  rw [writeLoop_none fuel f p spare n hi]
  exact ⟨_, rfl, forwarded_passed f p, rfl⟩

theorem writeLoop_err (fuel : Nat) (f : SourceMapFilter) (p spare : List UInt8) (n i : Nat)
    (hi : IndexByte p 8 = some i) (he : (f.Writer f.sunk (p.take i)).2 ≠ none) :
    ∃ g, writeLoop (fuel + 1) f p spare n =
        .returned g (n + (f.Writer f.sunk (p.take i)).1, (f.Writer f.sunk (p.take i)).2) ∧
      Forwarded f g (p.take i) ∧ g.calls = f.calls := by
  rw [writeLoop_some fuel f p spare n i hi, if_pos he]
  exact ⟨_, rfl, forwarded_passed f _, rfl⟩

/-- The iteration at a complete marker, with a position table attached when a
callback is registered: the loop goes on behind the marker. -/
theorem writeLoop_next (fuel : Nat) (f : SourceMapFilter) (p spare : List UInt8) (n i : Nat)
    (hi : IndexByte p 8 = some i) (he : (f.Writer f.sunk (p.take i)).2 = none)
    (hlong : i + 5 ≤ p.length) (hat : TableAttached f) :
    ∃ g, writeLoop (fuel + 1) f p spare n =
        writeLoop fuel g (p.drop (i + 5)) spare (n + (f.Writer f.sunk (p.take i)).1 + 5) ∧
      Forwarded f g (p.take i) ∧
      g.calls = f.calls ++
        (if f.MappingCallback then
          [{ generatedLine := (posAfter (f.line, f.column) (p.take i)).1 + 1,
             generatedColumn := (posAfter (f.line, f.column) (p.take i)).2,
             fileSet := f.fileSet,
             pos := BigEndianUint32 ((p.drop (i + 1)).take 4) }]
        else []) := by
  rw [writeLoop_some fuel f p spare n i hi, if_neg (by simp [he])]
  by_cases hcb : f.MappingCallback = true
  · rw [if_pos hcb, if_pos (by omega), if_neg (hat hcb), if_pos hlong, if_pos hcb]
    refine ⟨_, rfl, forwarded_called f _ _, ?_⟩
    rw [payload_inside p spare i hlong]
    rfl
  · rw [if_neg hcb, if_pos hlong, if_neg hcb]
    exact ⟨_, rfl, forwarded_passed f _, by simp [passed]⟩

/-- The iteration at a marker, whatever the slice and the filter are: the
loop goes on behind a complete marker, or the call panics, out of range at a
truncated marker or in the lookup on the nil table. -/
theorem writeLoop_marker (fuel : Nat) (f : SourceMapFilter) (p spare : List UInt8) (n i : Nat)
    (hi : IndexByte p 8 = some i) (he : (f.Writer f.sunk (p.take i)).2 = none) :
    ∃ g, Forwarded f g (p.take i) ∧ (f.MappingCallback = false → g.calls = f.calls) ∧
      ((i + 5 ≤ p.length ∧ TableAttached f ∧
          writeLoop (fuel + 1) f p spare n =
            writeLoop fuel g (p.drop (i + 5)) spare
              (n + (f.Writer f.sunk (p.take i)).1 + 5)) ∨
        (¬ i + 5 ≤ p.length ∧ writeLoop (fuel + 1) f p spare n = .panicked g .outOfRange) ∨
        (f.MappingCallback = true ∧ f.fileSet = none ∧
          writeLoop (fuel + 1) f p spare n = .panicked g .nilFileSet)) := by
  rw [writeLoop_some fuel f p spare n i hi, if_neg (by simp [he])]
  by_cases hcb : f.MappingCallback = true
  · rw [if_pos hcb]
    have hoff : f.MappingCallback = false → ∀ g : SourceMapFilter, g.calls = f.calls := by
      intro h
      rw [hcb] at h
      exact absurd h (by simp)
    by_cases hcap : i + 5 ≤ p.length + spare.length
    · rw [if_pos hcap]
      by_cases hnil : f.fileSet = none
      · rw [if_pos hnil]
        exact ⟨_, forwarded_passed f _, fun h => hoff h _, Or.inr (Or.inr ⟨hcb, hnil, rfl⟩)⟩
      · rw [if_neg hnil]
        by_cases hlong : i + 5 ≤ p.length
        · rw [if_pos hlong]
          exact ⟨_, forwarded_called f _ _, fun h => hoff h _,
            Or.inl ⟨hlong, fun _ => hnil, rfl⟩⟩
        · rw [if_neg hlong]
          exact ⟨_, forwarded_called f _ _, fun h => hoff h _, Or.inr (Or.inl ⟨hlong, rfl⟩)⟩
    · rw [if_neg hcap]
      exact ⟨_, forwarded_passed f _, fun h => hoff h _,
        Or.inr (Or.inl ⟨by omega, rfl⟩)⟩
  · rw [if_neg hcb]
    by_cases hlong : i + 5 ≤ p.length
    · rw [if_pos hlong]
      exact ⟨_, forwarded_passed f _, fun _ => rfl,
        Or.inl ⟨hlong, fun h => absurd h hcb, rfl⟩⟩
    · rw [if_neg hlong]
      exact ⟨_, forwarded_passed f _, fun _ => rfl, Or.inr (Or.inl ⟨hlong, rfl⟩)⟩

/-! ## `Write` on a slice with complete markers and an accepting sink -/

theorem writeLoop_complete (fuel : Nat) (f : SourceMapFilter) (p spare : List UInt8) (n : Nat)
    (hacc : Accepts f.Writer) (hc : markersComplete 0 p = true) (hat : TableAttached f)
    (hf : p.length < fuel) :
    ∃ g, writeLoop fuel f p spare n = .returned g (n + p.length, none) ∧
      g.Writer = f.Writer ∧ g.MappingCallback = f.MappingCallback ∧
      g.fileSet = f.fileSet ∧ g.trace = f.trace ∧
      g.sunk.flatten = f.sunk.flatten ++ stripMarkers 0 p ∧
      (g.line, g.column) = posAfter (f.line, f.column) (stripMarkers 0 p) ∧
      g.calls = f.calls ++
        (if f.MappingCallback then callsFrom f.fileSet 0 (f.line, f.column) p else []) := by
  induction fuel generalizing f p n with
  | zero => omega
  | succ fuel ih =>
    cases hi : IndexByte p 8 with
    | none =>
      have hn := indexByte_none p 8 hi
      obtain ⟨g, hg, hfw, hcalls⟩ := writeLoop_last fuel f p spare n hi
      rw [hacc f.sunk p] at hg
      obtain ⟨h1, h2, h3, h4, h5, h6, h7⟩ := hfw
      refine ⟨g, hg, h1, h2, h3, h4, ?_, ?_, ?_⟩
      · simp [h5, stripMarkers_plain p hn]
      · rw [stripMarkers_plain p hn, h6, h7]
      · simp [hcalls, callsFrom_plain _ _ p hn]
    | some i =>
      obtain ⟨hlt, hdec, hn⟩ := indexByte_some p 8 i hi
      have hc4 : markersComplete 4 (p.drop (i + 1)) = true := by
        rw [← markersComplete_lead (p.take i) _ hn, ← hdec]
        exact hc
      obtain ⟨h4len, hc0⟩ := markersComplete_skip 4 _ hc4
      have hdrop : (p.drop (i + 1)).drop 4 = p.drop (i + 5) := by
        rw [List.drop_drop]
      have hlen5 : i + 5 ≤ p.length := by
        simp only [List.length_drop] at h4len
        omega
      have htake : (p.take i).length = i := by
        rw [List.length_take]
        omega
      obtain ⟨g, hg, hfw, hcalls⟩ := writeLoop_next fuel f p spare n i hi
        (by rw [hacc f.sunk (p.take i)]) hlen5 hat
      have hg1 : writeLoop (fuel + 1) f p spare n =
          writeLoop fuel g (p.drop (i + 5)) spare (n + (p.take i).length + 5) := by
        rw [hg, hacc f.sunk (p.take i)]
      have hatg := tableAttached_forwarded f g _ hfw hat
      obtain ⟨h1, h2, h3, h4, h5, h6, h7⟩ := hfw
      rw [hdrop] at hc0
      obtain ⟨g2, hg2, k1, k2, k3, k4, k5, k6, k7⟩ := ih g (p.drop (i + 5))
        (n + (p.take i).length + 5) (by rw [h1]; exact hacc) hc0 hatg
        (by simp only [List.length_drop]; omega)
      have hs : stripMarkers 0 p = p.take i ++ stripMarkers 0 (p.drop (i + 5)) := by
        conv_lhs => rw [hdec]
        rw [stripMarkers_lead _ _ hn, stripMarkers_skip 4, hdrop]
      refine ⟨g2, ?_, k1.trans h1, k2.trans h2, k3.trans h3, k4.trans h4, ?_, ?_, ?_⟩
      · rw [hg1, hg2]
        congr 2
        simp only [htake, List.length_drop]
        omega
      · rw [k5, h5, hs]
        simp
      · rw [k6, h6, h7, hs, posAfter_append]
      · rw [k7, hcalls, h2, h3, h6, h7]
        by_cases hcb : f.MappingCallback = true
        · simp only [hcb, if_true]
          conv_rhs => rw [hdec]
          rw [callsFrom_lead _ _ _ _ hn, callsFrom_skip _ 4, hdrop]
          simp
        · simp [hcb]

theorem write_complete (f : SourceMapFilter) (p spare : List UInt8)
    (hacc : Accepts f.Writer) (hc : markersComplete 0 p = true) (hat : TableAttached f) :
    ∃ g, Write f p spare = .returned g (p.length, none) ∧
      g.Writer = f.Writer ∧ g.MappingCallback = f.MappingCallback ∧
      g.fileSet = f.fileSet ∧ g.trace = f.trace ++ [p] ∧
      g.sunk.flatten = f.sunk.flatten ++ stripMarkers 0 p ∧
      (g.line, g.column) = posAfter (f.line, f.column) (stripMarkers 0 p) ∧
      g.calls = f.calls ++
        (if f.MappingCallback then callsFrom f.fileSet 0 (f.line, f.column) p else []) := by
  unfold Write
  obtain ⟨g, hg, h⟩ := writeLoop_complete (p.length + 1) { f with trace := f.trace ++ [p] } p
    spare 0 hacc hc hat (Nat.lt_succ_self _)
  refine ⟨g, ?_, h⟩
  rw [hg]
  simp

theorem indexByte_absent (p : List UInt8) (c : UInt8) (h : c ∉ p) : IndexByte p c = none := by
  cases hi : IndexByte p c with
  | none => rfl
  | some i =>
    exfalso
    obtain ⟨_, hdec, _⟩ := indexByte_some p c i hi
    apply h
    rw [hdec]
    simp

/-- The call returns on every slice the filter gets through: one with
complete markers, and without any marker when a callback is registered while
no position table is attached. -/
theorem write_safe (f : SourceMapFilter) (p spare : List UInt8)
    (hacc : Accepts f.Writer) (hs : MarkerSafe f p) :
    ∃ g, Write f p spare = .returned g (p.length, none) ∧
      g.Writer = f.Writer ∧ g.MappingCallback = f.MappingCallback ∧
      g.fileSet = f.fileSet := by
  by_cases h8 : (8 : UInt8) ∈ p
  · obtain ⟨g, hg, h1, h2, h3, _⟩ := write_complete f p spare hacc hs.1
      (fun hcb hnil => hs.2 hcb hnil h8)
    exact ⟨g, hg, h1, h2, h3⟩
  · unfold Write
    obtain ⟨g, hg, hfw, _⟩ := writeLoop_last p.length { f with trace := f.trace ++ [p] } p
      spare 0 (indexByte_absent p 8 h8)
    rw [hacc f.sunk p] at hg
    refine ⟨g, ?_, hfw.1, hfw.2.1, hfw.2.2.1⟩
    rw [hg]
    simp

theorem markerSafe_of_complete (f : SourceMapFilter) (b : List UInt8)
    (hc : markersComplete 0 b = true) (hat : TableAttached f) : MarkerSafe f b :=
  ⟨hc, fun hcb hnil => absurd hnil (hat hcb)⟩

theorem markerSafe_congr (f g : SourceMapFilter) (b : List UInt8)
    (h1 : g.MappingCallback = f.MappingCallback) (h2 : g.fileSet = f.fileSet)
    (h : MarkerSafe f b) : MarkerSafe g b := by
  unfold MarkerSafe at *
  rw [h1, h2]
  exact h

/-! ## `Write` on any slice and any sink -/

theorem tracked_forwarded (f g : SourceMapFilter) (w : List UInt8) (hfw : Forwarded f g w)
    (ht : Tracked f) : Tracked g := by
  obtain ⟨_, _, _, _, h5, h6, h7⟩ := hfw
  obtain ⟨t1, t2⟩ := tracked_push f w ht
  unfold Tracked
  rw [h5, h6, h7]
  exact ⟨t1, t2⟩

theorem posLe_forwarded (f g : SourceMapFilter) (w : List UInt8) (hfw : Forwarded f g w) :
    f.line ≤ g.line ∧ PosLe f g := by
  obtain ⟨_, _, _, _, _, h6, h7⟩ := hfw
  have h := posAfter_le (f.line, f.column) w
  unfold PosLe
  rw [h6, h7]
  exact h

/-- What holds at the end of the loop of `Write` whatever the slice and the
sink are. -/
theorem writeLoop_state (fuel : Nat) (f : SourceMapFilter) (p spare : List UInt8) (n : Nat) :
    (writeLoop fuel f p spare n).state.trace = f.trace ∧
      (writeLoop fuel f p spare n).state.Writer = f.Writer ∧
      (writeLoop fuel f p spare n).state.MappingCallback = f.MappingCallback ∧
      (writeLoop fuel f p spare n).state.fileSet = f.fileSet ∧
      f.line ≤ (writeLoop fuel f p spare n).state.line ∧
      PosLe f (writeLoop fuel f p spare n).state ∧
      (Tracked f → Tracked (writeLoop fuel f p spare n).state) ∧
      (p.length < fuel → ∀ g, writeLoop fuel f p spare n ≠ .unfinished g) ∧
      (Accepts f.Writer → ∀ g m e, writeLoop fuel f p spare n ≠ .returned g (m, some e)) := by
  induction fuel generalizing f p n with
  | zero =>
    refine ⟨rfl, rfl, rfl, rfl, le_refl _, posLe_refl f, fun h => h, fun h => by omega, ?_⟩
    intro _ g m e h
    simp [writeLoop] at h
  | succ fuel ih =>
    cases hi : IndexByte p 8 with
    | none =>
      obtain ⟨g, hg, hfw, _⟩ := writeLoop_last fuel f p spare n hi
      rw [hg]
      obtain ⟨hle, hpl⟩ := posLe_forwarded f g p hfw
      refine ⟨hfw.2.2.2.1, hfw.1, hfw.2.1, hfw.2.2.1, hle, hpl,
        tracked_forwarded f g p hfw, fun _ g2 h => by simp at h, ?_⟩
      intro hacc g2 m e h
      rw [hacc f.sunk p] at h
      simp at h
    | some i =>
      obtain ⟨hlt, _, _⟩ := indexByte_some p 8 i hi
      by_cases he : (f.Writer f.sunk (p.take i)).2 = none
      · obtain ⟨g, hfw, _, hcase⟩ := writeLoop_marker fuel f p spare n i hi he
        obtain ⟨hle, hpl⟩ := posLe_forwarded f g (p.take i) hfw
        have hstop : ∀ why : Panic,
            writeLoop (fuel + 1) f p spare n = .panicked g why →
            (writeLoop (fuel + 1) f p spare n).state.trace = f.trace ∧
            (writeLoop (fuel + 1) f p spare n).state.Writer = f.Writer ∧
            (writeLoop (fuel + 1) f p spare n).state.MappingCallback = f.MappingCallback ∧
            (writeLoop (fuel + 1) f p spare n).state.fileSet = f.fileSet ∧
            f.line ≤ (writeLoop (fuel + 1) f p spare n).state.line ∧
            PosLe f (writeLoop (fuel + 1) f p spare n).state ∧
            (Tracked f → Tracked (writeLoop (fuel + 1) f p spare n).state) ∧
            (p.length < fuel + 1 → ∀ g, writeLoop (fuel + 1) f p spare n ≠ .unfinished g) ∧
            (Accepts f.Writer →
              ∀ g m e, writeLoop (fuel + 1) f p spare n ≠ .returned g (m, some e)) := by
          intro why hg
          rw [hg]
          exact ⟨hfw.2.2.2.1, hfw.1, hfw.2.1, hfw.2.2.1, hle, hpl,
            tracked_forwarded f g _ hfw, fun _ g2 h => by simp at h,
            fun _ g2 m e h => by simp at h⟩
        rcases hcase with ⟨hlong, _, hg⟩ | ⟨_, hg⟩ | ⟨_, _, hg⟩
        · rw [hg]
          obtain ⟨k1, k2, k3, k4, k5, k6, k7, k8, k9⟩ := ih g (p.drop (i + 5))
            (n + (f.Writer f.sunk (p.take i)).1 + 5)
          refine ⟨k1.trans hfw.2.2.2.1, k2.trans hfw.1, k3.trans hfw.2.1, k4.trans hfw.2.2.1,
            le_trans hle k5, posLe_trans _ _ _ hpl k6,
            fun ht => k7 (tracked_forwarded f g _ hfw ht), ?_, ?_⟩
          · intro hfuel
            exact k8 (by simp only [List.length_drop]; omega)
          · intro hacc
            exact k9 (by rw [hfw.1]; exact hacc)
        · exact hstop _ hg
        · exact hstop _ hg
      · obtain ⟨g, hg, hfw, _⟩ := writeLoop_err fuel f p spare n i hi he
        rw [hg]
        obtain ⟨hle, hpl⟩ := posLe_forwarded f g (p.take i) hfw
        refine ⟨hfw.2.2.2.1, hfw.1, hfw.2.1, hfw.2.2.1, hle, hpl,
          tracked_forwarded f g _ hfw, fun _ g2 h => by simp at h, ?_⟩
        intro hacc g2 m e h
        rw [hacc f.sunk (p.take i)] at he
        exact he rfl

/-- What holds at the end of `Write` whatever the slice and the sink are. -/
theorem write_state (f : SourceMapFilter) (p spare : List UInt8) :
    (Write f p spare).state.trace = f.trace ++ [p] ∧
      (Write f p spare).state.Writer = f.Writer ∧
      (Write f p spare).state.MappingCallback = f.MappingCallback ∧
      (Write f p spare).state.fileSet = f.fileSet ∧
      f.line ≤ (Write f p spare).state.line ∧
      PosLe f (Write f p spare).state ∧
      (Tracked f → Tracked (Write f p spare).state) ∧
      (∀ g, Write f p spare ≠ .unfinished g) ∧
      (Accepts f.Writer → ∀ g m e, Write f p spare ≠ .returned g (m, some e)) := by
  unfold Write
  obtain ⟨k1, k2, k3, k4, k5, k6, k7, k8, k9⟩ :=
    writeLoop_state (p.length + 1) { f with trace := f.trace ++ [p] } p spare 0
  exact ⟨k1, k2, k3, k4, k5, k6, k7, k8 (Nat.lt_succ_self _), k9⟩

theorem writeLoop_calls_off (fuel : Nat) (f : SourceMapFilter) (p spare : List UInt8) (n : Nat)
    (hcb : f.MappingCallback = false) :
    (writeLoop fuel f p spare n).state.calls = f.calls := by
  induction fuel generalizing f p n with
  | zero => rfl
  | succ fuel ih =>
    cases hi : IndexByte p 8 with
    | none =>
      obtain ⟨g, hg, _, hcalls⟩ := writeLoop_last fuel f p spare n hi
      rw [hg]
      exact hcalls
    | some i =>
      by_cases he : (f.Writer f.sunk (p.take i)).2 = none
      · obtain ⟨g, hfw, hcalls, hcase⟩ := writeLoop_marker fuel f p spare n i hi he
        rcases hcase with ⟨_, _, hg⟩ | ⟨_, hg⟩ | ⟨_, _, hg⟩
        · rw [hg, ih g _ _ (by rw [hfw.2.1]; exact hcb)]
          exact hcalls hcb
        · rw [hg]
          exact hcalls hcb
        · rw [hg]
          exact hcalls hcb
      · obtain ⟨g, hg, _, hcalls⟩ := writeLoop_err fuel f p spare n i hi he
        rw [hg]
        exact hcalls

theorem acceptAll_accepts : Accepts acceptAll := fun _ _ => rfl

theorem stripMarkers_length (k : Nat) (x : List UInt8) :
    (stripMarkers k x).length ≤ x.length := by
  induction x generalizing k with
  | nil => simp [stripMarkers]
  | cons b x ih =>
    cases k with
    | zero =>
      simp only [stripMarkers]
      split
      · exact le_trans (ih 4) (by simp)
      · simp only [List.length_cons]
        exact Nat.succ_le_succ (ih 0)
    | succ k =>
      simp only [stripMarkers]
      exact le_trans (ih k) (by simp)

/-! ## `Write` on a slice with a truncated marker -/

theorem markersComplete_drop (k : Nat) (x : List UInt8) (h : k ≤ x.length) :
    markersComplete k x = markersComplete 0 (x.drop k) := by
  induction k generalizing x with
  | zero => simp
  | succ k ih =>
    cases x with
    | nil => simp at h
    | cons b rest =>
      simp only [markersComplete, List.drop_succ_cons]
      exact ih rest (by simpa using h)

/-- Behind a sentinel with its four payload bytes, the rest of the slice has
complete markers exactly if the slice has. -/
theorem markersComplete_rest (p : List UInt8) (i : Nat) (hi : IndexByte p 8 = some i)
    (hlong : i + 5 ≤ p.length) :
    markersComplete 0 (p.drop (i + 5)) = markersComplete 0 p := by
  obtain ⟨hlt, hdec, hn⟩ := indexByte_some p 8 i hi
  have h4 : 4 ≤ (p.drop (i + 1)).length := by
    simp only [List.length_drop]
    omega
  conv_rhs => rw [hdec]
  rw [markersComplete_lead _ _ hn, markersComplete_drop 4 _ h4, List.drop_drop]

/-- A sentinel with fewer than four bytes behind it is a truncated marker. -/
theorem markersComplete_short (p : List UInt8) (i : Nat) (hi : IndexByte p 8 = some i)
    (hshort : ¬ i + 5 ≤ p.length) : markersComplete 0 p = false := by
  obtain ⟨hlt, hdec, hn⟩ := indexByte_some p 8 i hi
  cases hc : markersComplete 0 p with
  | false => rfl
  | true =>
    exfalso
    rw [hdec, markersComplete_lead _ _ hn] at hc
    obtain ⟨h4, _⟩ := markersComplete_skip 4 _ hc
    simp only [List.length_drop] at h4
    omega

/-- Over an accepting sink a slice with a truncated marker makes the call
panic; the panic is the slice expression out of range when a position table
is attached or no callback is registered. -/
theorem writeLoop_truncated (fuel : Nat) (f : SourceMapFilter) (p spare : List UInt8) (n : Nat)
    (hacc : Accepts f.Writer) (hc : markersComplete 0 p = false) (hf : p.length < fuel) :
    ∃ g why, writeLoop fuel f p spare n = .panicked g why ∧
      (TableAttached f → why = .outOfRange) := by
  induction fuel generalizing f p n with
  | zero => omega
  | succ fuel ih =>
    cases hi : IndexByte p 8 with
    | none =>
      have := markersComplete_plain p (indexByte_none p 8 hi)
      rw [this] at hc
      exact absurd hc (by simp)
    | some i =>
      obtain ⟨hlt, _, _⟩ := indexByte_some p 8 i hi
      have he : (f.Writer f.sunk (p.take i)).2 = none := by rw [hacc f.sunk (p.take i)]
      obtain ⟨g, hfw, _, hcase⟩ := writeLoop_marker fuel f p spare n i hi he
      rcases hcase with ⟨hlong, hat, hg⟩ | ⟨_, hg⟩ | ⟨hcb, hnil, hg⟩
      · have hrest : markersComplete 0 (p.drop (i + 5)) = false := by
          rw [markersComplete_rest p i hi hlong]
          exact hc
        obtain ⟨g2, why, hg2, hwhy⟩ := ih g (p.drop (i + 5))
          (n + (f.Writer f.sunk (p.take i)).1 + 5)
          (by rw [hfw.1]; exact hacc) hrest (by simp only [List.length_drop]; omega)
        exact ⟨g2, why, by rw [hg, hg2],
          fun h => hwhy (tableAttached_forwarded f g _ hfw h)⟩
      · exact ⟨g, _, hg, fun _ => rfl⟩
      · exact ⟨g, _, hg, fun h => absurd hnil (h hcb)⟩

/-- A slice with complete markers never makes the call slice out of range,
whatever the sink and the filter are. -/
theorem writeLoop_in_range (fuel : Nat) (f : SourceMapFilter) (p spare : List UInt8) (n : Nat)
    (hc : markersComplete 0 p = true) :
    ∀ g, writeLoop fuel f p spare n ≠ .panicked g .outOfRange := by
  induction fuel generalizing f p n with
  | zero =>
    intro g h
    simp [writeLoop] at h
  | succ fuel ih =>
    intro g2 h
    cases hi : IndexByte p 8 with
    | none =>
      obtain ⟨g, hg, _, _⟩ := writeLoop_last fuel f p spare n hi
      rw [hg] at h
      simp at h
    | some i =>
      by_cases he : (f.Writer f.sunk (p.take i)).2 = none
      · obtain ⟨g, _, _, hcase⟩ := writeLoop_marker fuel f p spare n i hi he
        rcases hcase with ⟨hlong, _, hg⟩ | ⟨hshort, _⟩ | ⟨_, _, hg⟩
        · rw [hg] at h
          exact ih g (p.drop (i + 5)) _
            (by rw [markersComplete_rest p i hi hlong]; exact hc) g2 h
        · rw [markersComplete_short p i hi hshort] at hc
          exact absurd hc (by simp)
        · rw [hg] at h
          simp at h
      · obtain ⟨g, hg, _, _⟩ := writeLoop_err fuel f p spare n i hi he
        rw [hg] at h
        simp at h

/-! ## The claims on `SourceMapFilter.Write` -/

/-- C11, as stated, fails: the markers of `markedSlice` are complete and the
sink accepts every write, but on a fresh filter with a callback registered no
position table is attached, the lookup of line 315 panics at the marker, and
only `ab\ncd` has reached the sink, not the slice with its marker removed. -/
theorem write_forwards_stripped_counterexample :
    Accepts freshFilter.Writer ∧ markersComplete 0 markedSlice = true ∧
      (Write freshFilter markedSlice []).failure = some Panic.nilFileSet ∧
      (Write freshFilter markedSlice []).state.sunk.flatten = goBytes "ab\ncd" ∧
      stripMarkers 0 markedSlice = goBytes "ab\ncdef" :=
  ⟨acceptAll_accepts, by decide, by decide, by decide, by decide⟩

/-- C11, amended: for a slice in which every sentinel that starts a marker is
followed by four payload bytes, a sink that accepts every write and a filter
that has a position table attached whenever a callback is registered, `Write`
returns and has handed to the sink, in order, exactly the bytes of the slice
with every 5-byte marker removed; the counters count exactly those bytes.
Payload bytes are skipped whatever their value. -/
theorem write_forwards_stripped (f : SourceMapFilter) (p spare : List UInt8)
    (hacc : Accepts f.Writer) (hc : markersComplete 0 p = true)
    (hat : f.MappingCallback = true → f.fileSet ≠ none) :
    ∃ g n, Write f p spare = .returned g (n, none) ∧
      g.sunk.flatten = f.sunk.flatten ++ stripMarkers 0 p ∧
      (g.line, g.column) = posAfter (f.line, f.column) (stripMarkers 0 p) := by
  obtain ⟨g, hg, _, _, _, _, h5, h6, _⟩ := write_complete f p spare hacc hc hat
  exact ⟨g, p.length, hg, h5, h6⟩

theorem write_forwards_stripped_witness :
    markersComplete 0 trickySlice = true ∧ stripMarkers 0 trickySlice = [97, 98] ∧
      (∃ g n, Write plainFilter trickySlice [] = .returned g (n, none) ∧
        g.sunk.flatten = plainFilter.sunk.flatten ++ stripMarkers 0 trickySlice ∧
        (g.line, g.column) =
          posAfter (plainFilter.line, plainFilter.column) (stripMarkers 0 trickySlice)) ∧
      ∃ g n, Write tableFilter markedSlice [] = .returned g (n, none) ∧
        g.sunk.flatten = tableFilter.sunk.flatten ++ stripMarkers 0 markedSlice ∧
        (g.line, g.column) =
          posAfter (tableFilter.line, tableFilter.column) (stripMarkers 0 markedSlice) :=
  ⟨by decide, by decide,
    write_forwards_stripped plainFilter trickySlice [] acceptAll_accepts (by decide)
      (fun h => absurd h (by decide)),
    write_forwards_stripped tableFilter markedSlice [] acceptAll_accepts (by decide)
      (fun _ => by decide)⟩

/-- C12, as stated, fails: without a callback the marker of `markedSlice` is
removed all the same, so the bytes that reach the sink are not the slice. -/
theorem write_no_callback_counterexample :
    plainFilter.MappingCallback = false ∧
      (Write plainFilter markedSlice []).state.sunk.flatten = [97, 98, 10, 99, 100, 101, 102] ∧
      (Write plainFilter markedSlice []).state.sunk.flatten ≠ markedSlice := by
  decide

/-- C12, amended: when no callback is registered only the invocation of the
callback is skipped.  No callback is invoked; a slice without the byte 0x08
goes to the sink unmodified; and with a sink that accepts every write a slice
with complete markers goes to the sink with every marker removed. -/
theorem write_no_callback (f : SourceMapFilter) (p spare : List UInt8)
    (hcb : f.MappingCallback = false) :
    (Write f p spare).state.calls = f.calls ∧
      ((8 : UInt8) ∉ p → (Write f p spare).state.sunk = f.sunk ++ [p]) ∧
      (Accepts f.Writer → markersComplete 0 p = true →
        (Write f p spare).state.sunk.flatten = f.sunk.flatten ++ stripMarkers 0 p) := by
  refine ⟨?_, ?_, ?_⟩
  · unfold Write
    exact writeLoop_calls_off _ _ _ _ _ hcb
  · intro h8
    unfold Write
    obtain ⟨g, hg, hfw, _⟩ := writeLoop_last p.length { f with trace := f.trace ++ [p] } p
      spare 0 (indexByte_absent p 8 h8)
    rw [hg]
    exact hfw.2.2.2.2.1
  · intro hacc hc
    obtain ⟨g, hg, _, _, _, _, h5, _, _⟩ := write_complete f p spare hacc hc
      (fun h => by rw [hcb] at h; exact absurd h (by simp))
    rw [hg]
    exact h5

theorem write_no_callback_witness :
    (Write plainFilter markedSlice []).state.calls = plainFilter.calls ∧
      ((8 : UInt8) ∉ markedSlice →
        (Write plainFilter markedSlice []).state.sunk = plainFilter.sunk ++ [markedSlice]) ∧
      (Accepts plainFilter.Writer → markersComplete 0 markedSlice = true →
        (Write plainFilter markedSlice []).state.sunk.flatten =
          plainFilter.sunk.flatten ++ stripMarkers 0 markedSlice) :=
  write_no_callback plainFilter markedSlice [] rfl

/-- C13, as stated, fails, and so does its witness: a fresh writer has no
position table attached, so writing `ab\ncd`, a marker, `ef` to it panics in
the lookup of line 315; no callback is invoked and `ef` never reaches the
sink. -/
theorem write_callbacks_counterexample :
    freshFilter.MappingCallback = true ∧ freshFilter.fileSet = none ∧
      Accepts freshFilter.Writer ∧
      markedSlice = goBytes "ab\ncd" ++ [8, 0, 0, 0, 7] ++ goBytes "ef" ∧
      (Write freshFilter markedSlice []).failure = some Panic.nilFileSet ∧
      (Write freshFilter markedSlice []).state.calls = [] ∧
      (Write freshFilter markedSlice []).state.sunk.flatten = goBytes "ab\ncd" :=
  ⟨rfl, rfl, acceptAll_accepts, by decide, by decide, by decide, by decide⟩

/-- C13, amended: with a callback registered, a position table attached, a
sink that accepts every write and complete markers, `Write` returns and has
invoked the callback once per marker, in stream order, with line `1 +` the
number of newlines forwarded since construction, column the number of bytes
forwarded since the last newline, and the lookup of the payload read as a
big-endian 32-bit number in the attached table. -/
theorem write_callbacks (f : SourceMapFilter) (p spare : List UInt8)
    (hcb : f.MappingCallback = true) (hfs : f.fileSet ≠ none) (hacc : Accepts f.Writer)
    (hc : markersComplete 0 p = true) (ht : Tracked f) :
    ∃ g n, Write f p spare = .returned g (n, none) ∧
      g.calls = f.calls ++ expectedCalls f.fileSet 0 f.sunk.flatten p ∧
      g.sunk.flatten = f.sunk.flatten ++ stripMarkers 0 p ∧
      Tracked g := by
  obtain ⟨g, hg, _, _, _, _, h5, _, h7⟩ := write_complete f p spare hacc hc (fun _ => hfs)
  refine ⟨g, p.length, hg, ?_, h5, ?_⟩
  · rw [h7, if_pos hcb, ht.1, ht.2, callsFrom_tracked]
  · have := (write_state f p spare).2.2.2.2.2.2.1 ht
    rw [hg] at this
    exact this

theorem write_callbacks_witness :
    Tracked tableFilter ∧
      expectedCalls (some [1]) 0 [] markedSlice =
        [{ generatedLine := 2, generatedColumn := 2, fileSet := some [1], pos := 7 }] ∧
      stripMarkers 0 markedSlice = goBytes "ab\ncdef" ∧
      ∃ g n, Write tableFilter markedSlice [] = .returned g (n, none) ∧
        g.calls = tableFilter.calls ++
          expectedCalls tableFilter.fileSet 0 tableFilter.sunk.flatten markedSlice ∧
        g.sunk.flatten = tableFilter.sunk.flatten ++ stripMarkers 0 markedSlice ∧
        Tracked g :=
  ⟨⟨rfl, rfl⟩, by decide, by decide,
    write_callbacks tableFilter markedSlice [] rfl (by decide) acceptAll_accepts (by decide)
      ⟨rfl, rfl⟩⟩

/-- C20, as stated, fails: the markers of `markedSlice` are complete and the
sink consumes every write without error, but on a fresh filter with a
callback registered `Write` does not return: it panics in the lookup on the
nil position table. -/
theorem write_returns_len_counterexample :
    Accepts freshFilter.Writer ∧ markersComplete 0 markedSlice = true ∧
      markedSlice.length = 12 ∧
      (Write freshFilter markedSlice []).failure = some Panic.nilFileSet ∧
      ((Write freshFilter markedSlice []).state.sunk.map List.length).sum = 5 :=
  ⟨acceptAll_accepts, by decide, by decide, by decide, by decide⟩

/-- C20, amended: for a slice with complete markers, a sink that consumes
every write without error and a filter that has a position table attached
whenever a callback is registered, `Write` returns `n = len(p)` and a nil
error: the five bytes of each marker are counted although they never reach
the sink. -/
theorem write_returns_len (f : SourceMapFilter) (p spare : List UInt8)
    (hacc : Accepts f.Writer) (hc : markersComplete 0 p = true)
    (hat : f.MappingCallback = true → f.fileSet ≠ none) :
    ∃ g, Write f p spare = .returned g (p.length, none) ∧
      (g.sunk.map List.length).sum + (p.length - (stripMarkers 0 p).length) =
        (f.sunk.map List.length).sum + p.length := by
  obtain ⟨g, hg, _, _, _, _, h5, _, _⟩ := write_complete f p spare hacc hc hat
  refine ⟨g, hg, ?_⟩
  have hlen := congrArg List.length h5
  simp only [List.length_flatten, List.length_append] at hlen
  have hle := stripMarkers_length 0 p
  omega

theorem write_returns_len_witness :
    markedSlice.length = 12 ∧ (stripMarkers 0 markedSlice).length = 7 ∧
      ∃ g, Write tableFilter markedSlice [] = .returned g (markedSlice.length, none) ∧
        (g.sunk.map List.length).sum +
            (markedSlice.length - (stripMarkers 0 markedSlice).length) =
          (tableFilter.sunk.map List.length).sum + markedSlice.length :=
  ⟨by decide, by decide,
    write_returns_len tableFilter markedSlice [] acceptAll_accepts (by decide)
      (fun _ => by decide)⟩

/-! ## The claim on slices out of range -/

/-- C21, as stated, fails: on a fresh filter with a callback registered the
call does not complete although every marker of `markedSlice` is complete (it
panics in the lookup on the nil position table); and on `twoMarkers`, whose
second marker is truncated, it fails in that lookup at the first marker and
never slices out of range. -/
theorem write_out_of_range_counterexample :
    Accepts freshFilter.Writer ∧
      markersComplete 0 markedSlice = true ∧
      (Write freshFilter markedSlice []).failure = some Panic.nilFileSet ∧
      markersComplete 0 twoMarkers = false ∧
      (Write freshFilter twoMarkers []).failure = some Panic.nilFileSet ∧
      (Write freshFilter twoMarkers []).failure ≠ some Panic.outOfRange :=
  ⟨acceptAll_accepts, by decide, by decide, by decide, by decide, by decide⟩

/-- C21, amended: with a sink that accepts every write and a position table
attached whenever a callback is registered, `Write` slices out of range
exactly when a marker is truncated, and it returns without error when every
sentinel that starts a marker has four bytes behind it in the same slice.
Without the proviso on the table two parts still hold: a slice with complete
markers never makes the call slice out of range, and a slice with a truncated
marker makes it panic, whether or not a callback is registered and whatever
lies behind the end of the slice. -/
theorem write_out_of_range_iff_truncated (f : SourceMapFilter) (p spare : List UInt8)
    (hacc : Accepts f.Writer) :
    (markersComplete 0 p = true →
        (∀ g, Write f p spare ≠ .panicked g .outOfRange) ∧
        ((f.MappingCallback = true → f.fileSet ≠ none) →
          ∃ g n, Write f p spare = .returned g (n, none))) ∧
      (markersComplete 0 p = false → ∃ g why, Write f p spare = .panicked g why) ∧
      ((f.MappingCallback = true → f.fileSet ≠ none) →
        ((∃ g, Write f p spare = .panicked g .outOfRange) ↔ markersComplete 0 p = false)) := by
  have h1 : markersComplete 0 p = true → ∀ g, Write f p spare ≠ .panicked g .outOfRange := by
    intro hc
    unfold Write
    exact writeLoop_in_range _ _ p spare 0 hc
  have h2 : markersComplete 0 p = false →
      ∃ g why, Write f p spare = .panicked g why ∧ (TableAttached f → why = .outOfRange) := by
    intro hc
    unfold Write
    exact writeLoop_truncated (p.length + 1) { f with trace := f.trace ++ [p] } p spare 0 hacc hc
      (Nat.lt_succ_self _)
  refine ⟨fun hc => ⟨h1 hc, fun hat => ?_⟩, fun hc => ?_, fun hat => ⟨?_, fun hc => ?_⟩⟩
  · obtain ⟨g, hg, _⟩ := write_complete f p spare hacc hc hat
    exact ⟨g, p.length, hg⟩
  · obtain ⟨g, why, hg, _⟩ := h2 hc
    exact ⟨g, why, hg⟩
  · rintro ⟨g, hg⟩
    cases hc : markersComplete 0 p with
    | false => rfl
    | true => exact absurd hg (h1 hc g)
  · obtain ⟨g, why, hg, hwhy⟩ := h2 hc
    rw [hwhy hat] at hg
    exact ⟨g, hg⟩

theorem write_out_of_range_iff_truncated_witness :
    markersComplete 0 splitFirst = false ∧ markersComplete 0 (splitFirst ++ splitSecond) = true ∧
      (Write tableFilter splitFirst []).failure = some Panic.outOfRange ∧
      (Write tableFilter splitFirst []).state.calls = [] ∧
      (Write tableFilter splitFirst [0, 7]).failure = some Panic.outOfRange ∧
      (Write tableFilter splitFirst [0, 7]).state.calls =
        [{ generatedLine := 1, generatedColumn := 2, fileSet := some [1], pos := 7 }] ∧
      (Write plainFilter splitFirst []).failure = some Panic.outOfRange ∧
      ((markersComplete 0 splitFirst = true →
          (∀ g, Write tableFilter splitFirst [0, 7] ≠ .panicked g .outOfRange) ∧
          ((tableFilter.MappingCallback = true → tableFilter.fileSet ≠ none) →
            ∃ g n, Write tableFilter splitFirst [0, 7] = .returned g (n, none))) ∧
        (markersComplete 0 splitFirst = false →
          ∃ g why, Write tableFilter splitFirst [0, 7] = .panicked g why) ∧
        ((tableFilter.MappingCallback = true → tableFilter.fileSet ≠ none) →
          ((∃ g, Write tableFilter splitFirst [0, 7] = .panicked g .outOfRange) ↔
            markersComplete 0 splitFirst = false))) :=
  ⟨by decide, by decide, by decide, by decide, by decide, by decide, by decide,
    write_out_of_range_iff_truncated tableFilter splitFirst [0, 7] acceptAll_accepts⟩

/-! ## Sequences of writes -/

theorem wrote_done (w : SourceMapFilter) : Wrote w [] (.returned w none) := by
  refine ⟨⟨0, by simp [Outcome.state]⟩, ?_, le_refl _, posLe_refl w, fun h => h, rfl, rfl,
    fun h => h, fun g h => by simp at h, fun _ g e h => by simp at h⟩
  intro g h
  simp only [Outcome.returned.injEq, and_true] at h
  rw [← h]
  simp

/-- A successful first write, followed by a call that writes the rest. -/
theorem wrote_step (w w1 : SourceMapFilter) (b : List UInt8) (L : List (List UInt8))
    (o : Outcome (Option GoError)) (htr : w1.trace = w.trace ++ [b])
    (hline : w.line ≤ w1.line) (hpos : PosLe w w1) (htk : Tracked w → Tracked w1)
    (hwr : w1.Writer = w.Writer) (hcb : w1.MappingCallback = w.MappingCallback)
    (hat : TableAttached w → TableAttached w1)
    (h : Wrote w1 L o) : Wrote w (b :: L) o := by
  refine ⟨?_, ?_, le_trans hline h.line, posLe_trans _ _ _ hpos h.pos,
    fun ht => h.tracked (htk ht), h.writer.trans hwr, h.callback.trans hcb,
    fun ha => h.attached (hat ha), h.finished, ?_⟩
  · obtain ⟨k, hk⟩ := h.part
    exact ⟨k + 1, by rw [hk, htr]; simp⟩
  · intro g hg
    rw [h.full g hg, htr]
    simp
  · intro hacc
    exact h.noError (by rw [hwr]; exact hacc)

/-- A call that stops right after its first write. -/
theorem wrote_stop (w w1 : SourceMapFilter) (b : List UInt8) (L : List (List UInt8))
    (o : Outcome (Option GoError)) (hst : o.state = w1) (htr : w1.trace = w.trace ++ [b])
    (hline : w.line ≤ w1.line) (hpos : PosLe w w1) (htk : Tracked w → Tracked w1)
    (hwr : w1.Writer = w.Writer) (hcb : w1.MappingCallback = w.MappingCallback)
    (hat : TableAttached w → TableAttached w1)
    (hnil : ∀ g, o ≠ .returned g none) (hfin : ∀ g, o ≠ .unfinished g)
    (herr : Accepts w.Writer → ∀ g e, o ≠ .returned g (some e)) : Wrote w (b :: L) o := by
  refine ⟨⟨1, by rw [hst, htr]; simp⟩, fun g hg => absurd hg (hnil g), by rw [hst]; exact hline,
    by rw [hst]; exact hpos, fun ht => by rw [hst]; exact htk ht, by rw [hst]; exact hwr,
    by rw [hst]; exact hcb, fun ha => by rw [hst]; exact hat ha, hfin, herr⟩

theorem tableAttached_congr (f g : SourceMapFilter)
    (h1 : g.MappingCallback = f.MappingCallback) (h2 : g.fileSet = f.fileSet)
    (h : TableAttached f) : TableAttached g := by
  unfold TableAttached at *
  rw [h1, h2]
  exact h

theorem wrote_writeThen (env : Env) (w : SourceMapFilter) (b : List UInt8)
    (L : List (List UInt8)) (k : SourceMapFilter → Outcome (Option GoError))
    (hk : ∀ w1, Wrote w1 L (k w1)) : Wrote w (b :: L) (writeThen env w b k) := by
  obtain ⟨k1, k2, k3, k4, k5, k6, k7, k8, k9⟩ := write_state w b (env.spare b)
  unfold writeThen
  cases hw : Write w b (env.spare b) with
  | returned w1 val =>
    rw [hw] at k1 k2 k3 k4 k5 k6 k7
    simp only [Outcome.state] at k1 k2 k3 k4 k5 k6 k7
    obtain ⟨n, oe⟩ := val
    cases oe with
    | none =>
      exact wrote_step w w1 b L _ k1 k5 k6 k7 k2 k3 (tableAttached_congr w w1 k3 k4) (hk w1)
    | some e =>
      refine wrote_stop w w1 b L _ rfl k1 k5 k6 k7 k2 k3 (tableAttached_congr w w1 k3 k4)
        (fun g h => by simp at h) (fun g h => by simp at h) ?_
      intro hacc g e2 _
      exact k9 hacc w1 n e hw
  | panicked w1 why =>
    rw [hw] at k1 k2 k3 k4 k5 k6 k7
    simp only [Outcome.state] at k1 k2 k3 k4 k5 k6 k7
    exact wrote_stop w w1 b L _ rfl k1 k5 k6 k7 k2 k3 (tableAttached_congr w w1 k3 k4)
      (fun g h => by simp at h) (fun g h => by simp at h) (fun _ g e h => by simp at h)
  | unfinished w1 => exact absurd hw (k8 w1)

theorem wrote_writeEach (env : Env) (w : SourceMapFilter) (frags L : List (List UInt8))
    (k : SourceMapFilter → Outcome (Option GoError)) (hk : ∀ w1, Wrote w1 L (k w1)) :
    Wrote w (frags ++ L) (writeEach env w frags k) := by
  induction frags generalizing w with
  | nil => exact hk w
  | cons b rest ih =>
    unfold writeEach
    exact wrote_writeThen env w b (rest ++ L) _ (fun w1 => ih w1)

/-- The property `Wrote` looks at the position table only to see whether one
is attached. -/
theorem wrote_fileSet (w w0 : SourceMapFilter) (L : List (List UInt8))
    (o : Outcome (Option GoError)) (h1 : w0.trace = w.trace) (h2 : w0.line = w.line)
    (h3 : w0.column = w.column) (h4 : w0.sunk = w.sunk) (h5 : w0.Writer = w.Writer)
    (h6 : w0.MappingCallback = w.MappingCallback) (h7 : TableAttached w → TableAttached w0)
    (h : Wrote w0 L o) : Wrote w L o := by
  refine ⟨?_, ?_, ?_, ?_, ?_, h.writer.trans h5, h.callback.trans h6,
    fun ha => h.attached (h7 ha), h.finished, ?_⟩
  · obtain ⟨k, hk⟩ := h.part
    exact ⟨k, by rw [hk, h1]⟩
  · intro g hg
    rw [h.full g hg, h1]
  · rw [← h2]
    exact h.line
  · have := h.pos
    unfold PosLe at this ⊢
    rw [← h2, ← h3]
    exact this
  · intro ht
    apply h.tracked
    unfold Tracked at ht ⊢
    rw [h2, h3, h4]
    exact ht
  · intro hacc
    exact h.noError (by rw [h5]; exact hacc)

/-- A first call that wrote `A` and, when it returned nil, a second call that
writes `B`. -/
theorem wrote_seq (w : SourceMapFilter) (A B : List (List UInt8))
    (o1 : Outcome (Option GoError)) (k : SourceMapFilter → Outcome (Option GoError))
    (h1 : Wrote w A o1) (hk : ∀ w1, Wrote w1 B (k w1)) :
    Wrote w (A ++ B) (o1.andThen k) := by
  unfold Outcome.andThen
  cases o1 with
  | returned w1 oe =>
    cases oe with
    | none =>
      simp only
      have h2 := hk w1
      have htr : w1.trace = w.trace ++ A := h1.full w1 rfl
      have hwr : w1.Writer = w.Writer := h1.writer
      refine ⟨?_, ?_, le_trans h1.line h2.line, posLe_trans _ _ _ h1.pos h2.pos,
        fun ht => h2.tracked (h1.tracked ht), h2.writer.trans hwr,
        h2.callback.trans h1.callback, fun ha => h2.attached (h1.attached ha), h2.finished, ?_⟩
      · obtain ⟨j, hj⟩ := h2.part
        refine ⟨A.length + j, ?_⟩
        rw [hj, htr, List.take_append, List.append_assoc]
      · intro g hg
        rw [h2.full g hg, htr, List.append_assoc]
      · intro hacc
        exact h2.noError (by rw [hwr]; exact hacc)
    | some e =>
      simp only
      refine ⟨?_, fun g hg => by simp at hg, h1.line, h1.pos, h1.tracked, h1.writer,
        h1.callback, h1.attached, fun g hg => by simp at hg, h1.noError⟩
      obtain ⟨j, hj⟩ := h1.part
      refine ⟨min j A.length, ?_⟩
      rw [hj, List.take_append_eq_append_take]
      have : min j A.length - A.length = 0 := by omega
      rw [this]
      simp [List.take_take]
  | panicked w1 why =>
    simp only
    refine ⟨?_, fun g hg => by simp at hg, h1.line, h1.pos, h1.tracked, h1.writer,
      h1.callback, h1.attached, fun g hg => by simp at hg, fun _ g e hg => by simp at hg⟩
    obtain ⟨j, hj⟩ := h1.part
    refine ⟨min j A.length, ?_⟩
    rw [hj, List.take_append_eq_append_take]
    have : min j A.length - A.length = 0 := by omega
    rw [this]
    simp [List.take_take]
  | unfinished w1 => exact absurd rfl (h1.finished w1)

/-! ## `WritePkgCode` and `WriteProgramCode` -/

theorem selectDecls_fold (heap : DeclPtr → Decl) (sel : List DeclPtr) (decls : List DeclPtr)
    (acc : List String × List DeclPtr) :
    decls.foldl
        (fun acc d => if d ∈ sel then (acc.1 ++ (heap d).Vars, acc.2 ++ [d]) else acc) acc =
      (acc.1 ++ (decls.filter (fun d => decide (d ∈ sel))).flatMap (fun d => (heap d).Vars),
        acc.2 ++ decls.filter (fun d => decide (d ∈ sel))) := by
  induction decls generalizing acc with
  | nil => simp
  | cons d rest ih =>
    rw [List.foldl_cons, ih]
    by_cases hd : d ∈ sel
    · simp [hd, List.filter_cons]
    · simp [hd, List.filter_cons]

theorem selectDecls_eq (heap : DeclPtr → Decl) (pkg : Archive) (sel : List DeclPtr) :
    selectDecls heap pkg sel =
      (["$pkg = \x7b\x7d", "$init"] ++
          (pkg.Declarations.filter (fun d => decide (d ∈ sel))).flatMap
            (fun d => (heap d).Vars),
        pkg.Declarations.filter (fun d => decide (d ∈ sel))) := by
  unfold selectDecls
  rw [selectDecls_fold]
  simp

theorem attachTable_fields (w : SourceMapFilter) (pkg : Archive) :
    (attachTable w pkg).trace = w.trace ∧ (attachTable w pkg).line = w.line ∧
      (attachTable w pkg).column = w.column ∧ (attachTable w pkg).sunk = w.sunk ∧
      (attachTable w pkg).Writer = w.Writer ∧
      (attachTable w pkg).MappingCallback = w.MappingCallback := by
  unfold attachTable
  split
  · exact ⟨rfl, rfl, rfl, rfl, rfl, rfl⟩
  · exact ⟨rfl, rfl, rfl, rfl, rfl, rfl⟩

/-- After lines 206-207 a position table is attached when one was before or
the archive has one. -/
theorem attachTable_attached (w : SourceMapFilter) (pkg : Archive)
    (h : w.MappingCallback = true → pkg.FileSet ≠ none ∨ w.fileSet ≠ none) :
    TableAttached (attachTable w pkg) := by
  unfold TableAttached attachTable
  by_cases hset : w.MappingCallback = true ∧ pkg.FileSet ≠ none
  · rw [if_pos hset]
    exact fun _ => hset.2
  · rw [if_neg hset]
    intro hcb
    rcases h hcb with h1 | h1
    · exact absurd ⟨hcb, h1⟩ hset
    · exact h1

/-- The slices of `WritePkgCode`, seen from the writer with the position table
of the archive attached. -/
theorem wrote_pkgCode_attached (env : Env) (heap : DeclPtr → Decl) (pkg : Archive)
    (sel : List DeclPtr) (minify : Bool) (w : SourceMapFilter) :
    Wrote (attachTable w pkg) (pkgSlices env heap pkg sel minify)
      (WritePkgCode env heap pkg sel minify w) := by
  unfold WritePkgCode attachTable
  simp only [selectDecls_eq]
  generalize (if w.MappingCallback = true ∧ pkg.FileSet ≠ none then
    { w with fileSet := pkg.FileSet } else w) = w0
  split
  · -- the position table cannot be read: the call panics before any write
    exact ⟨⟨0, by simp [Outcome.state]⟩, fun g h => by simp at h, le_refl _, posLe_refl _,
      fun h => h, rfl, rfl, fun h => h, fun g h => by simp at h, fun _ g e h => by simp at h⟩
  · unfold pkgSlices
    refine wrote_writeThen env w0 _ _ _ (fun w1 => ?_)
    refine wrote_writeThen env w1 _ _ _ (fun w2 => ?_)
    refine wrote_writeThen env w2 _ _ _ (fun w3 => ?_)
    refine wrote_writeEach env w3 _ _ _ (fun w4 => ?_)
    refine wrote_writeEach env w4 _ _ _ (fun w5 => ?_)
    refine wrote_writeEach env w5 _ _ _ (fun w6 => ?_)
    refine wrote_writeThen env w6 _ _ _ (fun w7 => ?_)
    refine wrote_writeEach env w7 _ _ _ (fun w8 => ?_)
    refine wrote_writeThen env w8 _ _ _ (fun w9 => ?_)
    refine wrote_writeThen env w9 _ _ _ (fun w10 => ?_)
    exact wrote_done w10

theorem wrote_writePkgCode (env : Env) (heap : DeclPtr → Decl) (pkg : Archive)
    (sel : List DeclPtr) (minify : Bool) (w : SourceMapFilter) :
    Wrote w (pkgSlices env heap pkg sel minify) (WritePkgCode env heap pkg sel minify w) := by
  obtain ⟨h1, h2, h3, h4, h5, h6⟩ := attachTable_fields w pkg
  exact wrote_fileSet w (attachTable w pkg) _ _ h1 h2 h3 h4 h5 h6
    (fun ha => attachTable_attached w pkg (fun hcb => Or.inr (ha hcb)))
    (wrote_pkgCode_attached env heap pkg sel minify w)

theorem wrote_writePkgs (env : Env) (heap : DeclPtr → Decl) (sel : List DeclPtr)
    (minify : Bool) (pkgs : List Archive) (L : List (List UInt8)) (w : SourceMapFilter)
    (k : SourceMapFilter → Outcome (Option GoError)) (hk : ∀ w1, Wrote w1 L (k w1)) :
    Wrote w (pkgs.flatMap (fun pkg => pkgSlices env heap pkg sel minify) ++ L)
      (writePkgs env heap sel minify pkgs w k) := by
  induction pkgs generalizing w with
  | nil => exact hk w
  | cons pkg rest ih =>
    have h := wrote_seq w (pkgSlices env heap pkg sel minify)
      (rest.flatMap (fun pkg => pkgSlices env heap pkg sel minify) ++ L)
      (WritePkgCode env heap pkg sel minify w)
      (fun w1 => writePkgs env heap sel minify rest w1 k)
      (wrote_writePkgCode env heap pkg sel minify w) (fun w1 => ih w1)
    unfold writePkgs
    simp only [List.flatMap_cons, List.append_assoc]
    exact h

theorem wrote_writeProgramCode (env : Env) (heap : DeclPtr → Decl) (pkgs : List Archive)
    (sel : List DeclPtr) (mainPkg : Archive) (w : SourceMapFilter)
    (hlast : pkgs.getLast? = some mainPkg) (hsel : dceSelection heap pkgs = some sel) :
    Wrote w (programSlices env heap pkgs sel mainPkg) (WriteProgramCode env heap pkgs w) := by
  unfold WriteProgramCode programSlices
  rw [hlast]
  simp only [hsel]
  refine wrote_writeThen env w _ _ _ (fun w1 => ?_)
  refine wrote_writeThen env w1 _ _ _ (fun w2 => ?_)
  refine wrote_writeThen env w2 _ _ _ (fun w3 => ?_)
  refine wrote_writePkgs env heap sel _ pkgs _ w3 _ (fun w4 => ?_)
  refine wrote_writeThen env w4 _ _ _ (fun w5 => ?_)
  exact wrote_done w5

/-! ## Calls that run to the end -/

theorem completes_done (w : SourceMapFilter) : Completes w [] (.returned w none) :=
  fun _ _ => ⟨w, rfl⟩

/-- A write the filter gets through hands over to the rest of the function,
with the same sink, callback and position table. -/
theorem writeThen_returns (env : Env) (w : SourceMapFilter) (b : List UInt8)
    (k : SourceMapFilter → Outcome (Option GoError)) (hacc : Accepts w.Writer)
    (hs : MarkerSafe w b) :
    ∃ g, writeThen env w b k = k g ∧ g.Writer = w.Writer ∧
      g.MappingCallback = w.MappingCallback ∧ g.fileSet = w.fileSet := by
  obtain ⟨g, hg, h1, h2, h3⟩ := write_safe w b (env.spare b) hacc hs
  refine ⟨g, ?_, h1, h2, h3⟩
  unfold writeThen
  rw [hg]

theorem completes_writeThen (env : Env) (w : SourceMapFilter) (b : List UInt8)
    (L : List (List UInt8)) (k : SourceMapFilter → Outcome (Option GoError))
    (hk : ∀ w1, Completes w1 L (k w1)) : Completes w (b :: L) (writeThen env w b k) := by
  intro hacc hs
  obtain ⟨g, hg, h1, h2, h3⟩ := writeThen_returns env w b k hacc (hs b (List.mem_cons_self _ _))
  rw [hg]
  exact hk g (by rw [h1]; exact hacc)
    (fun x hx => markerSafe_congr w g x h2 h3 (hs x (List.mem_cons_of_mem _ hx)))

theorem completes_writeEach (env : Env) (w : SourceMapFilter) (frags L : List (List UInt8))
    (k : SourceMapFilter → Outcome (Option GoError)) (hk : ∀ w1, Completes w1 L (k w1)) :
    Completes w (frags ++ L) (writeEach env w frags k) := by
  induction frags generalizing w with
  | nil => exact hk w
  | cons b rest ih =>
    unfold writeEach
    exact completes_writeThen env w b (rest ++ L) _ (fun w1 => ih w1)

/-- The call `WritePkgCode` returns nil when the position table can be read,
the sink accepts every write and the writer, with the position table of the
archive attached, gets through every slice. -/
theorem completes_writePkgCode (env : Env) (heap : DeclPtr → Decl) (pkg : Archive)
    (sel : List DeclPtr) (minify : Bool) (w : SourceMapFilter)
    (hfs : ∀ t : List UInt8, pkg.FileSet = some t → env.readFileSet t = true) :
    Completes (attachTable w pkg) (pkgSlices env heap pkg sel minify)
      (WritePkgCode env heap pkg sel minify w) := by
  unfold WritePkgCode attachTable
  simp only [selectDecls_eq]
  have hgood : ¬ (w.MappingCallback = true ∧ pkg.FileSet ≠ none ∧
      env.readFileSet (pkg.FileSet.getD []) = false) := by
    rintro ⟨_, h2, h3⟩
    cases hft : pkg.FileSet with
    | none => exact h2 hft
    | some t =>
      rw [hft] at h3
      simp only [Option.getD_some] at h3
      rw [hfs t hft] at h3
      exact absurd h3 (by simp)
  rw [if_neg hgood]
  generalize (if w.MappingCallback = true ∧ pkg.FileSet ≠ none then
    { w with fileSet := pkg.FileSet } else w) = w0
  unfold pkgSlices
  refine completes_writeThen env w0 _ _ _ (fun w1 => ?_)
  refine completes_writeThen env w1 _ _ _ (fun w2 => ?_)
  refine completes_writeThen env w2 _ _ _ (fun w3 => ?_)
  refine completes_writeEach env w3 _ _ _ (fun w4 => ?_)
  refine completes_writeEach env w4 _ _ _ (fun w5 => ?_)
  refine completes_writeEach env w5 _ _ _ (fun w6 => ?_)
  refine completes_writeThen env w6 _ _ _ (fun w7 => ?_)
  refine completes_writeEach env w7 _ _ _ (fun w8 => ?_)
  refine completes_writeThen env w8 _ _ _ (fun w9 => ?_)
  refine completes_writeThen env w9 _ _ _ (fun w10 => ?_)
  exact completes_done w10

/-- The call `WritePkgCode` returns nil over an accepting sink when every
slice has complete markers, the position table can be read and, with a
callback registered, the archive has a position table or one is attached
already. -/
theorem writePkgCode_returns (env : Env) (heap : DeclPtr → Decl) (pkg : Archive)
    (sel : List DeclPtr) (minify : Bool) (w : SourceMapFilter)
    (hacc : Accepts w.Writer)
    (hc : ∀ b ∈ pkgSlices env heap pkg sel minify, markersComplete 0 b = true)
    (hfs : ∀ t : List UInt8, pkg.FileSet = some t → env.readFileSet t = true)
    (hat : w.MappingCallback = true → pkg.FileSet ≠ none ∨ w.fileSet ≠ none) :
    ∃ g, WritePkgCode env heap pkg sel minify w = .returned g none ∧
      g.Writer = w.Writer ∧ TableAttached g := by
  have ha := attachTable_attached w pkg hat
  obtain ⟨_, _, _, _, h5, _⟩ := attachTable_fields w pkg
  obtain ⟨g, hg⟩ := completes_writePkgCode env heap pkg sel minify w hfs
    (by rw [h5]; exact hacc)
    (fun b hb => markerSafe_of_complete _ b (hc b hb) ha)
  have hw := wrote_pkgCode_attached env heap pkg sel minify w
  have h1 := hw.writer
  have h2 := hw.attached ha
  rw [hg] at h1 h2
  exact ⟨g, hg, h1.trans h5, h2⟩

/-- The loop over the archives returns nil when a position table is attached,
or every archive of a non-empty list has one. -/
theorem writePkgs_returns (env : Env) (heap : DeclPtr → Decl) (sel : List DeclPtr)
    (minify : Bool) (pkgs : List Archive) (w : SourceMapFilter)
    (k : SourceMapFilter → Outcome (Option GoError)) (hfs : FileSetsOk env pkgs)
    (hacc : Accepts w.Writer)
    (hc : ∀ b ∈ pkgs.flatMap (fun pkg => pkgSlices env heap pkg sel minify),
      markersComplete 0 b = true)
    (hat : TableAttached w ∨ (pkgs ≠ [] ∧ ∀ pkg ∈ pkgs, pkg.FileSet ≠ none))
    (hk : ∀ w1, Accepts w1.Writer → TableAttached w1 → ∃ g, k w1 = .returned g none) :
    ∃ g, writePkgs env heap sel minify pkgs w k = .returned g none := by
  induction pkgs generalizing w with
  | nil =>
    rcases hat with h | ⟨h, _⟩
    · exact hk w hacc h
    · exact absurd rfl h
  | cons pkg rest ih =>
    have hat0 : w.MappingCallback = true → pkg.FileSet ≠ none ∨ w.fileSet ≠ none := by
      intro hcb
      rcases hat with h | ⟨_, h⟩
      · exact Or.inr (h hcb)
      · exact Or.inl (h pkg (List.mem_cons_self _ _))
    obtain ⟨g, hg, hwr, hag⟩ := writePkgCode_returns env heap pkg sel minify w hacc
      (fun b hb => hc b (by
        simp only [List.flatMap_cons, List.mem_append]
        exact Or.inl hb))
      (fun t ht => hfs pkg (List.mem_cons_self _ _) t ht) hat0
    unfold writePkgs
    rw [hg]
    simp only [Outcome.andThen]
    exact ih g (fun q hq => hfs q (List.mem_cons_of_mem _ hq)) (by rw [hwr]; exact hacc)
      (fun b hb => hc b (by
        simp only [List.flatMap_cons, List.mem_append]
        exact Or.inr hb))
      (Or.inl hag)

/-- The call `WriteProgramCode` returns nil over an accepting sink when every
slice has complete markers, the position tables can be read and, with a
callback registered, a position table is attached to the writer, or every
archive has one and the three leading slices hold no sentinel. -/
theorem writeProgramCode_returns (env : Env) (heap : DeclPtr → Decl) (pkgs : List Archive)
    (sel : List DeclPtr) (mainPkg : Archive) (w : SourceMapFilter)
    (hlast : pkgs.getLast? = some mainPkg) (hsel : dceSelection heap pkgs = some sel)
    (hacc : Accepts w.Writer)
    (hc : ∀ b ∈ programSlices env heap pkgs sel mainPkg, markersComplete 0 b = true)
    (hfs : FileSetsOk env pkgs)
    (hat : (w.MappingCallback = true → w.fileSet ≠ none) ∨
      ((∀ b ∈ (programSlices env heap pkgs sel mainPkg).take 3, (8 : UInt8) ∉ b) ∧
        ∀ pkg ∈ pkgs, pkg.FileSet ≠ none)) :
    ∃ g, WriteProgramCode env heap pkgs w = .returned g none := by
  have hne : pkgs ≠ [] := by
    intro h
    rw [h] at hlast
    simp at hlast
  have hsafe : ∀ w1 : SourceMapFilter, w1.MappingCallback = w.MappingCallback →
      w1.fileSet = w.fileSet →
      ∀ b ∈ (programSlices env heap pkgs sel mainPkg).take 3, MarkerSafe w1 b := by
    intro w1 e1 e2 b hb
    refine ⟨hc b (List.mem_of_mem_take hb), ?_⟩
    rw [e1, e2]
    intro hcb hnil
    rcases hat with h | ⟨h, _⟩
    · exact absurd hnil (h hcb)
    · exact h b hb
  unfold programSlices at hc hsafe
  simp only [List.take_succ_cons, List.take_zero, List.mem_cons, List.mem_append,
    List.mem_singleton, List.not_mem_nil, or_false, forall_eq_or_imp, forall_eq] at hc hsafe
  unfold WriteProgramCode
  rw [hlast]
  simp only [hsel]
  obtain ⟨w1, e, a1, b1, c1⟩ := writeThen_returns env w (goBytes programOpening) _ hacc
    (hsafe w rfl rfl).1
  rw [e]
  obtain ⟨w2, e, a2, b2, c2⟩ := writeThen_returns env w1
    (env.removeWhitespace (goBytes env.Prelude) mainPkg.Minified) _ (by rw [a1]; exact hacc)
    (hsafe w1 b1 c1).2.1
  rw [e]
  obtain ⟨w3, e, a3, b3, c3⟩ := writeThen_returns env w2 (goBytes "\n") _
    (by rw [a2, a1]; exact hacc) (hsafe w2 (b2.trans b1) (c2.trans c1)).2.2
  rw [e]
  have hat3 : TableAttached w3 ∨ (pkgs ≠ [] ∧ ∀ pkg ∈ pkgs, pkg.FileSet ≠ none) := by
    rcases hat with h | ⟨_, h⟩
    · exact Or.inl (tableAttached_congr w w3 (b3.trans (b2.trans b1))
        (c3.trans (c2.trans c1)) h)
    · exact Or.inr ⟨hne, h⟩
  refine writePkgs_returns env heap sel mainPkg.Minified pkgs w3 _ hfs
    (by rw [a3, a2, a1]; exact hacc) (fun b hb => hc.2.2.2 b (Or.inl hb)) hat3 ?_
  intro w4 hacc4 hat4
  obtain ⟨w5, e, _⟩ := writeThen_returns env w4 (goBytes (programEpilogue mainPkg.ImportPath))
    (fun w5 => Outcome.returned w5 none) hacc4
    (markerSafe_of_complete w4 _ (hc.2.2.2 _ (Or.inr rfl)) hat4)
  exact ⟨w5, e⟩

theorem runOps_state (env : Env) (heap : DeclPtr → Decl) (f : SourceMapFilter)
    (ops : List FilterOp) :
    f.line ≤ (runOps env heap f ops).line ∧ PosLe f (runOps env heap f ops) ∧
      (Tracked f → Tracked (runOps env heap f ops)) := by
  induction ops generalizing f with
  | nil => exact ⟨le_refl _, posLe_refl f, fun h => h⟩
  | cons op rest ih =>
    cases op with
    | write p spare =>
      obtain ⟨_, _, _, _, k5, k6, k7, _, _⟩ := write_state f p spare
      unfold runOps
      cases hw : Write f p spare with
      | returned g v =>
        rw [hw] at k5 k6 k7
        simp only [Outcome.state] at k5 k6 k7
        obtain ⟨h1, h2, h3⟩ := ih g
        exact ⟨le_trans k5 h1, posLe_trans _ _ _ k6 h2, fun ht => h3 (k7 ht)⟩
      | panicked g why =>
        rw [hw] at k5 k6 k7
        exact ⟨k5, k6, k7⟩
      | unfinished g =>
        rw [hw] at k5 k6 k7
        exact ⟨k5, k6, k7⟩
    | pkgCode pkg sel minify =>
      have hw := wrote_writePkgCode env heap pkg sel minify f
      have k5 := hw.line
      have k6 := hw.pos
      have k7 := hw.tracked
      unfold runOps
      cases ho : WritePkgCode env heap pkg sel minify f with
      | returned g v =>
        rw [ho] at k5 k6 k7
        simp only [Outcome.state] at k5 k6 k7
        obtain ⟨h1, h2, h3⟩ := ih g
        exact ⟨le_trans k5 h1, posLe_trans _ _ _ k6 h2, fun ht => h3 (k7 ht)⟩
      | panicked g why =>
        rw [ho] at k5 k6 k7
        exact ⟨k5, k6, k7⟩
      | unfinished g =>
        rw [ho] at k5 k6 k7
        exact ⟨k5, k6, k7⟩

theorem flatMap_congr_mem {α β : Type} (l : List α) (f g : α → List β)
    (h : ∀ a ∈ l, f a = g a) : l.flatMap f = l.flatMap g := by
  induction l with
  | nil => rfl
  | cons a rest ih =>
    simp only [List.flatMap_cons]
    rw [h a (List.mem_cons_self _ _), ih (fun x hx => h x (List.mem_cons_of_mem _ hx))]

theorem map_congr_mem {α β : Type} (l : List α) (f g : α → β)
    (h : ∀ a ∈ l, f a = g a) : l.map f = l.map g := by
  induction l with
  | nil => rfl
  | cons a rest ih =>
    simp only [List.map_cons]
    rw [h a (List.mem_cons_self _ _), ih (fun x hx => h x (List.mem_cons_of_mem _ hx))]

theorem filter_removed (decls sel removed : List DeclPtr) (hrem : ∀ d ∈ removed, d ∉ sel) :
    (decls.filter (fun d => decide (d ∉ removed))).filter (fun d => decide (d ∈ sel)) =
      decls.filter (fun d => decide (d ∈ sel)) := by
  induction decls with
  | nil => rfl
  | cons d rest ih =>
    by_cases hd : d ∈ sel
    · have hnr : d ∉ removed := fun h => hrem d h hd
      simp only [List.filter_cons, hnr, not_false_eq_true, decide_True, if_true, hd]
      rw [ih]
    · by_cases hr : d ∈ removed
      · simp only [List.filter_cons, hr, not_true_eq_false, decide_False, hd]
        simpa using ih
      · simp only [List.filter_cons, hr, not_false_eq_true, decide_True, if_true, hd,
          decide_False]
        simpa using ih

/-! ## The claims on the assembler -/

/-- C14: over every sequence of `Write` and `WritePkgCode` calls on a filter
the line counter never decreases and the position `(line, column)` never
decreases in lexicographic order; `WritePkgCode` does not reset them, so
counters that agree with the bytes forwarded so far still agree with them
after the sequence. -/
theorem counters_monotonic (env : Env) (heap : DeclPtr → Decl) (f : SourceMapFilter)
    (ops : List FilterOp) :
    f.line ≤ (runOps env heap f ops).line ∧ PosLe f (runOps env heap f ops) ∧
      (Tracked f → Tracked (runOps env heap f ops)) ∧
      (∀ (pkg : Archive) (sel : List DeclPtr) (minify : Bool),
        PosLe f (WritePkgCode env heap pkg sel minify f).state) := by
  obtain ⟨h1, h2, h3⟩ := runOps_state env heap f ops
  exact ⟨h1, h2, h3, fun pkg sel minify => (wrote_writePkgCode env heap pkg sel minify f).pos⟩

theorem getLast?_cons_of {α : Type} (a b : α) (l : List α) (h : l.getLast? = some b) :
    (a :: l).getLast? = some b := by
  cases l with
  | nil => simp at h
  | cons c l => simpa [List.getLast?_cons_cons] using h

theorem getLast?_append_of {α : Type} (b : α) (xs l : List α) (h : l.getLast? = some b) :
    (xs ++ l).getLast? = some b := by
  simp [List.getLast?_append, h]

set_option maxRecDepth 100000 in
/-- C15, as stated, fails: the slices passed to the writer are not the whole
list for every archive.  For `cutPkg`, whose declaration code ends inside a
marker, `WritePkgCode` panics in the fourth write, over a sink that accepts
every write and without callback: of the ten slices of the list only the
first four are passed.  The same happens for an archive without position
table whose declaration code holds a complete marker, when a callback is
registered on a fresh writer: the lookup on the nil table panics.  And for an
archive whose position table cannot be read the call panics before the first
write. -/
theorem writePkgCode_slices_counterexample :
    Accepts plainFilter.Writer ∧
      (pkgSlices asmEnv cutHeap cutPkg [20] false).length = 10 ∧
      (WritePkgCode asmEnv cutHeap cutPkg [20] false plainFilter).failure =
        some Panic.outOfRange ∧
      (WritePkgCode asmEnv cutHeap cutPkg [20] false plainFilter).state.trace =
        (pkgSlices asmEnv cutHeap cutPkg [20] false).take 4 ∧
      (∀ b ∈ pkgSlices asmEnv bareHeap cutPkg [20] false, markersComplete 0 b = true) ∧
      (WritePkgCode asmEnv bareHeap cutPkg [20] false freshFilter).failure =
        some Panic.nilFileSet ∧
      (WritePkgCode asmEnv bareHeap cutPkg [20] false freshFilter).state.trace =
        (pkgSlices asmEnv bareHeap cutPkg [20] false).take 4 ∧
      (WritePkgCode strictEnv mapHeap mapPkg [21] false freshFilter).failure =
        some Panic.readFileSet ∧
      (WritePkgCode strictEnv mapHeap mapPkg [21] false freshFilter).state.trace = [] :=
  ⟨acceptAll_accepts, by decide, by decide, by decide, by decide, by decide, by decide,
    by decide, by decide⟩

/-- C15, amended: the byte slices `WritePkgCode` passes to the writer are an
initial part of the list of the specification (include, header, variable
statement, the fragments of the selected declarations pass by pass, the fixed
fragments of the init function, the final newline), in that order; they are
the whole list when the call returns nil.  It returns nil over a sink that
accepts every write when every slice has complete markers, the position table
can be read and, with a callback registered, the archive has a position table
or one is attached already.  The list ends with the newline as it is,
whatever the minify flag and `removeWhitespace` are. -/
theorem writePkgCode_slices (env : Env) (heap : DeclPtr → Decl) (pkg : Archive)
    (sel : List DeclPtr) (minify : Bool) (w : SourceMapFilter) :
    (∃ k : Nat, (WritePkgCode env heap pkg sel minify w).state.trace =
        w.trace ++ (pkgSlices env heap pkg sel minify).take k) ∧
      (∀ g, WritePkgCode env heap pkg sel minify w = .returned g none →
        g.trace = w.trace ++ pkgSlices env heap pkg sel minify) ∧
      (Accepts w.Writer → (∀ b ∈ pkgSlices env heap pkg sel minify, markersComplete 0 b = true) →
        (∀ t : List UInt8, pkg.FileSet = some t → env.readFileSet t = true) →
        (w.MappingCallback = true → pkg.FileSet ≠ none ∨ w.fileSet ≠ none) →
        ∃ g, WritePkgCode env heap pkg sel minify w = .returned g none) ∧
      (pkgSlices env heap pkg sel minify).getLast? = some (goBytes "\n") := by
  have hw := wrote_writePkgCode env heap pkg sel minify w
  refine ⟨hw.part, hw.full, fun hacc hc hfs hat => ?_, ?_⟩
  · obtain ⟨g, hg, _⟩ := writePkgCode_returns env heap pkg sel minify w hacc hc hfs hat
    exact ⟨g, hg⟩
  · unfold pkgSlices
    refine getLast?_cons_of _ _ _ (getLast?_cons_of _ _ _ (getLast?_cons_of _ _ _ ?_))
    refine getLast?_append_of _ _ _ (getLast?_append_of _ _ _ (getLast?_append_of _ _ _ ?_))
    exact getLast?_cons_of _ _ _ (getLast?_append_of _ _ _ rfl)

/-- C16: a declaration outside the selection contributes nothing: removing
declarations that are not selected from the archive, and replacing the record
of any declaration that is not selected, leaves the whole outcome of
`WritePkgCode`, and so the slices it writes, unchanged. -/
theorem writePkgCode_ignores_unselected (env : Env) (heap heap2 : DeclPtr → Decl)
    (pkg : Archive) (sel removed : List DeclPtr) (minify : Bool) (w : SourceMapFilter)
    (hrem : ∀ d ∈ removed, d ∉ sel) (hheap : ∀ d ∈ sel, heap2 d = heap d) :
    WritePkgCode env heap2
        { pkg with Declarations := pkg.Declarations.filter (fun d => decide (d ∉ removed)) }
        sel minify w =
      WritePkgCode env heap pkg sel minify w := by
  have hmem : ∀ d ∈ pkg.Declarations.filter (fun d => decide (d ∈ sel)), heap2 d = heap d := by
    intro d hd
    apply hheap
    simpa using (List.mem_filter.mp hd).2
  unfold WritePkgCode
  simp only [selectDecls_eq, filter_removed _ _ _ hrem]
  rw [flatMap_congr_mem _ (fun d => (heap2 d).Vars) (fun d => (heap d).Vars)
      (fun d hd => by simp only [hmem d hd]),
    map_congr_mem _ (fun d => (heap2 d).DeclCode) (fun d => (heap d).DeclCode)
      (fun d hd => by simp only [hmem d hd]),
    map_congr_mem _ (fun d => (heap2 d).MethodListCode) (fun d => (heap d).MethodListCode)
      (fun d hd => by simp only [hmem d hd]),
    map_congr_mem _ (fun d => (heap2 d).TypeInitCode) (fun d => (heap d).TypeInitCode)
      (fun d hd => by simp only [hmem d hd]),
    map_congr_mem _ (fun d => (heap2 d).InitCode) (fun d => (heap d).InitCode)
      (fun d hd => by simp only [hmem d hd])]

theorem writePkgCode_ignores_unselected_witness :
    WritePkgCode asmEnv scenarioHeapAlt
        { scenarioPkg4 with
          Declarations := scenarioPkg4.Declarations.filter (fun d => decide (d ∉ [4])) }
        [1, 3] false plainFilter =
      WritePkgCode asmEnv scenarioHeap scenarioPkg4 [1, 3] false plainFilter :=
  writePkgCode_ignores_unselected asmEnv scenarioHeap scenarioHeapAlt scenarioPkg4 [1, 3] [4]
    false plainFilter (by decide) (by decide)

set_option maxRecDepth 100000 in
/-- C17, as stated, fails: over a sink that accepts every write the whole
text is not written for every non-empty list of archives.  For the list
`[cutPkg, asmMain]`, the declaration code of `cutPkg` ending inside a marker,
`WriteProgramCode` panics inside the first module block: of the 24 slices of
the list only the first seven are passed to the writer, and neither the
second module block nor the epilogue follows.  With a complete marker in that
fragment, no position table in the archives and a callback registered on a
fresh writer the call stops at the same place, in the lookup on the nil
table; and with a position table that cannot be read it stops after the three
leading slices. -/
theorem writeProgramCode_order_counterexample :
    Accepts plainFilter.Writer ∧
      [cutPkg, asmMain] ≠ [] ∧
      dceSelection cutHeap [cutPkg, asmMain] = some [20, 11] ∧
      (programSlices asmEnv cutHeap [cutPkg, asmMain] [20, 11] asmMain).length = 24 ∧
      (WriteProgramCode asmEnv cutHeap [cutPkg, asmMain] plainFilter).failure =
        some Panic.outOfRange ∧
      (WriteProgramCode asmEnv cutHeap [cutPkg, asmMain] plainFilter).state.trace =
        (programSlices asmEnv cutHeap [cutPkg, asmMain] [20, 11] asmMain).take 7 ∧
      (∀ b ∈ programSlices asmEnv bareHeap [cutPkg, asmMain] [20, 11] asmMain,
        markersComplete 0 b = true) ∧
      (WriteProgramCode asmEnv bareHeap [cutPkg, asmMain] freshFilter).failure =
        some Panic.nilFileSet ∧
      (WriteProgramCode asmEnv bareHeap [cutPkg, asmMain] freshFilter).state.trace =
        (programSlices asmEnv bareHeap [cutPkg, asmMain] [20, 11] asmMain).take 7 ∧
      (WriteProgramCode strictEnv mapHeap [mapPkg] freshFilter).failure =
        some Panic.readFileSet ∧
      (WriteProgramCode strictEnv mapHeap [mapPkg] freshFilter).state.trace =
        (programSlices strictEnv mapHeap [mapPkg] [21] mapPkg).take 3 :=
  ⟨acceptAll_accepts, by decide, by decide, by decide, by decide, by decide, by decide,
    by decide, by decide, by decide, by decide⟩

/-- C17, amended: for a list of archives whose last element is `mainPkg`, the
slices `WriteProgramCode` passes to the writer are an initial part of: the
opening, the prelude, a newline, one module block per archive in list order
(the slices of `WritePkgCode` for the program-wide selection), and the
epilogue naming the import path of `mainPkg`; the minify flag is that of
`mainPkg` throughout.  They are the whole list when the call returns nil.
Over a sink that accepts every write the call returns no error, and it
returns nil, having written the whole list, when every slice has complete
markers, the position tables can be read and, with a callback registered, a
position table is attached to the writer, or every archive has one and the
three leading slices hold no sentinel. -/
theorem writeProgramCode_order (env : Env) (heap : DeclPtr → Decl) (pkgs : List Archive)
    (mainPkg : Archive) (w : SourceMapFilter) (hlast : pkgs.getLast? = some mainPkg) :
    ∃ sel, dceSelection heap pkgs = some sel ∧
      (∃ k : Nat, (WriteProgramCode env heap pkgs w).state.trace =
        w.trace ++ (programSlices env heap pkgs sel mainPkg).take k) ∧
      (∀ g, WriteProgramCode env heap pkgs w = .returned g none →
        g.trace = w.trace ++ programSlices env heap pkgs sel mainPkg) ∧
      (Accepts w.Writer →
        (∀ g e, WriteProgramCode env heap pkgs w ≠ .returned g (some e)) ∧
        ((∀ b ∈ programSlices env heap pkgs sel mainPkg, markersComplete 0 b = true) →
          FileSetsOk env pkgs →
          ((w.MappingCallback = true → w.fileSet ≠ none) ∨
            ((∀ b ∈ (programSlices env heap pkgs sel mainPkg).take 3, (8 : UInt8) ∉ b) ∧
              ∀ pkg ∈ pkgs, pkg.FileSet ≠ none)) →
          ∃ g, WriteProgramCode env heap pkgs w = .returned g none ∧
            g.trace = w.trace ++ programSlices env heap pkgs sel mainPkg)) := by
  obtain ⟨t, ht, _, _⟩ := dceSelection_run heap pkgs
  have hw := wrote_writeProgramCode env heap pkgs t.dceSelection mainPkg w hlast ht
  refine ⟨t.dceSelection, ht, hw.part, hw.full, fun hacc => ⟨hw.noError hacc, ?_⟩⟩
  intro hc hfs hat
  obtain ⟨g, hg⟩ := writeProgramCode_returns env heap pkgs t.dceSelection mainPkg w hlast ht
    hacc hc hfs hat
  exact ⟨g, hg, hw.full g hg⟩

set_option maxRecDepth 100000 in
theorem writeProgramCode_order_witness :
    dceSelection asmHeap [asmRuntime, asmMain] = some [10, 11] ∧
      programSlices asmEnv asmHeap [asmRuntime, asmMain] [10, 11] asmMain =
        goBytes programOpening :: goBytes "var $packages;" :: goBytes "\n" ::
          (pkgSlices asmEnv asmHeap asmRuntime [10, 11] false ++
            (pkgSlices asmEnv asmHeap asmMain [10, 11] false ++
              [goBytes (programEpilogue "main")])) ∧
      (WriteProgramCode asmEnv asmHeap [asmRuntime, asmMain] plainFilter).state.trace =
        programSlices asmEnv asmHeap [asmRuntime, asmMain] [10, 11] asmMain ∧
      (WriteProgramCode asmEnv asmHeap [asmRuntime, asmMain] plainFilter).failure = none ∧
      (WriteProgramCode asmEnv mapHeap [mapPkg] freshFilter).state.trace =
        programSlices asmEnv mapHeap [mapPkg] [21] mapPkg ∧
      (WriteProgramCode asmEnv mapHeap [mapPkg] freshFilter).state.calls =
        [{ generatedLine := 7, generatedColumn := 1, fileSet := some [1], pos := 7 }] ∧
      ∃ sel, dceSelection asmHeap [asmRuntime, asmMain] = some sel ∧
        (∃ k : Nat, (WriteProgramCode asmEnv asmHeap [asmRuntime, asmMain] plainFilter).state.trace =
          plainFilter.trace ++ (programSlices asmEnv asmHeap [asmRuntime, asmMain] sel asmMain).take k) ∧
        (∀ g, WriteProgramCode asmEnv asmHeap [asmRuntime, asmMain] plainFilter = .returned g none →
          g.trace = plainFilter.trace ++ programSlices asmEnv asmHeap [asmRuntime, asmMain] sel asmMain) ∧
        (Accepts plainFilter.Writer →
          (∀ g e, WriteProgramCode asmEnv asmHeap [asmRuntime, asmMain] plainFilter ≠
            .returned g (some e)) ∧
          ((∀ b ∈ programSlices asmEnv asmHeap [asmRuntime, asmMain] sel asmMain,
              markersComplete 0 b = true) →
            FileSetsOk asmEnv [asmRuntime, asmMain] →
            ((plainFilter.MappingCallback = true → plainFilter.fileSet ≠ none) ∨
              ((∀ b ∈ (programSlices asmEnv asmHeap [asmRuntime, asmMain] sel asmMain).take 3,
                  (8 : UInt8) ∉ b) ∧
                ∀ pkg ∈ [asmRuntime, asmMain], pkg.FileSet ≠ none)) →
            ∃ g, WriteProgramCode asmEnv asmHeap [asmRuntime, asmMain] plainFilter =
                .returned g none ∧
              g.trace = plainFilter.trace ++
                programSlices asmEnv asmHeap [asmRuntime, asmMain] sel asmMain)) :=
  ⟨by decide, rfl, by decide, by decide, by decide, by decide,
    writeProgramCode_order asmEnv asmHeap [asmRuntime, asmMain] asmMain plainFilter rfl⟩

/-! ## The claim on the end of the elimination -/

theorem dceLoop_mono (heap : DeclPtr → Decl) (fuel k : Nat) (s t : DceState)
    (h : dceLoop heap fuel s = some t) : dceLoop heap (fuel + k) s = some t := by
  induction fuel generalizing s with
  | zero =>
    unfold dceLoop at h ⊢
    cases hl : s.pendingDecls.getLast? with
    | none =>
      rw [hl] at h
      exact h
    | some d =>
      rw [hl] at h
      simp at h
  | succ fuel ih =>
    have hk : fuel + 1 + k = (fuel + k) + 1 := by omega
    rw [hk]
    unfold dceLoop at h ⊢
    cases hl : s.pendingDecls.getLast? with
    | none =>
      rw [hl] at h
      exact h
    | some d =>
      rw [hl] at h
      simp only at h ⊢
      exact ih _ h

/-- C19: the elimination is total: for every list of archives the worklist
loop of `WriteProgramCode` halts with an empty worklist, within as many
iterations as there are worklist entries and index entries after setup, and
with any larger budget it ends in the same state; each iteration lowers that
count, whatever element is popped. -/
theorem dce_total (heap : DeclPtr → Decl) (pkgs : List Archive) :
    ∃ t, dceLoop heap (dceMeasure (dceSetup heap pkgs)) (dceSetup heap pkgs) = some t ∧
      t.pendingDecls = [] ∧
      dceSelection heap pkgs = some t.dceSelection ∧
      (∀ fuel, dceMeasure (dceSetup heap pkgs) ≤ fuel →
        dceLoop heap fuel (dceSetup heap pkgs) = some t) ∧
      (∀ s u, PopStep heap s u → dceMeasure u < dceMeasure s) := by
  obtain ⟨t, ht⟩ := dceLoop_total heap (dceMeasure (dceSetup heap pkgs)) (dceSetup heap pkgs)
    (le_refl _)
  obtain ⟨_, hemp⟩ := dceLoop_run heap _ _ t ht
  refine ⟨t, ht, hemp, ?_, ?_, ?_⟩
  · unfold dceSelection
    rw [ht]
    rfl
  · intro fuel hf
    obtain ⟨k, hk⟩ := Nat.exists_eq_add_of_le hf
    rw [hk]
    exact dceLoop_mono heap _ k _ t ht
  · intro s u hsu
    have := popStep_measure heap s u hsu
    omega

end Compiler
